import Mathlib

/-!
# Tooey rendering pipeline: cell buffer, diff engine, painter, focus and input

A shallow embedding of `cell/cell.go`, `cell/paint.go`, `diff/diff.go`,
`node/node.go`, `focus/focus.go`, the key parser of `input/input.go`, the
editing functions of `component/textinput.go` and `markdown/markdown.go`.

Modelling conventions.

* Go `int` is modelled by `Int`.  Terminal coordinates are far away from the
  64-bit bounds, so additions are the mathematical ones.  Where a property is
  stated of any integer, `intersect64` gives `intersect` with the wrap-around
  of the 64-bit `int`.
* Go `rune` (an `int32`) is modelled by `Int`; `Color` and `StyleFlags`
  (both `uint8`) are modelled by `Nat`.
* A Go `string` is modelled by the sequence of its code points, `List Char`.
* A Go slice is modelled by a `List`.  An index or slice expression out of
  range panics in Go; the embedding returns `none` there.
* A `*Buffer` or `*Manager` that is mutated in place is modelled by state
  passing.
* A `byte` is modelled by a `Nat` below 256.
-/

namespace Tooey

/-! ## Loops -/

/-- The counting loop `for i := lo; i < lo + n; i++ { s = body i s }`, where a
`none` of the body (a panic) aborts the loop. -/
def forRange {σ : Type} (body : Int → σ → Option σ) : Nat → Int → σ → Option σ
  | 0, _, s => some s
  | n + 1, i, s => (body i s).bind (forRange body n (i + 1))

/-! ## node/node.go -/

/-- Go `type NodeType int`. -/
abbrev NodeType := Int

/-- Constant `TextNode`. -/
abbrev TextNode : NodeType := 0
/-- Constant `BoxNode`. -/
abbrev BoxNode : NodeType := 1
/-- Constant `RowNode`. -/
abbrev RowNode : NodeType := 2
/-- Constant `ColumnNode`. -/
abbrev ColumnNode : NodeType := 3
/-- Constant `ListNode`. -/
abbrev ListNode : NodeType := 4
/-- Constant `PaneNode`. -/
abbrev PaneNode : NodeType := 5
/-- Constant `SpacerNode`. -/
abbrev SpacerNode : NodeType := 6

/-- Go `type Color uint8`; 0 means default/unset. -/
abbrev Color := Nat

/-- Go `type StyleFlags uint8`. -/
abbrev StyleFlags := Nat

/-- Go `type BorderStyle int`. -/
abbrev BorderStyle := Int

/-- Constant `BorderNone`. -/
abbrev BorderNone : BorderStyle := 0
/-- Constant `BorderSingle`. -/
abbrev BorderSingle : BorderStyle := 1
/-- Constant `BorderDouble`. -/
abbrev BorderDouble : BorderStyle := 2
/-- Constant `BorderRounded`. -/
abbrev BorderRounded : BorderStyle := 3

/-- Go `type Props struct`. -/
structure Props where
  Text : List Char := []
  Width : Int := 0
  Height : Int := 0
  FlexWeight : Int := 0
  Border : BorderStyle := 0
  Focusable : Bool := false
  Key : List Char := []
  FG : Color := 0
  BG : Color := 0
  Style : StyleFlags := 0
  ScrollOffset : Int := 0
  ScrollToBottom : Bool := false
deriving DecidableEq, Repr

/-- Go `type Node struct`. -/
inductive Node where
  | mk (Type_ : NodeType) (Props : Props) (Children : List Node)
deriving Repr

/-- Field `Type` of a node. -/
def Node.Type_ : Node → NodeType
  | .mk t _ _ => t

/-- Field `Props` of a node. -/
def Node.Props : Node → Props
  | .mk _ p _ => p

/-- Field `Children` of a node. -/
def Node.Children : Node → List Node
  | .mk _ _ c => c

/-! ## cell/cell.go -/

/-- Go `type Cell struct`; equality is structural. -/
structure Cell where
  Rune : Int := 0
  FG : Color := 0
  BG : Color := 0
  Style : StyleFlags := 0
deriving DecidableEq, Repr

/-- Go `type Buffer struct`: a row-major flat cell buffer. -/
structure Buffer where
  Width : Int
  Height : Int
  Cells : List Cell
deriving DecidableEq, Repr

/-- The data-model invariant of a buffer: a `Width × Height` grid that holds
exactly `Width * Height` cells. -/
def Buffer.WF (b : Buffer) : Prop :=
  0 ≤ b.Width ∧ 0 ≤ b.Height ∧ (b.Cells.length : Int) = b.Width * b.Height

instance (b : Buffer) : Decidable b.WF :=
  inferInstanceAs (Decidable (0 ≤ b.Width ∧ 0 ≤ b.Height ∧
    (b.Cells.length : Int) = b.Width * b.Height))

/-- Go `func (b *Buffer) inBounds(x, y int) bool`. -/
def Buffer.inBounds (b : Buffer) (x y : Int) : Bool :=
  decide (x ≥ 0) && decide (x < b.Width) && decide (y ≥ 0) && decide (y < b.Height)

/-- The indexed store `s[i] = c` of Go: it panics outside `0 ≤ i < len(s)`. -/
def storeAt (s : List Cell) (i : Int) (c : Cell) : Option (List Cell) :=
  if 0 ≤ i ∧ i < s.length then some (s.set i.toNat c) else none

/-- The indexed load `s[i]` of Go: it panics outside `0 ≤ i < len(s)`. -/
def loadAt (s : List Cell) (i : Int) : Option Cell :=
  if 0 ≤ i then s.get? i.toNat else none

/-- Go `func (b *Buffer) Set(x, y int, c Cell)`. -/
def Buffer.Set (b : Buffer) (x y : Int) (c : Cell) : Option Buffer :=
  if !b.inBounds x y then some b
  else (storeAt b.Cells (y * b.Width + x) c).map fun cs => { b with Cells := cs }

/-- Go `func (b *Buffer) Get(x, y int) Cell`. -/
def Buffer.Get (b : Buffer) (x y : Int) : Option Cell :=
  if !b.inBounds x y then some {}
  else loadAt b.Cells (y * b.Width + x)

/-! ## diff/diff.go -/

/-- Go `type Change struct`: a horizontal run of changed cells. -/
structure Change where
  X : Int
  Y : Int
  Cells : List Cell
deriving DecidableEq, Repr

/-- The loop state of `Diff`: the slice `changes`, the slice `run` (`none` is
the nil slice) and `runStart`. -/
structure DiffState where
  changes : List Change
  run : Option (List Cell)
  runStart : Int
deriving DecidableEq, Repr

/-- Go `append(run, nc)` on a possibly nil slice. -/
def appendRun (run : Option (List Cell)) (nc : Cell) : Option (List Cell) :=
  match run with
  | none => some [nc]
  | some r => some (r ++ [nc])

/-- The body of the column loop of `Diff` (lines 27-39). -/
def diffStep (prev next : Buffer) (w y x : Int) (st : DiffState) : Option DiffState :=
  let pi := y * w + x
  (loadAt prev.Cells pi).bind fun pc =>
  (loadAt next.Cells pi).bind fun nc =>
  if pc ≠ nc then
    some { st with
      runStart := if st.run = none then x else st.runStart
      run := appendRun st.run nc }
  else
    match st.run with
    | some r => some { st with changes := st.changes ++ [⟨st.runStart, y, r⟩], run := none }
    | none => some st

/-- The flush after the column loop (lines 41-43). -/
def diffFlush (y : Int) (st : DiffState) : List Change :=
  match st.run with
  | some r => st.changes ++ [⟨st.runStart, y, r⟩]
  | none => st.changes

/-- The body of the row loop of `Diff` (lines 23-43); the state carried from
row to row is `changes`. -/
def diffRow (prev next : Buffer) (w y : Int) (changes : List Change) : Option (List Change) :=
  (forRange (diffStep prev next w y) w.toNat 0 ⟨changes, none, 0⟩).map (diffFlush y)

/-- The body of the loop of `fullRedraw` (lines 52-56): `changes[y]` is set to
the copy of `buf.Cells[start:end]`. -/
def fullRedrawRow (buf : Buffer) (y : Int) (changes : List Change) : Option (List Change) :=
  let start := y * buf.Width
  let stop := start + buf.Width
  if buf.Width < 0 then none
  else if 0 ≤ start ∧ start ≤ stop ∧ stop ≤ buf.Cells.length then
    let row := (buf.Cells.drop start.toNat).take (stop - start).toNat
    if 0 ≤ y ∧ y < changes.length then some (changes.set y.toNat ⟨0, y, row⟩) else none
  else none

/-- Go `func fullRedraw(buf *cell.Buffer) []Change`. -/
def fullRedraw (buf : Buffer) : Option (List Change) :=
  if buf.Height < 0 then none
  else forRange (fullRedrawRow buf) buf.Height.toNat 0
    (List.replicate buf.Height.toNat ⟨0, 0, []⟩)

/-- Go `func Diff(prev, next *cell.Buffer) []Change`. -/
def Diff (prev next : Buffer) : Option (List Change) :=
  if prev.Width ≠ next.Width ∨ prev.Height ≠ next.Height then fullRedraw next
  else forRange (diffRow prev next next.Width) next.Height.toNat 0 []

/-- Writing one run onto a buffer: cell `i` of the run goes to column `X + i`
of row `Y`, through `Buffer.Set`. -/
def applyCells (b : Buffer) (x y : Int) : List Cell → Option Buffer
  | [] => some b
  | c :: cs => (b.Set x y c).bind fun b1 => applyCells b1 (x + 1) y cs

/-- Writing every run of a change list onto a buffer, in order. -/
def applyChanges (b : Buffer) : List Change → Option Buffer
  | [] => some b
  | c :: cs => (applyCells b c.X c.Y c.Cells).bind fun b1 => applyChanges b1 cs

/-- Go `func NewBuffer(w, h int) *Buffer`: `make([]Cell, w*h)` (a panic on a
negative length) gives zero cells, and the loop sets the rune of every cell to
a space. -/
def NewBuffer (w h : Int) : Option Buffer :=
  if w * h < 0 then none
  else some ⟨w, h, (List.replicate (w * h).toNat ({} : Cell)).map fun c => { c with Rune := 32 }⟩

/-- Go `func (b *Buffer) Clear()`: every cell becomes `Cell{Rune: ' '}`. -/
def Buffer.Clear (b : Buffer) : Buffer :=
  { b with Cells := b.Cells.map fun _ => { Rune := 32 } }

/-- The loop of `WriteString` (lines 60-66) from column `col` on. -/
def writeRunes (y : Int) (fg bg : Color) (style : StyleFlags) :
    List Char → Int → Buffer → Option Buffer
  | [], _, b => some b
  | r :: rest, col, b =>
    if !b.inBounds col y then some b
    else
      (storeAt b.Cells (y * b.Width + col)
        { Rune := r.toNat, FG := fg, BG := bg, Style := style }).bind fun cs =>
      writeRunes y fg bg style rest (col + 1) { b with Cells := cs }

/-- Go `func (b *Buffer) WriteString(x, y int, s string, fg, bg node.Color,
style node.StyleFlags)`. -/
def Buffer.WriteString (b : Buffer) (x y : Int) (s : List Char) (fg bg : Color)
    (style : StyleFlags) : Option Buffer :=
  writeRunes y fg bg style s x b

/-- The size invariant of the data model: `len(Cells) = Width * Height`. -/
def Buffer.sizeInv (b : Buffer) : Prop :=
  (b.Cells.length : Int) = b.Width * b.Height

instance (b : Buffer) : Decidable b.sizeInv :=
  inferInstanceAs (Decidable ((b.Cells.length : Int) = b.Width * b.Height))

/-! ## The layout types used by cell/paint.go -/

/-- Modelled from the spec: the type `layout.Rect`, whose declaration is not
among the sources; an absolute rectangle `{x, y, width, height}` with the fields
`X`, `Y`, `W`, `H` that `paint.go` reads. -/
structure Rect where
  X : Int := 0
  Y : Int := 0
  W : Int := 0
  H : Int := 0
deriving DecidableEq, Repr

/-- Modelled from the spec: the type `layout.LayoutNode`, whose declaration is
not among the sources; it pairs a `Node` with its rectangle and the sequence of
child layout nodes (the fields `Rect`, `Node`, `Children` that `paint.go`
reads). -/
inductive LayoutNode where
  | mk (Rect : Rect) (Node : Node) (Children : List LayoutNode)

/-- Field `Rect` of a layout node. -/
def LayoutNode.Rect : LayoutNode → Rect
  | .mk r _ _ => r

/-- Field `Node` of a layout node. -/
def LayoutNode.Node : LayoutNode → Node
  | .mk _ n _ => n

/-- Field `Children` of a layout node. -/
def LayoutNode.Children : LayoutNode → List LayoutNode
  | .mk _ _ c => c

/-- Point `(x, y)` lies in rectangle `r`. -/
def Rect.contains (r : Rect) (x y : Int) : Prop :=
  r.X ≤ x ∧ x < r.X + r.W ∧ r.Y ≤ y ∧ y < r.Y + r.H

instance (r : Rect) (x y : Int) : Decidable (r.contains x y) :=
  inferInstanceAs (Decidable (r.X ≤ x ∧ x < r.X + r.W ∧ r.Y ≤ y ∧ y < r.Y + r.H))

/-! ## cell/paint.go: word wrap -/

/-- Go `unicode.IsSpace`, the separator test of `strings.Fields`. -/
def isSpace (c : Char) : Bool :=
  let n := c.toNat
  (9 ≤ n && n ≤ 13) || n == 32 || n == 0x85 || n == 0xA0 || n == 0x1680 ||
  (0x2000 ≤ n && n ≤ 0x200A) || n == 0x2028 || n == 0x2029 || n == 0x202F ||
  n == 0x205F || n == 0x3000

/-- Go `strings.Fields`, with the word being collected in `cur`. -/
def fieldsAux : List Char → List Char → List (List Char)
  | [], cur => if cur = [] then [] else [cur]
  | c :: cs, cur =>
    if isSpace c then
      if cur = [] then fieldsAux cs [] else cur :: fieldsAux cs []
    else fieldsAux cs (cur ++ [c])

/-- Go `strings.Fields(s)`: the maximal runs of non-space code points. -/
def fields (s : List Char) : List (List Char) :=
  fieldsAux s []

/-- Go `strings.Split(s, "\n")`. -/
def splitLines : List Char → List (List Char)
  | [] => [[]]
  | c :: cs =>
    if c = '\n' then [] :: splitLines cs
    else
      match splitLines cs with
      | [] => [[c]]
      | l :: ls => (c :: l) :: ls

/-- Go `strings.TrimLeft(raw, " \t")`. -/
def trimLeft (raw : List Char) : List Char :=
  raw.dropWhile fun c => c = ' ' || c = '\t'

/-- Go `func runeCount(s string) int`. -/
def runeCount (s : List Char) : Int :=
  s.length

/-- The loop over `words[1:]` of `wrapText` (lines 157-168), returning the
lines it appends to `result`, the last one included. -/
def wrapWords (leading : List Char) (maxWidth : Int) :
    List Char → Int → List (List Char) → List (List Char)
  | line, _, [] => [line]
  | line, lineLen, w :: ws =>
    let wLen := runeCount w
    if lineLen + 1 + wLen ≤ maxWidth then
      wrapWords leading maxWidth (line ++ ' ' :: w) (lineLen + 1 + wLen) ws
    else
      line :: wrapWords leading maxWidth (leading ++ w) (runeCount leading + wLen) ws

/-- The body of the loop over `rawLines` of `wrapText` (lines 140-168),
returning the lines it appends to `result`. -/
def wrapLine (maxWidth : Int) (raw : List Char) : List (List Char) :=
  let trimmed := trimLeft raw
  let leading := raw.take (raw.length - trimmed.length)
  if trimmed = [] then [leading]
  else
    match fields trimmed with
    | [] => [leading]
    | w0 :: ws => wrapWords leading maxWidth (leading ++ w0) (runeCount (leading ++ w0)) ws

/-- Go `func wrapText(s string, maxWidth int) []string`. -/
def wrapText (s : List Char) (maxWidth : Int) : List (List Char) :=
  if maxWidth ≤ 0 then []
  else if s = [] then [[]]
  else (splitLines s).flatMap (wrapLine maxWidth)

/-! ## cell/paint.go: painting -/

/-- Go `func intersect(a, b layout.Rect) layout.Rect` over the unbounded
integers, as the painter uses it on terminal coordinates; `intersect64` adds
the wrap-around of the 64-bit `int`. -/
def intersect (a b : Rect) : Rect :=
  let x1 := max a.X b.X
  let y1 := max a.Y b.Y
  let x2 := min (a.X + a.W) (b.X + b.W)
  let y2 := min (a.Y + a.H) (b.Y + b.H)
  if x2 ≤ x1 ∨ y2 ≤ y1 then {}
  else { X := x1, Y := y1, W := x2 - x1, H := y2 - y1 }

/-- The column loop of the background fill of `paintText` (lines 40-44). -/
def fillRow (bg : Color) (r clip : Rect) (y : Int) (buf : Buffer) : Option Buffer :=
  forRange (fun x b => if x ≥ clip.X then b.Set x y { Rune := 32, BG := bg } else some b)
    (min (r.X + r.W) (clip.X + clip.W) - r.X).toNat r.X buf

/-- The background fill of `paintText` (lines 36-45). -/
def fillRect (bg : Color) (r clip : Rect) (buf : Buffer) : Option Buffer :=
  forRange (fun y b => if y < clip.Y then some b else fillRow bg r clip y b)
    (min (r.Y + r.H) (clip.Y + clip.H) - r.Y).toNat r.Y buf

/-- The loop over the code points of one line of `paintText` (lines 55-68),
from column `col` on. -/
def paintLine (p : Props) (clip : Rect) (y : Int) : Int → List Char → Buffer → Option Buffer
  | _, [], b => some b
  | col, ch :: rest, b =>
    if col ≥ clip.X + clip.W then some b
    else
      (if col ≥ clip.X then
        b.Set col y { Rune := ch.toNat, FG := p.FG, BG := p.BG, Style := p.Style }
       else some b).bind (paintLine p clip y (col + 1) rest)

/-- The loop over the wrapped lines of `paintText` (lines 49-69), from line
index `row` on. -/
def paintLines (p : Props) (r clip : Rect) : Nat → List (List Char) → Buffer → Option Buffer
  | _, [], b => some b
  | row, line :: rest, b =>
    let y := r.Y + row
    if y < clip.Y ∨ y ≥ clip.Y + clip.H then paintLines p r clip (row + 1) rest b
    else (paintLine p clip y r.X line b).bind (paintLines p r clip (row + 1) rest)

/-- Go `func paintText(buf *Buffer, n node.Node, r layout.Rect, clip layout.Rect)`. -/
def paintText (buf : Buffer) (n : Node) (r clip : Rect) : Option Buffer :=
  (if n.Props.BG ≠ 0 then fillRect n.Props.BG r clip buf else some buf).bind
    (paintLines n.Props r clip 0 (wrapText n.Props.Text r.W))

/-- The closure `setClipped` of `paintBox` (lines 91-95). -/
def setClipped (p : Props) (clip : Rect) (x y : Int) (ch : Int) (buf : Buffer) :
    Option Buffer :=
  if x ≥ clip.X ∧ x < clip.X + clip.W ∧ y ≥ clip.Y ∧ y < clip.Y + clip.H then
    buf.Set x y { Rune := ch, FG := p.FG, BG := p.BG, Style := p.Style }
  else some buf

/-- The border glyphs `tl, tr, bl, br, hz, vt` chosen by the switch of
`paintBox` (lines 78-87); `none` is the `default: return`. -/
def borderGlyphs (b : BorderStyle) : Option (Int × Int × Int × Int × Int × Int) :=
  if b = BorderSingle then some (0x250C, 0x2510, 0x2514, 0x2518, 0x2500, 0x2502)
  else if b = BorderDouble then some (0x2554, 0x2557, 0x255A, 0x255D, 0x2550, 0x2551)
  else if b = BorderRounded then some (0x256D, 0x256E, 0x2570, 0x256F, 0x2500, 0x2502)
  else none

/-- Go `func paintBox(buf *Buffer, n node.Node, r layout.Rect, clip layout.Rect)`. -/
def paintBox (buf : Buffer) (n : Node) (r clip : Rect) : Option Buffer :=
  if r.W < 2 ∨ r.H < 2 then some buf
  else
    match borderGlyphs n.Props.Border with
    | none => some buf
    | some (tl, tr, bl, br, hz, vt) =>
      let p := n.Props
      (setClipped p clip r.X r.Y tl buf).bind fun b1 =>
      (setClipped p clip (r.X + r.W - 1) r.Y tr b1).bind fun b2 =>
      (setClipped p clip r.X (r.Y + r.H - 1) bl b2).bind fun b3 =>
      (setClipped p clip (r.X + r.W - 1) (r.Y + r.H - 1) br b3).bind fun b4 =>
      (forRange (fun x b =>
          (setClipped p clip x r.Y hz b).bind (setClipped p clip x (r.Y + r.H - 1) hz))
        (r.X + r.W - 1 - (r.X + 1)).toNat (r.X + 1) b4).bind fun b5 =>
      forRange (fun y b =>
          (setClipped p clip r.X y vt b).bind (setClipped p clip (r.X + r.W - 1) y vt))
        (r.Y + r.H - 1 - (r.Y + 1)).toNat (r.Y + 1) b5

mutual
/-- Go `func paintNode(buf *Buffer, ln layout.LayoutNode, clip layout.Rect)`. -/
def paintNode (buf : Buffer) : LayoutNode → Rect → Option Buffer
  | .mk r n children, clip =>
    (if n.Type_ = TextNode then paintText buf n r clip
     else if n.Type_ = BoxNode then paintBox buf n r clip
     else some buf).bind fun b => paintChildren b children (intersect r clip)
/-- The loop over `ln.Children` of `paintNode` (lines 28-30). -/
def paintChildren (buf : Buffer) : List LayoutNode → Rect → Option Buffer
  | [], _ => some buf
  | child :: rest, clip => (paintNode buf child clip).bind fun b => paintChildren b rest clip
end

/-- Go `func Paint(buf *Buffer, tree layout.LayoutNode)`. -/
def Paint (buf : Buffer) (tree : LayoutNode) : Option Buffer :=
  paintNode buf tree tree.Rect

/-! ## Specification vocabulary for the diff engine -/

/-- Position `(x, y)` is one where the cell of `A` differs from the cell of
`B` (outside the grid `Get` returns the empty cell on both sides). -/
def differs (A B : Buffer) (x y : Int) : Prop :=
  A.Get x y ≠ B.Get x y

instance (A B : Buffer) (x y : Int) : Decidable (differs A B x y) :=
  inferInstanceAs (Decidable (A.Get x y ≠ B.Get x y))

/-- The run `c` covers column `x` of row `y`. -/
def Change.covers (c : Change) (x y : Int) : Prop :=
  y = c.Y ∧ c.X ≤ x ∧ x < c.X + c.Cells.length

instance (c : Change) (x y : Int) : Decidable (c.covers x y) :=
  inferInstanceAs (Decidable (y = c.Y ∧ c.X ≤ x ∧ x < c.X + c.Cells.length))

/-- Run `c` comes before run `d` with at least one column between them when
they share a row. -/
def Change.sep (c d : Change) : Prop :=
  c.Y < d.Y ∨ (c.Y = d.Y ∧ c.X + c.Cells.length < d.X)

/-- What holds of every run, closed or still open, during the scan: it is
non-empty, lies in one row of the grid, holds the cells of `B`, covers only
differing positions and has an unchanged cell (or the row start) on its left. -/
def RunPre (A B : Buffer) (c : Change) : Prop :=
  c.Cells ≠ [] ∧ 0 ≤ c.Y ∧ c.Y < B.Height ∧ 0 ≤ c.X ∧ c.X + c.Cells.length ≤ B.Width ∧
  (∀ i : Nat, i < c.Cells.length →
    B.Get (c.X + i) c.Y = c.Cells.get? i ∧ differs A B (c.X + i) c.Y) ∧
  A.Get (c.X - 1) c.Y = B.Get (c.X - 1) c.Y

/-- The loop invariant of `Diff` at the scan position `(x, y)`, on the list `L`
of the closed runs followed by the open run (if any). -/
structure DiffInv (A B : Buffer) (y x : Int) (run : Option (List Cell)) (runStart : Int)
    (L : List Change) : Prop where
  pre : ∀ c ∈ L, RunPre A B c
  past : ∀ c ∈ L, c.Y < y ∨ (c.Y = y ∧ c.X + c.Cells.length ≤ x)
  closed : ∀ c ∈ L, A.Get (c.X + c.Cells.length) c.Y = B.Get (c.X + c.Cells.length) c.Y ∨
    (run ≠ none ∧ c.Y = y ∧ c.X + c.Cells.length = x)
  sorted : L.Pairwise Change.sep
  cover : ∀ x1 y1 : Int, differs A B x1 y1 → (y1 < y ∨ (y1 = y ∧ x1 < x)) →
    ∃ c ∈ L, c.covers x1 y1
  idle : run = none → A.Get (x - 1) y = B.Get (x - 1) y
  busy : ∀ r, run = some r → r ≠ [] ∧ runStart + r.length = x

/-- The specification of a diff result `cs` of `A` against `B`. -/
structure DiffSpec (A B : Buffer) (cs : List Change) : Prop where
  pre : ∀ c ∈ cs, RunPre A B c
  closed : ∀ c ∈ cs, A.Get (c.X + c.Cells.length) c.Y = B.Get (c.X + c.Cells.length) c.Y
  sorted : cs.Pairwise Change.sep
  cover : ∀ x y : Int, differs A B x y → ∃ c ∈ cs, c.covers x y

/-! ## Specification vocabulary for the painter -/

/-- Frame condition of a painting step from `b` to `b1`: the result is again a
well-formed buffer of the same dimensions, and every position either keeps its
cell or holds a cell `c` with `P x y c`. -/
def Writes (P : Int → Int → Cell → Prop) (b b1 : Buffer) : Prop :=
  b1.WF ∧ b1.Width = b.Width ∧ b1.Height = b.Height ∧
  ∀ x y : Int, b1.Get x y = b.Get x y ∨ ∃ c, b1.Get x y = some c ∧ P x y c

/-- Cell `c` at `(x, y)` is the glyph cell of a code point of the wrapped
`lines` of a text node with properties `p` and rectangle `r`: code point `i` of
line `row` sits at column `r.X + i` of row `r.Y + row`. -/
def TextGlyph (p : Props) (r : Rect) (lines : List (List Char)) (x y : Int) (c : Cell) :
    Prop :=
  ∃ (row i : Nat) (line : List Char) (ch : Char),
    lines.get? row = some line ∧ line.get? i = some ch ∧ y = r.Y + row ∧ x = r.X + i ∧
    c = { Rune := ch.toNat, FG := p.FG, BG := p.BG, Style := p.Style }

/-- Some code point of the wrapped `lines` sits at `(x, y)`. -/
def GlyphPos (r : Rect) (lines : List (List Char)) (x y : Int) : Prop :=
  ∃ (row i : Nat) (line : List Char),
    lines.get? row = some line ∧ i < line.length ∧ y = r.Y + row ∧ x = r.X + i

/-- Exact effect of a painting step from `b` to `t`: the result is a
well-formed buffer of the same dimensions, every in-bounds position of `S`
holds `cell x y`, and every position outside `S` keeps its cell. -/
def PaintsExactly (S : Int → Int → Prop) (cell : Int → Int → Cell) (b t : Buffer) : Prop :=
  t.WF ∧ t.Width = b.Width ∧ t.Height = b.Height ∧
  ∀ x y : Int, (S x y → b.inBounds x y = true → t.Get x y = some (cell x y)) ∧
    (¬ S x y → t.Get x y = b.Get x y)

/-- Position `(x, y)` is on the perimeter of rectangle `r`. -/
def Rect.onPerimeter (r : Rect) (x y : Int) : Prop :=
  r.contains x y ∧ (x = r.X ∨ x = r.X + r.W - 1 ∨ y = r.Y ∨ y = r.Y + r.H - 1)

instance (r : Rect) (x y : Int) : Decidable (r.onPerimeter x y) :=
  inferInstanceAs (Decidable (r.contains x y ∧
    (x = r.X ∨ x = r.X + r.W - 1 ∨ y = r.Y ∨ y = r.Y + r.H - 1)))

/-- The parts of a box border. -/
inductive BoxPart where
  | topLeft | topRight | bottomLeft | bottomRight | horizontal | vertical
deriving DecidableEq, Repr

/-- The part of the border of `r` that a perimeter position belongs to: the
four corners, else a horizontal edge on the top and bottom rows, else a
vertical edge. -/
def boxPart (r : Rect) (x y : Int) : BoxPart :=
  if x = r.X ∧ y = r.Y then .topLeft
  else if x = r.X + r.W - 1 ∧ y = r.Y then .topRight
  else if x = r.X ∧ y = r.Y + r.H - 1 then .bottomLeft
  else if x = r.X + r.W - 1 ∧ y = r.Y + r.H - 1 then .bottomRight
  else if y = r.Y ∨ y = r.Y + r.H - 1 then .horizontal
  else .vertical

/-- The glyph table of the border kinds as the specification lists it:
single `┌┐└┘─│`, double `╔╗╚╝═║`, rounded `╭╮╰╯─│` (any other kind draws
nothing; the table gives a space there). -/
def specGlyph (border : BorderStyle) (part : BoxPart) : Char :=
  if border = BorderSingle then
    match part with
    | .topLeft => '┌' | .topRight => '┐' | .bottomLeft => '└' | .bottomRight => '┘'
    | .horizontal => '─' | .vertical => '│'
  else if border = BorderDouble then
    match part with
    | .topLeft => '╔' | .topRight => '╗' | .bottomLeft => '╚' | .bottomRight => '╝'
    | .horizontal => '═' | .vertical => '║'
  else if border = BorderRounded then
    match part with
    | .topLeft => '╭' | .topRight => '╮' | .bottomLeft => '╰' | .bottomRight => '╯'
    | .horizontal => '─' | .vertical => '│'
  else ' '

/-- The border cell that the specification puts at a perimeter position of
the box of node properties `p` and rectangle `r`. -/
def specBoxCell (p : Props) (r : Rect) (x y : Int) : Cell :=
  { Rune := (specGlyph p.Border (boxPart r x y)).toNat, FG := p.FG, BG := p.BG,
    Style := p.Style }

/-- A 4 × 2 all-blank frame, used as a concrete previous frame. -/
def demoPrev : Buffer := ⟨4, 2, List.replicate 8 { Rune := 32 }⟩

/-- The frame `demoPrev` with 'A' and 'B' written at columns 1 and 2 of row 0
and 'C' at column 3 of row 1. -/
def demoNext : Buffer :=
  ⟨4, 2, [{ Rune := 32 }, { Rune := 65 }, { Rune := 66 }, { Rune := 32 },
          { Rune := 32 }, { Rune := 32 }, { Rune := 32 }, { Rune := 67 }]⟩

/-- A 2 × 1 frame holding "Hi". -/
def demoSmall : Buffer := ⟨2, 1, [{ Rune := 72 }, { Rune := 105 }]⟩

/-- A text node "hi" with background colour 4. -/
def demoText : Node := .mk TextNode { Text := ['h', 'i'], BG := 4 } []

/-- A single-border box over the whole of a 4 × 2 frame with the text
`demoText` laid out at column 1 of row 1. -/
def demoTree : LayoutNode :=
  .mk ⟨0, 0, 4, 2⟩ (.mk BoxNode { Border := BorderSingle } [demoText])
    [.mk ⟨1, 1, 2, 1⟩ demoText []]

/-- The text node "ab" without colours. -/
def demoWord : Node := .mk TextNode { Text := ['a', 'b'] } []

/-- A 3 × 1 all-blank frame. -/
def demoLine : Buffer := ⟨3, 1, List.replicate 3 { Rune := 32 }⟩

/-- A box node with a double border, foreground 2 and background 5. -/
def demoBox : Node := .mk BoxNode { Border := BorderDouble, FG := 2, BG := 5 } []

/-! ## Specification vocabulary for word wrap -/

/-- The leading run of spaces and tabs of a line. -/
def leadingRun (line : List Char) : List Char :=
  line.takeWhile fun c => c = ' ' || c = '\t'

/-! ## node/node.go: decorators -/

/-- Go `func (n Node) WithKey(key string) Node`. -/
def Node.WithKey (n : Node) (key : List Char) : Node :=
  .mk n.Type_ { n.Props with Key := key } n.Children

/-- Go `func (n Node) WithFlex(weight int) Node`. -/
def Node.WithFlex (n : Node) (weight : Int) : Node :=
  .mk n.Type_ { n.Props with FlexWeight := weight } n.Children

/-- Go `func (n Node) WithSize(w, h int) Node`. -/
def Node.WithSize (n : Node) (w h : Int) : Node :=
  .mk n.Type_ { n.Props with Width := w, Height := h } n.Children

/-- Go `func (n Node) WithFocusable() Node`. -/
def Node.WithFocusable (n : Node) : Node :=
  .mk n.Type_ { n.Props with Focusable := true } n.Children

/-- Go `func (n Node) WithScrollOffset(offset int) Node`. -/
def Node.WithScrollOffset (n : Node) (offset : Int) : Node :=
  .mk n.Type_ { n.Props with ScrollOffset := offset } n.Children

/-- Go `func (n Node) WithScrollToBottom() Node`. -/
def Node.WithScrollToBottom (n : Node) : Node :=
  .mk n.Type_ { n.Props with ScrollToBottom := true } n.Children

/-! ## focus/focus.go -/

/-- Go `type contextEntry struct`. -/
structure contextEntry where
  focusables : List (List Char)
  current : Int
deriving DecidableEq, Repr

/-- Go `type Manager struct`. -/
structure Manager where
  focusables : List (List Char) := []
  current : Int := 0
  contextStack : List contextEntry := []
deriving DecidableEq, Repr

/-- Go `func NewManager() *Manager`: the zero manager. -/
def NewManager : Manager := {}

mutual
/-- Go `func collectFocusables(ln layout.LayoutNode, keys *[]string)`; the
slice behind `keys` is passed in and returned. -/
def collectFocusables : LayoutNode → List (List Char) → List (List Char)
  | .mk _ n children, keys =>
    collectChildren children
      (if n.Props.Focusable && n.Props.Key ≠ [] then keys ++ [n.Props.Key] else keys)
/-- The loop over `ln.Children` of `collectFocusables` (lines 98-100). -/
def collectChildren : List LayoutNode → List (List Char) → List (List Char)
  | [], keys => keys
  | child :: rest, keys => collectChildren rest (collectFocusables child keys)
end

/-- Go `func (m *Manager) Current() string`: the key returned and the manager
after the call (the call may reset `current`); the index expression panics on
a negative `current`. -/
def Manager.Current (m : Manager) : Option (List Char × Manager) :=
  if m.focusables.length = 0 then some ([], m)
  else
    let m1 : Manager :=
      if m.current ≥ m.focusables.length then { m with current := 0 } else m
    if 0 ≤ m1.current then
      (m1.focusables.get? m1.current.toNat).map fun k => (k, m1)
    else none

/-- Go `func (m *Manager) Next()`; `%` is the truncated remainder of Go. -/
def Manager.Next (m : Manager) : Manager :=
  if m.focusables.length = 0 then m
  else { m with current := Int.tmod (m.current + 1) m.focusables.length }

/-- Go `func (m *Manager) Prev()`. -/
def Manager.Prev (m : Manager) : Manager :=
  if m.focusables.length = 0 then m
  else
    { m with
      current := Int.tmod (m.current - 1 + m.focusables.length) m.focusables.length }

/-- The search loop of `Update` (lines 30-35): the first index at or after `i`
whose key is `oldKey`. -/
def findKey (oldKey : List Char) : List (List Char) → Nat → Option Nat
  | [], _ => none
  | k :: ks, i => if k = oldKey then some i else findKey oldKey ks (i + 1)

/-- Go `func (m *Manager) Update(tree layout.LayoutNode)`. -/
def Manager.Update (m : Manager) (tree : LayoutNode) : Option Manager :=
  m.Current.bind fun (oldKey, m1) =>
    let m2 : Manager := { m1 with focusables := collectFocusables tree [] }
    if oldKey ≠ [] then
      match findKey oldKey m2.focusables 0 with
      | some i => some { m2 with current := i }
      | none => some { m2 with current := 0 }
    else some { m2 with current := 0 }

/-- Go `func (m *Manager) PushContext(tree layout.LayoutNode)`. -/
def Manager.PushContext (m : Manager) (tree : LayoutNode) : Manager :=
  { focusables := collectFocusables tree []
    current := 0
    contextStack := m.contextStack ++ [⟨m.focusables, m.current⟩] }

/-- Go `func (m *Manager) PopContext()`. -/
def Manager.PopContext (m : Manager) : Manager :=
  if m.contextStack.length = 0 then m
  else
    match m.contextStack.getLast? with
    | some top =>
      { focusables := top.focusables, current := top.current,
        contextStack := m.contextStack.dropLast }
    | none => m

/-- Go `func (m *Manager) FocusableCount() int`. -/
def Manager.FocusableCount (m : Manager) : Int :=
  m.focusables.length

/-! ## Specification vocabulary for the focus manager -/

mutual
/-- The nodes of a laid-out tree in pre-order: a node before its children,
children left to right. -/
def preorder : LayoutNode → List Node
  | .mk _ n children => n :: preorderList children
/-- Pre-order listing of a sequence of sibling trees. -/
def preorderList : List LayoutNode → List Node
  | [] => []
  | child :: rest => preorder child ++ preorderList rest
end

/-- A call of `Next` or of `Prev`. -/
inductive FocusOp where
  | next | prev
deriving DecidableEq, Repr

/-- Running a sequence of `Next`/`Prev` calls on a manager. -/
def applyFocusOps : List FocusOp → Manager → Manager
  | [], m => m
  | .next :: ops, m => applyFocusOps ops m.Next
  | .prev :: ops, m => applyFocusOps ops m.Prev

/-- The layout of a column of three focusable texts with keys "a", "b", "c". -/
def demoFocusTree : LayoutNode :=
  .mk ⟨0, 0, 80, 24⟩ (.mk ColumnNode {} [])
    [.mk ⟨0, 0, 80, 1⟩ (.mk TextNode { Text := ['a'], Key := ['a'], Focusable := true } []) [],
     .mk ⟨0, 1, 80, 1⟩ (.mk TextNode { Text := ['b'], Key := ['b'], Focusable := true } []) [],
     .mk ⟨0, 2, 80, 1⟩ (.mk TextNode { Text := ['c'], Key := ['c'], Focusable := true } []) []]

/-- The layout of a single text that is marked focusable but has no key. -/
def demoUnkeyedTree : LayoutNode :=
  .mk ⟨0, 0, 80, 1⟩ (.mk TextNode { Text := ['x'], Focusable := true } []) []

/-! ## Spec vocabulary for the decorators -/

/-- The attributes of a node's `Props`. -/
inductive Attr where
  | Text | Width | Height | FlexWeight | Border | Focusable | Key | FG | BG | Style
  | ScrollOffset | ScrollToBottom
deriving DecidableEq, Repr

/-- Two property records carry the same value of attribute `a`. -/
def Props.attrEq (a : Attr) (p q : Props) : Prop :=
  match a with
  | .Text => p.Text = q.Text
  | .Width => p.Width = q.Width
  | .Height => p.Height = q.Height
  | .FlexWeight => p.FlexWeight = q.FlexWeight
  | .Border => p.Border = q.Border
  | .Focusable => p.Focusable = q.Focusable
  | .Key => p.Key = q.Key
  | .FG => p.FG = q.FG
  | .BG => p.BG = q.BG
  | .Style => p.Style = q.Style
  | .ScrollOffset => p.ScrollOffset = q.ScrollOffset
  | .ScrollToBottom => p.ScrollToBottom = q.ScrollToBottom

/-- Node `a` equals node `b` except possibly for the attributes in `S`: same
type, same children in the same order, same value of every other attribute. -/
def Node.SameExcept (S : List Attr) (a b : Node) : Prop :=
  a.Type_ = b.Type_ ∧ a.Children = b.Children ∧ ∀ x, x ∉ S → Props.attrEq x a.Props b.Props

/-- A node with every attribute set and two children, to exercise the decorators. -/
def demoNode : Node :=
  .mk BoxNode
    { Text := ['t'], Width := 3, Height := 4, FlexWeight := 5, Border := 1, Focusable := false,
      Key := ['k'], FG := 2, BG := 3, Style := 1, ScrollOffset := 6, ScrollToBottom := false }
    [.mk TextNode { Text := ['a'] } [], .mk SpacerNode { FlexWeight := 1 } []]


/-! ## input/input.go

A byte is modelled by a `Nat` below 256; a `[]byte` by a `List Nat`.  Loop
indices, lengths and byte counts are never negative and are modelled by `Nat`.
The comments give the character of each byte constant. -/

/-- Go `type KeyType int`. -/
abbrev KeyType := Int

/-- Constant `RuneKey`. -/
abbrev RuneKey : KeyType := 0
/-- Constant `Up`. -/
abbrev Up : KeyType := 1
/-- Constant `Down`. -/
abbrev Down : KeyType := 2
/-- Constant `Left`. -/
abbrev Left : KeyType := 3
/-- Constant `Right`. -/
abbrev Right : KeyType := 4
/-- Constant `Tab`. -/
abbrev Tab : KeyType := 5
/-- Constant `ShiftTab`. -/
abbrev ShiftTab : KeyType := 6
/-- Constant `Enter`. -/
abbrev Enter : KeyType := 7
/-- Constant `Escape`. -/
abbrev Escape : KeyType := 8
/-- Constant `Backspace`. -/
abbrev Backspace : KeyType := 9
/-- Constant `Delete`. -/
abbrev Delete : KeyType := 10
/-- Constant `Home`. -/
abbrev Home : KeyType := 11
/-- Constant `End`. -/
abbrev End : KeyType := 12
/-- Constant `PageUp`. -/
abbrev PageUp : KeyType := 13
/-- Constant `PageDown`. -/
abbrev PageDown : KeyType := 14
/-- Constant `CtrlC`. -/
abbrev CtrlC : KeyType := 15
/-- Constant `CtrlD`. -/
abbrev CtrlD : KeyType := 16
/-- Constant `CtrlZ`. -/
abbrev CtrlZ : KeyType := 17
/-- Constant `ShiftEnter`. -/
abbrev ShiftEnter : KeyType := 18
/-- Constant `FocusIn`. -/
abbrev FocusIn : KeyType := 19
/-- Constant `FocusOut`. -/
abbrev FocusOut : KeyType := 20
/-- Constant `MouseClick`. -/
abbrev MouseClick : KeyType := 21
/-- Constant `MouseScrollUp`. -/
abbrev MouseScrollUp : KeyType := 22
/-- Constant `MouseScrollDown`. -/
abbrev MouseScrollDown : KeyType := 23

/-- Go `type Key struct`. -/
structure Key where
  Type_ : KeyType := 0
  Rune : Int := 0
deriving DecidableEq, Repr

/-- The loop `for i := 1; i < size; i++ { r = r<<6 | rune(data[i]&0x3F) }` of
`decodeRune`, with `n` iterations left from index `i`. -/
def decodeLoop (data : List Nat) : Nat → Nat → Nat → Nat
  | 0, _, r => r
  | n + 1, i, r => decodeLoop data n (i + 1) ((r <<< 6) ||| (data.getD i 0 &&& 0x3F))

/-- Go `func decodeRune(data []byte) (rune, int)`. -/
def decodeRune (data : List Nat) : Int × Nat :=
  if data.length = 0 then (0, 0)
  else
    let b := data.getD 0 0
    if b < 0x80 then ((b : Int), 1)
    else
      let hdr : Option (Nat × Nat) :=
        if b &&& 0xE0 = 0xC0 then some (2, b &&& 0x1F)
        else if b &&& 0xF0 = 0xE0 then some (3, b &&& 0x0F)
        else if b &&& 0xF8 = 0xF0 then some (4, b &&& 0x07)
        else none
      match hdr with
      | none => (63, 1) -- '?'
      | some (size, r) =>
        if data.length < size then (63, 1) -- '?'
        else ((decodeLoop data (size - 1) 1 r : Nat), size)

/-- Go `func parseSGRButton(data []byte) int`, with the accumulator `n` of the
loop as second argument. -/
def parseSGRButtonFrom : List Nat → Int → Int
  | [], n => n
  | b :: bs, n =>
    if b = 0x3b then n -- ';'
    else if 0x30 ≤ b ∧ b ≤ 0x39 then parseSGRButtonFrom bs (n * 10 + ((b - 0x30 : Nat) : Int))
    else parseSGRButtonFrom bs n

/-- Go `func parseSGRButton(data []byte) int`. -/
def parseSGRButton (data : List Nat) : Int := parseSGRButtonFrom data 0

/-- The key type chosen for a mouse button number: the `switch btn` of `parseCSI`. -/
def mouseKeyType (btn : Int) : KeyType :=
  if btn = 64 then MouseScrollUp else if btn = 65 then MouseScrollDown else MouseClick

/-- The loop `for j := 1; j < len(data); j++` of `parseCSI` that looks for the
final byte of an SGR mouse sequence, with `n` iterations left from index `j`;
`none` when the loop ends without returning. -/
def sgrScan (data : List Nat) : Nat → Nat → Option (Key × Nat)
  | 0, _ => none
  | n + 1, j =>
    if data.getD j 0 = 0x4d ∨ data.getD j 0 = 0x6d then -- 'M', 'm'
      some ({ Type_ := mouseKeyType (parseSGRButton ((data.take j).drop 1)) }, j + 1)
    else sgrScan data n (j + 1)

/-- Go `func parseCSI(data []byte) (Key, int)`. -/
def parseCSI (data : List Nat) : Key × Nat :=
  if data.length = 0 then ({}, 0)
  else
    let d0 := data.getD 0 0
    if d0 = 0x41 then ({ Type_ := Up }, 1) -- 'A'
    else if d0 = 0x42 then ({ Type_ := Down }, 1) -- 'B'
    else if d0 = 0x43 then ({ Type_ := Right }, 1) -- 'C'
    else if d0 = 0x44 then ({ Type_ := Left }, 1) -- 'D'
    else if d0 = 0x48 then ({ Type_ := Home }, 1) -- 'H'
    else if d0 = 0x46 then ({ Type_ := End }, 1) -- 'F'
    else if d0 = 0x5a then ({ Type_ := ShiftTab }, 1) -- 'Z'
    else if d0 = 0x49 then ({ Type_ := FocusIn }, 1) -- 'I'
    else if d0 = 0x4f then ({ Type_ := FocusOut }, 1) -- 'O'
    else
      let tilde : Option (Key × Nat) :=
        if data.length ≥ 2 ∧ data.getD 1 0 = 0x7e then -- '~'
          if d0 = 0x33 then some ({ Type_ := Delete }, 2) -- '3'
          else if d0 = 0x35 then some ({ Type_ := PageUp }, 2) -- '5'
          else if d0 = 0x36 then some ({ Type_ := PageDown }, 2) -- '6'
          else none
        else none
      match tilde with
      | some r => r
      | none =>
        let kitty : Option (Key × Nat) :=
          if data.length ≥ 4 ∧ d0 = 0x31 ∧ data.getD 1 0 = 0x33 ∧ data.getD 2 0 = 0x3b ∧
              data.getD 3 0 = 0x32 then -- '1', '3', ';', '2'
            if data.length ≥ 5 ∧ data.getD 4 0 = 0x75 then -- 'u'
              some ({ Type_ := ShiftEnter }, 5)
            else none
          else none
        match kitty with
        | some r => r
        | none =>
          let sgr : Option (Key × Nat) :=
            if data.length ≥ 1 ∧ d0 = 0x3c then sgrScan data (data.length - 1) 1 -- '<'
            else none
          match sgr with
          | some r => r
          | none =>
            if data.length ≥ 1 ∧ d0 = 0x4d ∧ data.length ≥ 4 then -- 'M'
              ({ Type_ := mouseKeyType (((data.getD 1 0 + 256 - 32) % 256 : Nat) : Int) }, 4)
            else ({}, 0)

/-- One iteration of the loop of `parseInput` at index `i < len(data)`: the
index and the key list after it. -/
def parseStep (data : List Nat) (i : Nat) (keys : List Key) : Nat × List Key :=
  let c := data.getD i 0
  if c = 0x1b then -- ESC
    let csi : Option (Nat × List Key) :=
      if i + 1 < data.length ∧ data.getD (i + 1) 0 = 0x5b then -- '['
        let kc := parseCSI (data.drop (i + 2))
        if kc.2 > 0 then some (i + (2 + kc.2), keys ++ [kc.1]) else none
      else none
    match csi with
    | some r => r
    | none =>
      if i + 1 < data.length ∧ (data.getD (i + 1) 0 = 0x0d ∨ data.getD (i + 1) 0 = 0x0a) then
        (i + 2, keys ++ [{ Type_ := ShiftEnter }])
      else (i + 1, keys ++ [{ Type_ := Escape }])
  else if c = 0x0d then (i + 1, keys ++ [{ Type_ := Enter }]) -- '\r'
  else if c = 0x0a then (i + 1, keys ++ [{ Type_ := ShiftEnter }]) -- '\n'
  else if c = 0x09 then (i + 1, keys ++ [{ Type_ := Tab }]) -- '\t'
  else if c = 0x7f ∨ c = 0x08 then (i + 1, keys ++ [{ Type_ := Backspace }]) -- DEL, '\b'
  else if c = 0x03 then (i + 1, keys ++ [{ Type_ := CtrlC }])
  else if c = 0x04 then (i + 1, keys ++ [{ Type_ := CtrlD }])
  else if c = 0x1a then (i + 1, keys ++ [{ Type_ := CtrlZ }])
  else if c ≥ 0x20 then
    let rs := decodeRune (data.drop i)
    (i + rs.2, keys ++ [{ Type_ := RuneKey, Rune := rs.1 }])
  else (i + 1, keys)

/-- The loop `for i < len(data)` of `parseInput`, with at most `fuel`
iterations left.  Every iteration advances `i`, so `len(data) - i` iterations
are enough (`parseLoop_fuel`). -/
def parseLoop (data : List Nat) : Nat → Nat → List Key → List Key
  | 0, _, keys => keys
  | fuel + 1, i, keys =>
    if i < data.length then
      parseLoop data fuel (parseStep data i keys).1 (parseStep data i keys).2
    else keys

/-- Go `func parseInput(data []byte) []Key`. -/
def parseInput (data : List Nat) : List Key := parseLoop data data.length 0 []

/-- The bytes of "abc". -/
def demoBytes : List Nat := [0x61, 0x62, 0x63]


/-! ## Spec vocabulary for the reachable states of the focus manager -/

/-- A call of one of the methods of `Manager` that change or read the focus. -/
inductive ManagerOp where
  | update (tree : LayoutNode)
  | next
  | prev
  | pushContext (tree : LayoutNode)
  | popContext
  | current

/-- The manager after one method call; `none` when the call panics. -/
def Manager.call (m : Manager) : ManagerOp → Option Manager
  | .update tree => m.Update tree
  | .next => some m.Next
  | .prev => some m.Prev
  | .pushContext tree => some (m.PushContext tree)
  | .popContext => some m.PopContext
  | .current => m.Current.map Prod.snd

/-- The manager after a sequence of method calls, first call first. -/
def Manager.calls : List ManagerOp → Manager → Option Manager
  | [], m => some m
  | op :: ops, m => (m.call op).bind (Manager.calls ops)

/-- The index `current` is a valid position of the list `focusables`, or the
list is empty and the index is not negative. -/
def validIndex (focusables : List (List Char)) (current : Int) : Prop :=
  0 ≤ current ∧ (focusables = [] ∨ current < focusables.length)

/-- The invariant of the reachable states: the current index is valid, and so
is the index of every saved context. -/
def Manager.Inv (m : Manager) : Prop :=
  validIndex m.focusables m.current ∧
    ∀ e ∈ m.contextStack, validIndex e.focusables e.current


/-! ## Spec vocabulary for the rune decoder -/

/-- The UTF-8 encoding of the code point `r` (RFC 3629): one byte `0xxxxxxx`
below 0x80, two bytes `110xxxxx 10xxxxxx` below 0x800, three bytes
`1110xxxx 10xxxxxx 10xxxxxx` below 0x10000, and four bytes
`11110xxx 10xxxxxx 10xxxxxx 10xxxxxx` above. -/
def utf8 (r : Nat) : List Nat :=
  if r < 0x80 then [r]
  else if r < 0x800 then [0xC0 + r / 64, 0x80 + r % 64]
  else if r < 0x10000 then [0xE0 + r / 4096, 0x80 + r / 64 % 64, 0x80 + r % 64]
  else [0xF0 + r / 262144, 0x80 + r / 4096 % 64, 0x80 + r / 64 % 64, 0x80 + r % 64]

/-- The number of bytes that the lead byte `b` of a multi-byte sequence announces. -/
def announcedSize (b : Nat) : Nat :=
  if b < 0xE0 then 2 else if b < 0xF0 then 3 else 4


/-! ## component/textinput.go

`[]rune(s)` of a string is the list of its code points as `Int`; `string(runes)`
maps every rune that is not a Unicode scalar value to U+FFFD. -/

/-- Go `strings.TrimSpace`: leading and trailing white space (`unicode.IsSpace`)
removed. -/
def trimSpace (s : List Char) : List Char :=
  ((s.dropWhile isSpace).reverse.dropWhile isSpace).reverse

/-- Go `[]rune(s)`. -/
def toRunes (s : List Char) : List Int :=
  s.map fun c => (c.toNat : Int)

/-- Go `string(r)` for one rune: the code point itself, or U+FFFD when `r` is
not a Unicode scalar value. -/
def runeToChar (r : Int) : Char :=
  if 0 ≤ r ∧ r.toNat.isValidChar then Char.ofNat r.toNat else Char.ofNat 0xFFFD

/-- Go `string(runes)`. -/
def fromRunes (runes : List Int) : List Char :=
  runes.map runeToChar

/-- Go slice expression `runes[:hi]`, `none` when it panics. It is only used
next to `runes[hi:]` or under `hi < len(runes)`, so the bound is the length. -/
def sliceTo (runes : List Int) (hi : Int) : Option (List Int) :=
  if 0 ≤ hi ∧ hi ≤ runes.length then some (runes.take hi.toNat) else none

/-- Go slice expression `runes[lo:]`, `none` when it panics. -/
def sliceFrom (runes : List Int) (lo : Int) : Option (List Int) :=
  if 0 ≤ lo ∧ lo ≤ runes.length then some (runes.drop lo.toNat) else none

/-- Go `type TextInput struct`. -/
structure TextInput where
  Value : List Char := []
  Cursor : Int := 0
  Placeholder : List Char := []
  Focused : Bool := false
deriving DecidableEq, Repr

/-- Go `func NewTextInput(placeholder string) TextInput`. -/
def NewTextInput (placeholder : List Char) : TextInput :=
  { Placeholder := placeholder, Focused := true }

/-- Go `func cursorPosition(runes []rune, cursor int) (int, int)`: the loop reads
`runes[i]` for `i` from 0 while `i < cursor && i < len(runes)`. -/
def cursorPosition (runes : List Int) (cursor : Int) : Int × Int :=
  (runes.take cursor.toNat).foldl
    (fun (lc : Int × Int) c => if c = 10 then (lc.1 + 1, 0) else (lc.1, lc.2 + 1)) (0, 0)

/-- The loop `for i := cursor - 1; i >= 0; i--` of `lineStart`, with `n = i + 1`;
`none` when `runes[i]` is out of range. -/
def lineStartFrom (runes : List Int) : Nat → Option Int
  | 0 => some 0
  | n + 1 =>
    match runes.get? n with
    | none => none
    | some c => if c = 10 then some ((n : Int) + 1) else lineStartFrom runes n

/-- Go `func lineStart(runes []rune, cursor int) int`. -/
def lineStart (runes : List Int) (cursor : Int) : Option Int :=
  lineStartFrom runes cursor.toNat

/-- The loop `for i := cursor; i < len(runes); i++` of `lineEnd`, with `n`
iterations left from index `i`; `none` when `runes[i]` is out of range. -/
def lineEndFrom (runes : List Int) : Nat → Int → Option Int
  | 0, _ => some runes.length
  | n + 1, i =>
    if i < 0 then none
    else
      match runes.get? i.toNat with
      | none => none
      | some c => if c = 10 then some i else lineEndFrom runes n (i + 1)

/-- Go `func lineEnd(runes []rune, cursor int) int`. -/
def lineEnd (runes : List Int) (cursor : Int) : Option Int :=
  lineEndFrom runes ((runes.length : Int) - cursor).toNat cursor

/-- Go `func moveCursorUp(runes []rune, cursor int) int`. -/
def moveCursorUp (runes : List Int) (cursor : Int) : Option Int :=
  let col := (cursorPosition runes cursor).2
  (lineStart runes cursor).bind fun start =>
    if start = 0 then some 0
    else
      let prevLineEnd := start - 1
      (lineStart runes prevLineEnd).bind fun prevLineStart =>
        let prevLineLen := prevLineEnd - prevLineStart
        let col := if col > prevLineLen then prevLineLen else col
        some (prevLineStart + col)

/-- Go `func moveCursorDown(runes []rune, cursor int) int`. -/
def moveCursorDown (runes : List Int) (cursor : Int) : Option Int :=
  let col := (cursorPosition runes cursor).2
  (lineEnd runes cursor).bind fun end_ =>
    if end_ ≥ runes.length then some runes.length
    else
      let nextLineStart := end_ + 1
      (lineEnd runes nextLineStart).bind fun nextLineEnd =>
        let nextLineLen := nextLineEnd - nextLineStart
        let col := if col > nextLineLen then nextLineLen else col
        some (nextLineStart + col)

/-- The `switch key.Type` of `TextInput.Update`: the rune array and the cursor
after it, `none` when a slice or index expression panics. -/
def updateRunes (runes : List Int) (cursor : Int) (key : Key) : Option (List Int × Int) :=
  if key.Type_ = RuneKey then
    (sliceTo runes cursor).bind fun a => (sliceFrom runes cursor).bind fun b =>
      some (a ++ ([key.Rune] ++ b), cursor + 1)
  else if key.Type_ = ShiftEnter then
    (sliceTo runes cursor).bind fun a => (sliceFrom runes cursor).bind fun b =>
      some (a ++ ([10] ++ b), cursor + 1)
  else if key.Type_ = Backspace then
    if cursor > 0 then
      (sliceTo runes (cursor - 1)).bind fun a => (sliceFrom runes cursor).bind fun b =>
        some (a ++ b, cursor - 1)
    else some (runes, cursor)
  else if key.Type_ = Delete then
    if cursor < runes.length then
      (sliceTo runes cursor).bind fun a => (sliceFrom runes (cursor + 1)).bind fun b =>
        some (a ++ b, cursor)
    else some (runes, cursor)
  else if key.Type_ = Left then
    if cursor > 0 then some (runes, cursor - 1) else some (runes, cursor)
  else if key.Type_ = Right then
    if cursor < runes.length then some (runes, cursor + 1) else some (runes, cursor)
  else if key.Type_ = Home then (lineStart runes cursor).map fun c => (runes, c)
  else if key.Type_ = End then (lineEnd runes cursor).map fun c => (runes, c)
  else if key.Type_ = Up then (moveCursorUp runes cursor).map fun c => (runes, c)
  else if key.Type_ = Down then (moveCursorDown runes cursor).map fun c => (runes, c)
  else some (runes, cursor)

/-- Go `func (ti TextInput) Update(key input.Key) TextInput`. -/
def TextInput.Update (ti : TextInput) (key : Key) : Option TextInput :=
  (updateRunes (toRunes ti.Value) ti.Cursor key).map fun rc =>
    { ti with Value := fromRunes rc.1, Cursor := rc.2 }

/-- Go `func (ti TextInput) Submit() (string, TextInput)`. -/
def TextInput.Submit (ti : TextInput) : List Char × TextInput :=
  (trimSpace ti.Value, { ti with Value := [], Cursor := 0 })

/-- The cursor invariant: `0 ≤ Cursor ≤` number of code points of `Value`. -/
def TextInput.cursorInv (ti : TextInput) : Prop :=
  0 ≤ ti.Cursor ∧ ti.Cursor ≤ ti.Value.length

/-- A text input with the two lines "ab" and "c" and the cursor after "b". -/
def demoInput : TextInput :=
  { Value := ['a', 'b', '\n', 'c'], Cursor := 2, Placeholder := ['p'], Focused := true }


/-! ## node/node.go: builder functions and style flags -/

/-- Constant `Bold`. -/
abbrev Bold : StyleFlags := 1
/-- Constant `Dim`. -/
abbrev Dim : StyleFlags := 2
/-- Constant `Italic`. -/
abbrev Italic : StyleFlags := 4
/-- Constant `Underline`. -/
abbrev Underline : StyleFlags := 8
/-- Constant `Reverse`. -/
abbrev Reverse : StyleFlags := 16

/-- Go `func Text(s string) Node`. -/
def Text (s : List Char) : Node :=
  .mk TextNode { Text := s } []

/-- Go `func TextStyled(s string, fg, bg Color, style StyleFlags) Node`. -/
def TextStyled (s : List Char) (fg bg : Color) (style : StyleFlags) : Node :=
  .mk TextNode { Text := s, FG := fg, BG := bg, Style := style } []

/-- Go `func Row(children ...Node) Node`. -/
def Row (children : List Node) : Node :=
  .mk RowNode {} children

/-- Go `func Column(children ...Node) Node`. -/
def Column (children : List Node) : Node :=
  .mk ColumnNode {} children

/-- Go `func Box(border BorderStyle, child Node) Node`. -/
def Box (border : BorderStyle) (child : Node) : Node :=
  .mk BoxNode { Border := border } [child]

/-! ## markdown/markdown.go

Strings are valid UTF-8, so `[]rune(text)` is the list of code points itself
and `string(runes[a:b])` is the slice.  Byte lengths are those of the UTF-8
encoding; a byte index after a prefix of ASCII code points is the code point
index. -/

/-- Go `type ColorScheme struct`. -/
structure ColorScheme where
  Text : Color := 0
  Heading : Color := 0
  Code : Color := 0
  CodeBG : Color := 0
  Quote : Color := 0
  Link : Color := 0
  Bullet : Color := 0
  CheckOn : Color := 0
  CheckOff : Color := 0
  Rule : Color := 0
deriving DecidableEq, Repr

/-- Go `func DefaultColors(fg node.Color) ColorScheme`. -/
def DefaultColors (fg : Color) : ColorScheme :=
  { Text := fg, Heading := 33, Code := 223, CodeBG := 236, Quote := 245, Link := 39,
    Bullet := 44, CheckOn := 34, CheckOff := 245, Rule := 240 }

/-- The backtick character. -/
abbrev backtick : Char := Char.ofNat 0x60

/-- Go `len(s)` of a string: the number of bytes of its UTF-8 encoding. -/
def byteLen (s : List Char) : Nat :=
  (s.map fun c => (utf8 c.toNat).length).sum

/-- Go `strings.HasPrefix(s, pre)`. -/
def hasPrefix (s pre : List Char) : Bool :=
  pre.isPrefixOf s

/-- The code fence test `strings.HasPrefix(strings.TrimSpace(line), "```")` of
`RenderWithColors`. -/
def isFence (line : List Char) : Bool :=
  hasPrefix (trimSpace line) [backtick, backtick, backtick]

/-- Go `func isHorizontalRule(s string) bool`. -/
def isHorizontalRule (s : List Char) : Bool :=
  let s := s.filter fun c => c ≠ ' '
  if byteLen s < 3 then false
  else if s.count '-' = byteLen s ∨ s.count '*' = byteLen s ∨ s.count '_' = byteLen s then true
  else false

/-- Go `func parseHeading(line string) (int, string)`.  The first `level` code
points of `t` are '#', so `t[level]` is the code point at index `level`. -/
def parseHeading (line : List Char) : Int × List Char :=
  let t := trimSpace line
  let level := (t.takeWhile fun c => c = '#').length
  if level > 0 ∧ level ≤ 6 ∧ byteLen t > level ∧ t.get? level = some ' ' then
    ((level : Int), trimSpace (t.drop (level + 1)))
  else (0, [])

/-- The loop over the prefixes of `parseCheckbox`. -/
def checkboxLoop (t : List Char) : List (List Char) → List Char × Int
  | [] => ([], -1)
  | p :: ps =>
    if hasPrefix t p then
      let rest := t.drop p.length
      if hasPrefix rest ['[', 'x', ']', ' '] ∨ hasPrefix rest ['[', 'X', ']', ' '] then
        (rest.drop 4, 1)
      else if hasPrefix rest ['[', ' ', ']', ' '] then (rest.drop 4, 0)
      else checkboxLoop t ps
    else checkboxLoop t ps

/-- Go `func parseCheckbox(line string) (string, int)`. -/
def parseCheckbox (line : List Char) : List Char × Int :=
  checkboxLoop (trimSpace line) [['-', ' '], ['*', ' ']]

/-- The loop over the prefixes of `parseBullet`. -/
def bulletLoop (t : List Char) : List (List Char) → List Char × Bool
  | [] => ([], false)
  | p :: ps => if hasPrefix t p then (t.drop p.length, true) else bulletLoop t ps

/-- Go `func parseBullet(line string) (string, bool)`. -/
def parseBullet (line : List Char) : List Char × Bool :=
  bulletLoop (trimSpace line) [['-', ' '], ['*', ' '], ['+', ' ']]

/-- The loop `for i, c := range t` of `parseNumbered` at index `i`, with the
rest `c :: cs` of `t` from there.  The code points before `i` are digits, so
`i` is also the byte index. -/
def numberedLoop (t : List Char) : Nat → List Char → List Char × List Char × Bool
  | _, [] => ([], [], false)
  | i, c :: cs =>
    if 0x30 ≤ c.toNat ∧ c.toNat ≤ 0x39 then numberedLoop t (i + 1) cs
    else if c = '.' ∧ i > 0 ∧ i + 1 < byteLen t ∧ cs.head? = some ' ' then
      (t.take i, t.drop (i + 2), true)
    else ([], [], false)

/-- Go `func parseNumbered(line string) (string, string, bool)`. -/
def parseNumbered (line : List Char) : List Char × List Char × Bool :=
  numberedLoop (trimSpace line) 0 (trimSpace line)

/-- Go `func parseBlockquote(line string) (string, bool)`. -/
def parseBlockquote (line : List Char) : List Char × Bool :=
  let t := trimSpace line
  if hasPrefix t ['>', ' '] then (t.drop 2, true)
  else if t = ['>'] then ([], true)
  else ([], false)

/-- The loop `for i := start; i <= len(runes)-len(mr); i++` of `findClose`,
with `n` iterations left from index `i`. -/
def findCloseFrom (runes marker : List Char) : Nat → Nat → Int
  | 0, _ => -1
  | n + 1, i =>
    if (runes.drop i).take marker.length = marker then (i : Int)
    else findCloseFrom runes marker n (i + 1)

/-- Go `func findClose(runes []rune, start int, marker string) int`. -/
def findClose (runes : List Char) (start : Nat) (marker : List Char) : Int :=
  findCloseFrom runes marker (runes.length + 1 - marker.length - start) start

/-- The loops `for i := from; i < len(runes); i++ { if runes[i] == c ... }` of
`parseLink`, with `n` iterations left from index `i`; -1 when `c` is not found. -/
def indexFrom (runes : List Char) (c : Char) : Nat → Nat → Int
  | 0, _ => -1
  | n + 1, i => if runes.get? i = some c then (i : Int) else indexFrom runes c n (i + 1)

/-- Go `func parseLink(runes []rune, start int) (string, int)`. -/
def parseLink (runes : List Char) (start : Nat) : List Char × Int :=
  let closeB := indexFrom runes ']' (runes.length - (start + 1)) (start + 1)
  if closeB < 0 ∨ closeB + 1 ≥ runes.length ∨ runes.get? (closeB + 1).toNat ≠ some '(' then
    ([], -1)
  else
    let closeP := indexFrom runes ')' (runes.length - (closeB + 2).toNat) (closeB + 2).toNat
    if closeP < 0 then ([], -1)
    else ((runes.take closeB.toNat).drop (start + 1), closeP + 1)

/-- The state of the loop of `parseInline`: the nodes, the text buffer and the
index. -/
structure InlineState where
  nodes : List Node
  buf : List Char
  i : Nat

/-- The closure `flush` of `parseInline`. -/
def InlineState.flush (st : InlineState) (fg : Color) (style : StyleFlags) : InlineState :=
  if byteLen st.buf > 0 then
    { st with nodes := st.nodes ++ [TextStyled st.buf fg 0 style], buf := [] }
  else st

/-- A styled span of `parseInline`: flush the buffer, append the node for
`runes[a:b]` and continue at index `next`. -/
def InlineState.span (st : InlineState) (defaultFG : Color) (text : List Char)
    (fg bg : Color) (style : StyleFlags) (next : Nat) : InlineState :=
  let st1 := st.flush defaultFG 0
  { st1 with nodes := st1.nodes ++ [TextStyled text fg bg style], i := next }

/-- One iteration of the loop of `parseInline` at index `st.i < len(runes)`. -/
def parseInlineStep (runes : List Char) (defaultFG : Color) (colors : ColorScheme)
    (st : InlineState) : InlineState :=
  let i := st.i
  let slice := fun (a : Nat) (b : Int) => (runes.take b.toNat).drop a
  let boldItalic : Option InlineState :=
    if i + 2 < runes.length ∧ runes.get? i = some '*' ∧ runes.get? (i + 1) = some '*' ∧
        runes.get? (i + 2) = some '*' then
      let end_ := findClose runes (i + 3) ['*', '*', '*']
      if end_ ≥ 0 then
        some (st.span defaultFG (slice (i + 3) end_) defaultFG 0 (Bold ||| Italic)
          (end_ + 3).toNat)
      else none
    else none
  match boldItalic with
  | some r => r
  | none =>
    if i + 1 < runes.length ∧ runes.get? i = some '*' ∧ runes.get? (i + 1) = some '*' then
      let end_ := findClose runes (i + 2) ['*', '*']
      if end_ ≥ 0 then
        st.span defaultFG (slice (i + 2) end_) defaultFG 0 Bold (end_ + 2).toNat
      else { st with buf := st.buf ++ (runes.drop i).take 2, i := i + 2 }
    else
      let italic : Option InlineState :=
        if runes.get? i = some '*' then
          let end_ := findClose runes (i + 1) ['*']
          if end_ ≥ 0 ∧ end_ > i + 1 then
            some (st.span defaultFG (slice (i + 1) end_) defaultFG 0 Italic (end_ + 1).toNat)
          else none
        else none
      match italic with
      | some r => r
      | none =>
        let code : Option InlineState :=
          if runes.get? i = some backtick then
            let end_ := findClose runes (i + 1) [backtick]
            if end_ ≥ 0 then
              some (st.span defaultFG (slice (i + 1) end_) colors.Code colors.CodeBG 0
                (end_ + 1).toNat)
            else none
          else none
        match code with
        | some r => r
        | none =>
          let link : Option InlineState :=
            if runes.get? i = some '[' then
              let le := parseLink runes i
              if le.2 ≥ 0 then
                some (st.span defaultFG le.1 colors.Link 0 Underline le.2.toNat)
              else none
            else none
          match link with
          | some r => r
          | none => { st with buf := st.buf ++ (runes.drop i).take 1, i := i + 1 }

/-- The loop `for i < len(runes)` of `parseInline`, with at most `fuel`
iterations left; every iteration advances `i`. -/
def parseInlineLoop (runes : List Char) (defaultFG : Color) (colors : ColorScheme) :
    Nat → InlineState → InlineState
  | 0, st => st
  | fuel + 1, st =>
    if st.i < runes.length then
      parseInlineLoop runes defaultFG colors fuel (parseInlineStep runes defaultFG colors st)
    else st

/-- Go `func parseInline(text string, defaultFG node.Color, colors ColorScheme) []node.Node`. -/
def parseInline (text : List Char) (defaultFG : Color) (colors : ColorScheme) : List Node :=
  ((parseInlineLoop text defaultFG colors text.length ⟨[], [], 0⟩).flush defaultFG 0).nodes

/-- The statement `spans[idx].Props.Style |= flag` for every span. -/
def addStyle (flag : StyleFlags) (spans : List Node) : List Node :=
  spans.map fun n => .mk n.Type_ { n.Props with Style := n.Props.Style ||| flag } n.Children

/-- The node that `RenderWithColors` appends for a line that is neither a code
fence nor a horizontal rule (lines 81-150): heading, checkbox, bullet,
numbered item, blockquote, empty line or paragraph. -/
def renderLine (line : List Char) (colors : ColorScheme) : Node :=
  let trimmed := trimSpace line
  let h := parseHeading line
  if h.1 > 0 then Row (addStyle Bold (parseInline h.2 colors.Heading colors))
  else
    let cb := parseCheckbox line
    if cb.2 ≥ 0 then
      if cb.2 = 1 then
        Row ([TextStyled [' ', ' ', Char.ofNat 0x2714, ' '] colors.CheckOn 0 0] ++
          parseInline cb.1 colors.Text colors)
      else
        Row ([TextStyled [' ', ' ', Char.ofNat 0x2610, ' '] colors.CheckOff 0 0] ++
          addStyle Dim (parseInline cb.1 colors.Text colors))
    else
      let bl := parseBullet line
      if bl.2 then
        Row ([TextStyled [' ', ' ', Char.ofNat 0x2022, ' '] colors.Bullet 0 0] ++
          parseInline bl.1 colors.Text colors)
      else
        let nm := parseNumbered line
        if nm.2.2 then
          Row ([TextStyled ([' ', ' '] ++ nm.1 ++ ['.', ' ']) colors.Bullet 0 0] ++
            parseInline nm.2.1 colors.Text colors)
        else
          let bq := parseBlockquote line
          if bq.2 then
            Row ([TextStyled [' ', ' ', Char.ofNat 0x2502, ' '] colors.Quote 0 0] ++
              addStyle Italic (parseInline bq.1 colors.Text colors))
          else if trimmed = [] then Text []
          else Row (parseInline line colors.Text colors)

/-- The inner loop of the code fence branch (lines 56-59), with `n` iterations
left from index `i`: the index and the code lines after it. -/
def codeLoop (lines : List (List Char)) (colors : ColorScheme) :
    Nat → Nat → List Node → Nat × List Node
  | 0, i, codeLines => (i, codeLines)
  | n + 1, i, codeLines =>
    if i < lines.length ∧ ¬ isFence (lines.getD i []) then
      codeLoop lines colors n (i + 1)
        (codeLines ++ [TextStyled (lines.getD i []) colors.Code colors.CodeBG 0])
    else (i, codeLines)

/-- The loop `for i < len(lines)` of `RenderWithColors`, with at most `fuel`
iterations left; every iteration advances `i`. -/
def renderLoop (lines : List (List Char)) (colors : ColorScheme) :
    Nat → Nat → Int → List Node → List Node
  | 0, _, _, nodes => nodes
  | fuel + 1, i, width, nodes =>
    if i < lines.length then
      let line := lines.getD i []
      if isFence line then
        let ic := codeLoop lines colors (lines.length - (i + 1)) (i + 1) []
        let i2 := if ic.1 < lines.length then ic.1 + 1 else ic.1
        let codeLines :=
          if ic.2.length = 0 then ic.2 ++ [TextStyled [' '] colors.Code colors.CodeBG 0]
          else ic.2
        renderLoop lines colors fuel i2 width (nodes ++ [Box BorderRounded (Column codeLines)])
      else if isHorizontalRule (trimSpace line) then
        let width := if width ≤ 0 then 40 else width
        renderLoop lines colors fuel (i + 1) width
          (nodes ++ [TextStyled (List.replicate width.toNat (Char.ofNat 0x2500)) colors.Rule 0 0])
      else renderLoop lines colors fuel (i + 1) width (nodes ++ [renderLine line colors])
    else nodes

/-- Go `func RenderWithColors(text string, width int, colors ColorScheme) []node.Node`. -/
def RenderWithColors (text : List Char) (width : Int) (colors : ColorScheme) : List Node :=
  renderLoop (splitLines text) colors (splitLines text).length 0 width []

/-- Go `func Render(text string, width int, fg node.Color) []node.Node`. -/
def Render (text : List Char) (width : Int) (fg : Color) : List Node :=
  RenderWithColors text width (DefaultColors fg)


/-! ## cell/paint.go: `intersect` with the wrap-around of 64-bit `int` -/

/-- The value of a Go `int` expression on a 64-bit platform whose mathematical
result is `x`: additions and subtractions wrap around to -2^63 .. 2^63 - 1. -/
def wrap64 (x : Int) : Int :=
  (x + 9223372036854775808) % 18446744073709551616 - 9223372036854775808

/-- The integer `x` is a value of the 64-bit Go `int`. -/
def isInt64 (x : Int) : Prop :=
  -9223372036854775808 ≤ x ∧ x < 9223372036854775808

instance (x : Int) : Decidable (isInt64 x) :=
  inferInstanceAs (Decidable (-9223372036854775808 ≤ x ∧ x < 9223372036854775808))

/-- The fields of the rectangle are values of the 64-bit Go `int`. -/
def Rect.isInt64 (r : Rect) : Prop :=
  Tooey.isInt64 r.X ∧ Tooey.isInt64 r.Y ∧ Tooey.isInt64 r.W ∧ Tooey.isInt64 r.H

instance (r : Rect) : Decidable r.isInt64 :=
  inferInstanceAs (Decidable
    (Tooey.isInt64 r.X ∧ Tooey.isInt64 r.Y ∧ Tooey.isInt64 r.W ∧ Tooey.isInt64 r.H))

/-- The edge sums `X + W` and `Y + H` of the rectangle do not overflow the
64-bit Go `int`. -/
def Rect.noOverflow (r : Rect) : Prop :=
  Tooey.isInt64 (r.X + r.W) ∧ Tooey.isInt64 (r.Y + r.H)

instance (r : Rect) : Decidable r.noOverflow :=
  inferInstanceAs (Decidable (Tooey.isInt64 (r.X + r.W) ∧ Tooey.isInt64 (r.Y + r.H)))

/-- Go `func intersect(a, b layout.Rect) layout.Rect` with every addition and
subtraction wrapping around as the 64-bit `int` does; `intersect` is the same
function over the unbounded integers. -/
def intersect64 (a b : Rect) : Rect :=
  let x1 := max a.X b.X
  let y1 := max a.Y b.Y
  let x2 := min (wrap64 (a.X + a.W)) (wrap64 (b.X + b.W))
  let y2 := min (wrap64 (a.Y + a.H)) (wrap64 (b.Y + b.H))
  if x2 ≤ x1 ∨ y2 ≤ y1 then {}
  else { X := x1, Y := y1, W := wrap64 (x2 - x1), H := wrap64 (y2 - y1) }


/-! ## Lemmas -/

theorem forRange_inv {σ : Type} (body : Int → σ → Option σ) (Inv : Int → σ → Prop) :
    ∀ (n : Nat) (i : Int) (s : σ), Inv i s →
      (∀ j t, i ≤ j → j < i + n → Inv j t → ∃ t1, body j t = some t1 ∧ Inv (j + 1) t1) →
      ∃ s1, forRange body n i s = some s1 ∧ Inv (i + n) s1 := by
  intro n
  induction n with
  | zero => intro i s h _; exact ⟨s, rfl, by simpa using h⟩
  | succ n ih =>
    intro i s h hb
    obtain ⟨t1, ht1, hI⟩ := hb i s (le_refl _) (by push_cast; omega) h
    obtain ⟨s1, hs1, hI1⟩ := ih (i + 1) t1 hI (fun j t hj1 hj2 hI =>
      hb j t (by omega) (by push_cast; omega) hI)
    refine ⟨s1, ?_, ?_⟩
    · simp [forRange, ht1, hs1]
    · have : i + ((n + 1 : Nat) : Int) = i + 1 + n := by push_cast; ring
      rw [this]; exact hI1

theorem index_bound {W H x y : Int} (hx0 : 0 ≤ x) (hx : x < W) (hy0 : 0 ≤ y) (hy : y < H) :
    0 ≤ y * W + x ∧ y * W + x < W * H := by
  constructor
  · have : 0 ≤ y * W := mul_nonneg hy0 (by omega)
    omega
  · have h1 : y * W ≤ (H - 1) * W := mul_le_mul_of_nonneg_right (by omega) (by omega)
    have h2 : (H - 1) * W = W * H - W := by ring
    omega

theorem inBounds_iff (b : Buffer) (x y : Int) :
    b.inBounds x y = true ↔ 0 ≤ x ∧ x < b.Width ∧ 0 ≤ y ∧ y < b.Height := by
  simp [Buffer.inBounds, and_assoc]

theorem get_out (b : Buffer) (x y : Int) (h : b.inBounds x y = false) :
    b.Get x y = some {} := by
  simp [Buffer.Get, h]

theorem get_in (b : Buffer) (hb : b.WF) (x y : Int) (h : b.inBounds x y = true) :
    ∃ c, b.Get x y = some c ∧ loadAt b.Cells (y * b.Width + x) = some c := by
  obtain ⟨hx0, hx, hy0, hy⟩ := (inBounds_iff b x y).1 h
  obtain ⟨h0, h1⟩ := index_bound hx0 hx hy0 hy
  have hlt : (y * b.Width + x).toNat < b.Cells.length := by
    have := hb.2.2
    omega
  refine ⟨b.Cells.get ⟨_, hlt⟩, ?_, ?_⟩
  · simp [Buffer.Get, h, loadAt, h0, List.getElem?_eq_getElem hlt]
  · simp [loadAt, h0, List.getElem?_eq_getElem hlt]

theorem get_eq_out (A B : Buffer) (hw : A.Width = B.Width) (hh : A.Height = B.Height)
    (x y : Int) (h : B.inBounds x y = false) : A.Get x y = B.Get x y := by
  have hA : A.inBounds x y = false := by
    simpa [Buffer.inBounds, hw, hh] using h
  rw [get_out A x y hA, get_out B x y h]

theorem differs_inBounds (A B : Buffer) (hw : A.Width = B.Width) (hh : A.Height = B.Height)
    (x y : Int) (h : differs A B x y) : B.inBounds x y = true := by
  by_contra hc
  exact h (get_eq_out A B hw hh x y (by simpa using hc))

theorem diffStep_eq (A B : Buffer) (hA : A.WF) (hB : B.WF) (hw : A.Width = B.Width)
    (hh : A.Height = B.Height) (y x : Int) (h : B.inBounds x y = true) (st : DiffState) :
    ∃ pc nc, A.Get x y = some pc ∧ B.Get x y = some nc ∧
      diffStep A B B.Width y x st =
        if pc ≠ nc then
          some { st with
            runStart := if st.run = none then x else st.runStart
            run := appendRun st.run nc }
        else
          match st.run with
          | some r => some { st with changes := st.changes ++ [⟨st.runStart, y, r⟩], run := none }
          | none => some st := by
  have hA1 : A.inBounds x y = true := by
    simpa [Buffer.inBounds, hw, hh] using h
  obtain ⟨pc, hpc, hlA⟩ := get_in A hA x y hA1
  obtain ⟨nc, hnc, hlB⟩ := get_in B hB x y h
  refine ⟨pc, nc, hpc, hnc, ?_⟩
  rw [hw] at hlA
  simp only [diffStep, hlA, hlB, Option.bind_some]
  rfl

theorem diffStep_inv (A B : Buffer) (hA : A.WF) (hB : B.WF) (hw : A.Width = B.Width)
    (hh : A.Height = B.Height) (y x : Int) (h : B.inBounds x y = true) (st : DiffState)
    (hI : DiffInv A B y x st.run st.runStart (diffFlush y st)) :
    ∃ st1, diffStep A B B.Width y x st = some st1 ∧
      DiffInv A B y (x + 1) st1.run st1.runStart (diffFlush y st1) := by
  obtain ⟨pc, nc, hpc, hnc, heq⟩ := diffStep_eq A B hA hB hw hh y x h st
  obtain ⟨hx0, hx, hy0, hy⟩ := (inBounds_iff B x y).1 h
  obtain ⟨changes, run, rs⟩ := st
  rw [heq]
  dsimp only at hI
  cases run with
  | none =>
    by_cases hpn : pc = nc
    · -- unchanged cell, no open run
      refine ⟨⟨changes, none, rs⟩, by simp [hpn], ?_⟩
      simp only [diffFlush] at hI ⊢
      have hget : A.Get x y = B.Get x y := by rw [hpc, hnc, hpn]
      refine ⟨hI.pre, ?_, ?_, hI.sorted, ?_, ?_, ?_⟩
      · intro c hc
        rcases hI.past c hc with h1 | ⟨h1, h2⟩
        · exact Or.inl h1
        · exact Or.inr ⟨h1, by omega⟩
      · intro c hc
        rcases hI.closed c hc with h1 | ⟨h1, _⟩
        · exact Or.inl h1
        · exact absurd rfl h1
      · intro x1 y1 hd hlt
        rcases hlt with h1 | ⟨h1, h2⟩
        · exact hI.cover x1 y1 hd (Or.inl h1)
        · by_cases hx1 : x1 < x
          · exact hI.cover x1 y1 hd (Or.inr ⟨h1, hx1⟩)
          · have : x1 = x := by omega
            subst this; subst h1
            exact absurd hget hd
      · intro _
        simpa using hget
      · intro r hr
        cases hr
    · -- changed cell opens a run
      refine ⟨⟨changes, some [nc], x⟩, by simp [hpn, appendRun], ?_⟩
      simp only [diffFlush] at hI ⊢
      have hdiff : differs A B x y := by
        unfold differs; rw [hpc, hnc]; simpa using hpn
      have hsep : ∀ c ∈ changes, Change.sep c ⟨x, y, [nc]⟩ := by
        intro c hc
        rcases hI.past c hc with h1 | ⟨h1, h2⟩
        · exact Or.inl h1
        · refine Or.inr ⟨h1, ?_⟩
          rcases hI.closed c hc with h3 | ⟨h3, _⟩
          · by_contra hcon
            have h4 : c.X + c.Cells.length = x := by
              simp only [not_lt] at hcon
              exact le_antisymm h2 hcon
            rw [h4, h1] at h3
            exact hdiff h3
          · exact absurd rfl h3
      refine ⟨?_, ?_, ?_, ?_, ?_, ?_, ?_⟩
      · intro c hc
        rcases List.mem_append.1 hc with h1 | h1
        · exact hI.pre c h1
        · rw [List.mem_singleton] at h1
          subst h1
          refine ⟨by simp, hy0, hy, hx0, by simp; omega, ?_, hI.idle rfl⟩
          intro i hi
          have hi0 : i = 0 := by simpa using hi
          subst hi0
          simpa [hnc] using hdiff
      · intro c hc
        rcases List.mem_append.1 hc with h1 | h1
        · rcases hI.past c h1 with h2 | ⟨h2, h3⟩
          · exact Or.inl h2
          · exact Or.inr ⟨h2, by omega⟩
        · rw [List.mem_singleton] at h1
          subst h1
          exact Or.inr ⟨rfl, by simp⟩
      · intro c hc
        rcases List.mem_append.1 hc with h1 | h1
        · rcases hI.closed c h1 with h2 | ⟨h2, _⟩
          · exact Or.inl h2
          · exact absurd rfl h2
        · rw [List.mem_singleton] at h1
          subst h1
          exact Or.inr ⟨by simp, rfl, by simp⟩
      · exact List.pairwise_append.2 ⟨hI.sorted, List.pairwise_singleton _ _,
          fun c hc d hd => by rw [List.mem_singleton] at hd; subst hd; exact hsep c hc⟩
      · intro x1 y1 hd hlt
        rcases hlt with h1 | ⟨h1, h2⟩
        · obtain ⟨c, hc, hcov⟩ := hI.cover x1 y1 hd (Or.inl h1)
          exact ⟨c, List.mem_append_left _ hc, hcov⟩
        · by_cases hx1 : x1 < x
          · obtain ⟨c, hc, hcov⟩ := hI.cover x1 y1 hd (Or.inr ⟨h1, hx1⟩)
            exact ⟨c, List.mem_append_left _ hc, hcov⟩
          · have : x1 = x := by omega
            subst this; subst h1
            exact ⟨_, List.mem_append_right _ (List.mem_singleton.2 rfl),
              ⟨rfl, le_refl _, by simp⟩⟩
      · intro hn
        cases hn
      · intro r hr
        cases hr
        exact ⟨by simp, by simp⟩
  | some r =>
    obtain ⟨hrne, hrlen⟩ := hI.busy r rfl
    simp only [diffFlush] at hI
    have hlast : (⟨rs, y, r⟩ : Change) ∈ changes ++ [⟨rs, y, r⟩] :=
      List.mem_append_right _ (List.mem_singleton.2 rfl)
    obtain ⟨hsorted, -, hsepl⟩ := List.pairwise_append.1 hI.sorted
    by_cases hpn : pc = nc
    · -- unchanged cell closes the open run
      refine ⟨⟨changes ++ [⟨rs, y, r⟩], none, rs⟩, by simp [hpn], ?_⟩
      simp only [diffFlush]
      have hget : A.Get x y = B.Get x y := by rw [hpc, hnc, hpn]
      refine ⟨hI.pre, ?_, ?_, hI.sorted, ?_, ?_, ?_⟩
      · intro c hc
        rcases hI.past c hc with h1 | ⟨h1, h2⟩
        · exact Or.inl h1
        · exact Or.inr ⟨h1, by omega⟩
      · intro c hc
        rcases hI.closed c hc with h1 | ⟨_, h1, h2⟩
        · exact Or.inl h1
        · left
          rw [h2, h1]; exact hget
      · intro x1 y1 hd hlt
        rcases hlt with h1 | ⟨h1, h2⟩
        · exact hI.cover x1 y1 hd (Or.inl h1)
        · by_cases hx1 : x1 < x
          · exact hI.cover x1 y1 hd (Or.inr ⟨h1, hx1⟩)
          · have : x1 = x := by omega
            subst this; subst h1
            exact absurd hget hd
      · intro _
        simpa using hget
      · intro r1 hr1
        cases hr1
    · -- changed cell extends the open run
      refine ⟨⟨changes, some (r ++ [nc]), rs⟩, by simp [hpn, appendRun], ?_⟩
      simp only [diffFlush]
      have hdiff : differs A B x y := by
        unfold differs; rw [hpc, hnc]; simpa using hpn
      obtain ⟨-, -, -, hrs0, -, hcont, hleft⟩ := hI.pre _ hlast
      simp only at hrs0 hcont hleft
      refine ⟨?_, ?_, ?_, ?_, ?_, ?_, ?_⟩
      · intro c hc
        rcases List.mem_append.1 hc with h1 | h1
        · exact hI.pre c (List.mem_append_left _ h1)
        · rw [List.mem_singleton] at h1
          subst h1
          refine ⟨by simp, hy0, hy, hrs0, by simp; omega, ?_, hleft⟩
          intro i hi
          simp only [List.length_append, List.length_singleton] at hi
          by_cases hir : i < r.length
          · have := hcont i hir
            simpa [List.getElem?_append_left hir] using this
          · have hie : i = r.length := by omega
            subst hie
            have hxe : rs + (r.length : Int) = x := hrlen
            simp only [hxe]
            refine ⟨?_, hdiff⟩
            simp [hnc]
      · intro c hc
        rcases List.mem_append.1 hc with h1 | h1
        · rcases hI.past c (List.mem_append_left _ h1) with h2 | ⟨h2, h3⟩
          · exact Or.inl h2
          · exact Or.inr ⟨h2, by omega⟩
        · rw [List.mem_singleton] at h1
          subst h1
          refine Or.inr ⟨rfl, ?_⟩
          simp only [List.length_append, List.length_singleton]
          push_cast; omega
      · intro c hc
        rcases List.mem_append.1 hc with h1 | h1
        · rcases hI.closed c (List.mem_append_left _ h1) with h2 | ⟨_, h2, h3⟩
          · exact Or.inl h2
          · exfalso
            rcases hsepl c h1 ⟨rs, y, r⟩ (List.mem_singleton.2 rfl) with h4 | ⟨_, h4⟩
            · dsimp only at h4; omega
            · dsimp only at h4; omega
        · rw [List.mem_singleton] at h1
          subst h1
          refine Or.inr ⟨by simp, rfl, ?_⟩
          simp only [List.length_append, List.length_singleton]
          push_cast; omega
      · exact List.pairwise_append.2 ⟨hsorted, List.pairwise_singleton _ _,
          fun c hc d hd => by
            rw [List.mem_singleton] at hd; subst hd
            exact hsepl c hc ⟨rs, y, r⟩ (List.mem_singleton.2 rfl)⟩
      · intro x1 y1 hd hlt
        have hnew : (⟨rs, y, r ++ [nc]⟩ : Change) ∈ changes ++ [⟨rs, y, r ++ [nc]⟩] :=
          List.mem_append_right _ (List.mem_singleton.2 rfl)
        have hold : (y1 < y ∨ (y1 = y ∧ x1 < x)) → ∃ c ∈ changes ++ [⟨rs, y, r ++ [nc]⟩],
            c.covers x1 y1 := by
          intro hlt1
          obtain ⟨c, hc, hcov⟩ := hI.cover x1 y1 hd hlt1
          rcases List.mem_append.1 hc with h1 | h1
          · exact ⟨c, List.mem_append_left _ h1, hcov⟩
          · rw [List.mem_singleton] at h1
            subst h1
            refine ⟨_, hnew, hcov.1, hcov.2.1, ?_⟩
            have := hcov.2.2
            simp only [List.length_append, List.length_singleton] at this ⊢
            push_cast; omega
        rcases hlt with h1 | ⟨h1, h2⟩
        · exact hold (Or.inl h1)
        · by_cases hx1 : x1 < x
          · exact hold (Or.inr ⟨h1, hx1⟩)
          · have : x1 = x := by omega
            subst this; subst h1
            refine ⟨_, hnew, rfl, ?_, ?_⟩
            · simp only; omega
            · simp only [List.length_append, List.length_singleton]
              push_cast; omega
      · intro hn
        cases hn
      · intro r1 hr1
        cases hr1
        refine ⟨by simp, ?_⟩
        simp only [List.length_append, List.length_singleton]
        push_cast; omega

theorem diffRow_inv (A B : Buffer) (hA : A.WF) (hB : B.WF) (hw : A.Width = B.Width)
    (hh : A.Height = B.Height) (y : Int) (hy0 : 0 ≤ y) (hy : y < B.Height) (cs : List Change)
    (hI : DiffInv A B y 0 none 0 cs) :
    ∃ cs1, diffRow A B B.Width y cs = some cs1 ∧ DiffInv A B (y + 1) 0 none 0 cs1 := by
  have hW : (0 : Int) + (B.Width.toNat : Int) = B.Width := by
    have := hB.1
    omega
  obtain ⟨st1, hst1, hI1⟩ := forRange_inv (diffStep A B B.Width y)
    (fun x st => DiffInv A B y x st.run st.runStart (diffFlush y st))
    B.Width.toNat 0 ⟨cs, none, 0⟩ (by simpa [diffFlush] using hI)
    (fun j t hj0 hj hIj => diffStep_inv A B hA hB hw hh y j
      ((inBounds_iff B j y).2 ⟨hj0, by omega, hy0, hy⟩) t hIj)
  rw [hW] at hI1
  refine ⟨diffFlush y st1, by simp [diffRow, hst1], ?_⟩
  have hout : ∀ x1 y1 : Int, x1 < 0 ∨ B.Width ≤ x1 → A.Get x1 y1 = B.Get x1 y1 := by
    intro x1 y1 hx1
    apply get_eq_out A B hw hh
    rw [Bool.eq_false_iff]
    intro hin
    have := (inBounds_iff B x1 y1).1 hin
    omega
  refine ⟨hI1.pre, ?_, ?_, hI1.sorted, ?_, ?_, ?_⟩
  · intro c hc
    rcases hI1.past c hc with h1 | ⟨h1, h2⟩
    · exact Or.inl (by omega)
    · exact Or.inl (by omega)
  · intro c hc
    rcases hI1.closed c hc with h1 | ⟨_, h1, h2⟩
    · exact Or.inl h1
    · exact Or.inl (hout _ _ (Or.inr (by omega)))
  · intro x1 y1 hd hlt
    have hin := (inBounds_iff B x1 y1).1 (differs_inBounds A B hw hh x1 y1 hd)
    rcases hlt with h1 | ⟨h1, h2⟩
    · by_cases hy1 : y1 < y
      · exact hI1.cover x1 y1 hd (Or.inl hy1)
      · exact hI1.cover x1 y1 hd (Or.inr ⟨by omega, hin.2.1⟩)
    · omega
  · intro _
    exact hout _ _ (Or.inl (by omega))
  · intro r hr
    cases hr

theorem diff_spec (A B : Buffer) (hA : A.WF) (hB : B.WF) (hw : A.Width = B.Width)
    (hh : A.Height = B.Height) : ∃ cs, Diff A B = some cs ∧ DiffSpec A B cs := by
  have hH : (0 : Int) + (B.Height.toNat : Int) = B.Height := by
    have := hB.2.1
    omega
  have hinit : DiffInv A B 0 0 none 0 [] := by
    refine ⟨by simp, by simp, by simp, List.Pairwise.nil, ?_, ?_, ?_⟩
    · intro x1 y1 hd hlt
      have hin := (inBounds_iff B x1 y1).1 (differs_inBounds A B hw hh x1 y1 hd)
      omega
    · intro _
      apply get_eq_out A B hw hh
      rw [Bool.eq_false_iff]
      intro hin
      have := (inBounds_iff B _ _).1 hin
      omega
    · intro r hr
      cases hr
  obtain ⟨cs, hcs, hI⟩ := forRange_inv (diffRow A B B.Width)
    (fun y cs => DiffInv A B y 0 none 0 cs) B.Height.toNat 0 [] hinit
    (fun j t hj0 hj hIj => diffRow_inv A B hA hB hw hh j hj0 (by omega) t hIj)
  rw [hH] at hI
  refine ⟨cs, by simp [Diff, hw, hh, hcs], hI.pre, ?_, hI.sorted, ?_⟩
  · intro c hc
    rcases hI.closed c hc with h1 | ⟨h1, _⟩
    · exact h1
    · exact absurd rfl h1
  · intro x y hd
    have hin := (inBounds_iff B x y).1 (differs_inBounds A B hw hh x y hd)
    exact hI.cover x y hd (Or.inl hin.2.2.2)

theorem index_inj {W x y x1 y1 : Int} (hx0 : 0 ≤ x) (hx : x < W) (hx10 : 0 ≤ x1) (hx1 : x1 < W)
    (h : y1 * W + x1 = y * W + x) : x1 = x ∧ y1 = y := by
  have hy : y1 = y := by
    rcases lt_trichotomy y1 y with hlt | heq | hgt
    · have h1 : (y1 + 1) * W ≤ y * W := mul_le_mul_of_nonneg_right (by omega) (by omega)
      have h2 : (y1 + 1) * W = y1 * W + W := by ring
      omega
    · exact heq
    · have h1 : (y + 1) * W ≤ y1 * W := mul_le_mul_of_nonneg_right (by omega) (by omega)
      have h2 : (y + 1) * W = y * W + W := by ring
      omega
  subst hy
  exact ⟨by omega, rfl⟩

theorem set_spec (b : Buffer) (hb : b.WF) (x y : Int) (c : Cell) :
    ∃ b1, b.Set x y c = some b1 ∧ b1.WF ∧ b1.Width = b.Width ∧ b1.Height = b.Height ∧
      ∀ x1 y1 : Int, b1.Get x1 y1 =
        if x1 = x ∧ y1 = y ∧ b.inBounds x y = true then some c else b.Get x1 y1 := by
  by_cases hin : b.inBounds x y = true
  · obtain ⟨hx0, hx, hy0, hy⟩ := (inBounds_iff b x y).1 hin
    obtain ⟨h0, h1⟩ := index_bound hx0 hx hy0 hy
    have hlen := hb.2.2
    have hlt : y * b.Width + x < (b.Cells.length : Int) := by omega
    refine ⟨{ b with Cells := b.Cells.set (y * b.Width + x).toNat c }, ?_, ?_, rfl, rfl, ?_⟩
    · simp [Buffer.Set, hin, storeAt, h0, hlt]
    · exact ⟨hb.1, hb.2.1, by simpa using hlen⟩
    · intro x1 y1
      by_cases hin1 : b.inBounds x1 y1 = true
      · obtain ⟨hx10, hx1, hy10, hy1⟩ := (inBounds_iff b x1 y1).1 hin1
        obtain ⟨h10, h11⟩ := index_bound hx10 hx1 hy10 hy1
        have hin1b : Buffer.inBounds { b with Cells := b.Cells.set (y * b.Width + x).toNat c }
            x1 y1 = true := hin1
        by_cases hxy : x1 = x ∧ y1 = y
        · obtain ⟨rfl, rfl⟩ := hxy
          have hlt1 : (y1 * b.Width + x1).toNat < b.Cells.length := by omega
          simp [Buffer.Get, hin1b, hin, loadAt, h0, hlt1]
        · have hne : (y * b.Width + x).toNat ≠ (y1 * b.Width + x1).toNat := by
            intro he
            have he1 : y1 * b.Width + x1 = y * b.Width + x := by omega
            exact hxy (index_inj hx0 hx hx10 hx1 he1)
          have hif : ¬ (x1 = x ∧ y1 = y ∧ b.inBounds x y = true) := fun h => hxy ⟨h.1, h.2.1⟩
          simp [Buffer.Get, hin1b, hin1, loadAt, h10, List.getElem?_set_ne hne, hif]
      · have hin1f : b.inBounds x1 y1 = false := by simpa using hin1
        have hin1b : Buffer.inBounds { b with Cells := b.Cells.set (y * b.Width + x).toNat c }
            x1 y1 = false := hin1f
        have hif : ¬ (x1 = x ∧ y1 = y ∧ b.inBounds x y = true) := by
          rintro ⟨rfl, rfl, _⟩
          exact hin1 hin
        rw [get_out _ _ _ hin1b, get_out _ _ _ hin1f, if_neg hif]
  · have hinf : b.inBounds x y = false := by simpa using hin
    refine ⟨b, by simp [Buffer.Set, hinf], hb, rfl, rfl, ?_⟩
    intro x1 y1
    simp [hinf]

theorem inBounds_congr (b1 b : Buffer) (hw : b1.Width = b.Width) (hh : b1.Height = b.Height)
    (x y : Int) : b1.inBounds x y = b.inBounds x y := by
  simp [Buffer.inBounds, hw, hh]

theorem applyCells_spec (cs : List Cell) : ∀ (b : Buffer) (_ : b.WF) (x y : Int),
    ∃ b1, applyCells b x y cs = some b1 ∧ b1.WF ∧ b1.Width = b.Width ∧ b1.Height = b.Height ∧
      ∀ x1 y1 : Int, b1.Get x1 y1 =
        if y1 = y ∧ x ≤ x1 ∧ x1 < x + cs.length ∧ b.inBounds x1 y1 = true
        then cs.get? (x1 - x).toNat else b.Get x1 y1 := by
  induction cs with
  | nil =>
    intro b hb x y
    refine ⟨b, rfl, hb, rfl, rfl, ?_⟩
    intro x1 y1
    have : ¬ (y1 = y ∧ x ≤ x1 ∧ x1 < x + (([] : List Cell).length : Int) ∧
        b.inBounds x1 y1 = true) := by
      simp only [List.length_nil]; push_cast; omega
    rw [if_neg this]
  | cons c cs ih =>
    intro b hb x y
    obtain ⟨b0, hset, hwf0, hw0, hh0, hget0⟩ := set_spec b hb x y c
    obtain ⟨b1, happ, hwf1, hw1, hh1, hget1⟩ := ih b0 hwf0 (x + 1) y
    refine ⟨b1, by simp [applyCells, hset, happ], hwf1, by omega, by omega, ?_⟩
    intro x1 y1
    rw [hget1, hget0, inBounds_congr b0 b hw0 hh0]
    by_cases hin : b.inBounds x1 y1 = true
    · by_cases hy : y1 = y
      · subst hy
        by_cases hx : x1 = x
        · subst hx
          simp [hin]
        · by_cases hr : x + 1 ≤ x1 ∧ x1 < x + 1 + (cs.length : Int)
          · have e : (x1 - x).toNat = (x1 - (x + 1)).toNat + 1 := by omega
            have h1 : x ≤ x1 ∧ x1 < x + ((cs.length : Int) + 1) := by omega
            simp [hin, hr, hx, h1, e]
          · have h1 : ¬ (x ≤ x1 ∧ x1 < x + ((cs.length : Int) + 1)) := by omega
            have h2 : ¬ (x + 1 ≤ x1 ∧ x1 < x + 1 + (cs.length : Int)) := hr
            simp only [List.length_cons]
            push_cast
            rw [if_neg (fun h => h2 ⟨h.2.1, h.2.2.1⟩), if_neg (fun h => hx h.1),
              if_neg (fun h => h1 ⟨h.2.1, h.2.2.1⟩)]
      · rw [if_neg (fun h => hy h.1), if_neg (fun h => hy h.2.1), if_neg (fun h => hy h.1)]
    · have hinf : b.inBounds x1 y1 = false := by simpa using hin
      have hxy : ¬ (x1 = x ∧ y1 = y ∧ b.inBounds x y = true) := by
        rintro ⟨rfl, rfl, h3⟩
        exact hin h3
      simp only [hinf, Bool.false_eq_true, and_false, if_false, hxy]

theorem applyChanges_spec (B : Buffer) (cs : List Change) : ∀ (b : Buffer) (_ : b.WF)
    (_ : b.Width = B.Width) (_ : b.Height = B.Height)
    (_ : ∀ c ∈ cs, ∀ i : Nat, i < c.Cells.length → B.Get (c.X + i) c.Y = c.Cells.get? i),
    ∃ b1, applyChanges b cs = some b1 ∧ b1.WF ∧ b1.Width = B.Width ∧ b1.Height = B.Height ∧
      ∀ x y : Int, ((∃ c ∈ cs, c.covers x y) → b1.Get x y = B.Get x y) ∧
        ((¬ ∃ c ∈ cs, c.covers x y) → b1.Get x y = b.Get x y) := by
  induction cs with
  | nil =>
    intro b hb hw hh _
    exact ⟨b, rfl, hb, hw, hh, fun x y => ⟨by simp, fun _ => rfl⟩⟩
  | cons c cs ih =>
    intro b hb hw hh hcs
    obtain ⟨b0, happ0, hwf0, hw0, hh0, hget0⟩ := applyCells_spec c.Cells b hb c.X c.Y
    obtain ⟨b1, happ1, hwf1, hw1, hh1, hget1⟩ := ih b0 hwf0 (by omega) (by omega)
      (fun d hd => hcs d (List.mem_cons_of_mem _ hd))
    refine ⟨b1, by simp [applyChanges, happ0, happ1], hwf1, hw1, hh1, ?_⟩
    have hfirst : ∀ x y : Int, c.covers x y → b0.Get x y = B.Get x y := by
      intro x y hcov
      obtain ⟨hy, hx0, hx1⟩ := hcov
      by_cases hin : b.inBounds x y = true
      · rw [hget0, if_pos ⟨hy, hx0, hx1, hin⟩]
        have hi : (x - c.X).toNat < c.Cells.length := by omega
        have := hcs c (List.mem_cons_self _ _) (x - c.X).toNat hi
        rw [← this, hy]
        congr 1
        omega
      · have hinf : b.inBounds x y = false := by simpa using hin
        have h0 : b0.inBounds x y = false := by rw [inBounds_congr b0 b hw0 hh0]; exact hinf
        have hB : B.inBounds x y = false := by rw [← inBounds_congr b B hw hh]; exact hinf
        rw [get_out _ _ _ h0, get_out _ _ _ hB]
    intro x y
    constructor
    · rintro ⟨d, hd, hcov⟩
      by_cases hrest : ∃ d ∈ cs, d.covers x y
      · exact (hget1 x y).1 hrest
      · rw [(hget1 x y).2 hrest]
        rcases List.mem_cons.1 hd with rfl | hd1
        · exact hfirst x y hcov
        · exact absurd ⟨d, hd1, hcov⟩ hrest
    · intro hno
      have hrest : ¬ ∃ d ∈ cs, d.covers x y := fun ⟨d, hd, hcov⟩ =>
        hno ⟨d, List.mem_cons_of_mem _ hd, hcov⟩
      have hc : ¬ c.covers x y := fun hcov => hno ⟨c, List.mem_cons_self _ _, hcov⟩
      rw [(hget1 x y).2 hrest, hget0]
      rw [if_neg (fun h => hc ⟨h.1, h.2.1, h.2.2.1⟩)]

theorem buffer_ext (b B : Buffer) (hb : b.WF) (hB : B.WF) (hw : b.Width = B.Width)
    (hh : b.Height = B.Height) (hget : ∀ x y : Int, b.Get x y = B.Get x y) : b = B := by
  have hlen : b.Cells.length = B.Cells.length := by
    have h1 := hb.2.2
    have h2 := hB.2.2
    rw [hw, hh] at h1
    omega
  have hcells : b.Cells = B.Cells := by
    apply List.ext_getElem? 
    intro i
    by_cases hi : i < B.Cells.length
    · have hWpos : 0 < B.Width := by
        have h2 := hB.2.2
        have h3 := hB.1
        rcases eq_or_lt_of_le h3 with h0 | hpos
        · have h4 : (B.Cells.length : Int) = 0 := by rw [h2, ← h0]; ring
          omega
        · exact hpos
      have hdecomp : ((i : Int) / B.Width) * B.Width + (i : Int) % B.Width = i := by
        have := Int.emod_add_ediv (i : Int) B.Width
        rw [mul_comm]; omega
      have hx0 : 0 ≤ (i : Int) % B.Width := Int.emod_nonneg _ (by omega)
      have hx1 : (i : Int) % B.Width < B.Width := Int.emod_lt_of_pos _ hWpos
      have hy0 : 0 ≤ (i : Int) / B.Width := Int.ediv_nonneg (by omega) (by omega)
      have hy1 : (i : Int) / B.Width < B.Height := by
        apply Int.ediv_lt_of_lt_mul hWpos
        have h2 := hB.2.2
        rw [mul_comm]
        omega
      have hinB : B.inBounds ((i : Int) % B.Width) ((i : Int) / B.Width) = true :=
        (inBounds_iff _ _ _).2 ⟨hx0, hx1, hy0, hy1⟩
      have hinb : b.inBounds ((i : Int) % B.Width) ((i : Int) / B.Width) = true := by
        rw [inBounds_congr b B hw hh]; exact hinB
      have := hget ((i : Int) % B.Width) ((i : Int) / B.Width)
      simp only [Buffer.Get, hinB, hinb, Bool.not_true, Bool.false_eq_true, if_false, hw,
        hdecomp, loadAt] at this
      simpa using this
    · rw [List.getElem?_eq_none (by omega), List.getElem?_eq_none (by omega)]
  obtain ⟨bw, bh, bc⟩ := b
  obtain ⟨Bw, Bh, Bc⟩ := B
  simp only at hw hh hcells
  subst hw; subst hh; subst hcells
  rfl

theorem countP_covers_le_one (x y : Int) (cs : List Change) (h : cs.Pairwise Change.sep) :
    cs.countP (fun c => decide (c.covers x y)) ≤ 1 := by
  induction cs with
  | nil => simp
  | cons c cs ih =>
    obtain ⟨hhead, htail⟩ := List.pairwise_cons.1 h
    by_cases hc : c.covers x y
    · have hzero : cs.countP (fun d => decide (d.covers x y)) = 0 := by
        rw [List.countP_eq_zero]
        intro d hd
        simp only [decide_eq_true_eq]
        intro hdcov
        obtain ⟨h1, h2, h3⟩ := hc
        obtain ⟨h4, h5, h6⟩ := hdcov
        rcases hhead d hd with h7 | ⟨h7, h8⟩
        · omega
        · omega
      rw [List.countP_cons_of_pos _ _ (by simpa using hc), hzero]
    · rw [List.countP_cons_of_neg _ _ (by simpa using hc)]
      exact ih htail

/-! ## The diff engine: claims -/

/-- C1: for buffers `A` and `B` of equal dimensions, `Diff A B` returns a run
list, and writing every run onto a copy of `A` (cell `i` of a run at column
`X + i` of row `Y`) yields exactly the buffer `B`. -/
theorem diff_apply_reproduces (A B : Buffer) (hA : A.WF) (hB : B.WF)
    (hw : A.Width = B.Width) (hh : A.Height = B.Height) :
    ∃ cs, Diff A B = some cs ∧ applyChanges A cs = some B := by
  obtain ⟨cs, hcs, hspec⟩ := diff_spec A B hA hB hw hh
  obtain ⟨b1, happ, hwf1, hw1, hh1, hget1⟩ := applyChanges_spec B cs A hA hw hh
    (fun c hc i hi => ((hspec.pre c hc).2.2.2.2.2.1 i hi).1)
  refine ⟨cs, hcs, ?_⟩
  rw [happ]
  congr 1
  apply buffer_ext b1 B hwf1 hB hw1 hh1
  intro x y
  by_cases hcov : ∃ c ∈ cs, c.covers x y
  · exact (hget1 x y).1 hcov
  · rw [(hget1 x y).2 hcov]
    by_contra hne
    exact hcov (hspec.cover x y hne)

/-- Witness of C1 on the frames `demoPrev` and `demoNext`. -/
theorem diff_apply_reproduces_witness :
    demoPrev.WF ∧ demoNext.WF ∧ demoPrev.Width = demoNext.Width ∧
      demoPrev.Height = demoNext.Height ∧
      ∃ cs, Diff demoPrev demoNext = some cs ∧ applyChanges demoPrev cs = some demoNext :=
  ⟨by decide, by decide, rfl, rfl,
    diff_apply_reproduces demoPrev demoNext (by decide) (by decide) rfl rfl⟩

/-- C2: for buffers of equal dimensions, a position is covered by a run of
`Diff A B` exactly when the cell of `A` differs from the cell of `B` there, no
position is covered by two runs, and every differing position is covered by
exactly one run. -/
theorem diff_covers_exactly_changed (A B : Buffer) (hA : A.WF) (hB : B.WF)
    (hw : A.Width = B.Width) (hh : A.Height = B.Height) :
    ∃ cs, Diff A B = some cs ∧ ∀ x y : Int,
      ((∃ c ∈ cs, c.covers x y) ↔ differs A B x y) ∧
      cs.countP (fun c => decide (c.covers x y)) ≤ 1 ∧
      (differs A B x y → cs.countP (fun c => decide (c.covers x y)) = 1) := by
  obtain ⟨cs, hcs, hspec⟩ := diff_spec A B hA hB hw hh
  refine ⟨cs, hcs, fun x y => ?_⟩
  have hle := countP_covers_le_one x y cs hspec.sorted
  refine ⟨⟨?_, hspec.cover x y⟩, hle, ?_⟩
  · rintro ⟨c, hc, hy, hx0, hx1⟩
    have := ((hspec.pre c hc).2.2.2.2.2.1 (x - c.X).toNat (by omega)).2
    rw [hy]
    have e : c.X + ((x - c.X).toNat : Int) = x := by omega
    rwa [e] at this
  · intro hd
    obtain ⟨c, hc, hcov⟩ := hspec.cover x y hd
    have hpos : 0 < cs.countP (fun c => decide (c.covers x y)) :=
      List.countP_pos_iff.2 ⟨c, hc, by simpa using hcov⟩
    omega

/-- Witness of C2 on the frames `demoPrev` and `demoNext`. -/
theorem diff_covers_exactly_changed_witness :
    demoPrev.WF ∧ demoNext.WF ∧ demoPrev.Width = demoNext.Width ∧
      demoPrev.Height = demoNext.Height ∧
      ∃ cs, Diff demoPrev demoNext = some cs ∧ ∀ x y : Int,
        ((∃ c ∈ cs, c.covers x y) ↔ differs demoPrev demoNext x y) ∧
        cs.countP (fun c => decide (c.covers x y)) ≤ 1 ∧
        (differs demoPrev demoNext x y → cs.countP (fun c => decide (c.covers x y)) = 1) :=
  ⟨by decide, by decide, rfl, rfl,
    diff_covers_exactly_changed demoPrev demoNext (by decide) (by decide) rfl rfl⟩

/-- C3: `Diff A A` is the empty sequence for every buffer `A`, and `Diff A B`
is empty whenever `A` and `B` have equal dimensions and equal cells at every
position. -/
theorem diff_identical_empty (A : Buffer) (hA : A.WF) :
    Diff A A = some [] ∧
    ∀ B : Buffer, B.WF → A.Width = B.Width → A.Height = B.Height →
      (∀ x y : Int, A.Get x y = B.Get x y) → Diff A B = some [] := by
  have key : ∀ B : Buffer, B.WF → A.Width = B.Width → A.Height = B.Height →
      (∀ x y : Int, A.Get x y = B.Get x y) → Diff A B = some [] := by
    intro B hB hw hh hget
    obtain ⟨cs, hcs, hspec⟩ := diff_spec A B hA hB hw hh
    rw [hcs]
    congr 1
    cases cs with
    | nil => rfl
    | cons c cs =>
      exfalso
      obtain ⟨hne, -, -, -, -, hcont, -⟩ := hspec.pre c (List.mem_cons_self _ _)
      have hpos : 0 < c.Cells.length := List.length_pos.2 hne
      exact (hcont 0 hpos).2 (hget _ _)
  exact ⟨key A hA rfl rfl (fun _ _ => rfl), key⟩

/-- Witness of C3 on the frame `demoNext`. -/
theorem diff_identical_empty_witness :
    demoNext.WF ∧ Diff demoNext demoNext = some [] ∧
    ∀ B : Buffer, B.WF → demoNext.Width = B.Width → demoNext.Height = B.Height →
      (∀ x y : Int, demoNext.Get x y = B.Get x y) → Diff demoNext B = some [] :=
  ⟨by decide, diff_identical_empty demoNext (by decide)⟩

/-- C4: the runs of `Diff A B` appear in strictly increasing order of
(row, start column); runs of one row do not overlap, and no two runs (at
different places of the sequence) start at the same (row, start column). -/
theorem diff_runs_sorted (A B : Buffer) (hA : A.WF) (hB : B.WF)
    (hw : A.Width = B.Width) (hh : A.Height = B.Height) :
    ∃ cs, Diff A B = some cs ∧
      cs.Pairwise (fun (c d : Change) => c.Y < d.Y ∨
        (c.Y = d.Y ∧ c.X < d.X ∧ c.X + c.Cells.length ≤ d.X)) ∧
      ∀ (i j : Fin cs.length), (cs.get i).Y = (cs.get j).Y → (cs.get i).X = (cs.get j).X →
        i = j := by
  obtain ⟨cs, hcs, hspec⟩ := diff_spec A B hA hB hw hh
  have hord : cs.Pairwise (fun (c d : Change) => c.Y < d.Y ∨
      (c.Y = d.Y ∧ c.X < d.X ∧ c.X + c.Cells.length ≤ d.X)) := by
    refine hspec.sorted.imp ?_
    intro c d hsep
    rcases hsep with h1 | ⟨h1, h2⟩
    · exact Or.inl h1
    · exact Or.inr ⟨h1, by omega, by omega⟩
  refine ⟨cs, hcs, hord, ?_⟩
  intro i j hy hx
  have hget := List.pairwise_iff_get.1 hord
  rcases lt_trichotomy i j with hlt | heq | hgt
  · rcases hget i j hlt with h1 | ⟨_, h1, _⟩ <;> omega
  · exact heq
  · rcases hget j i hgt with h1 | ⟨_, h1, _⟩ <;> omega

/-- Witness of C4 on the frames `demoPrev` and `demoNext`. -/
theorem diff_runs_sorted_witness :
    demoPrev.WF ∧ demoNext.WF ∧ demoPrev.Width = demoNext.Width ∧
      demoPrev.Height = demoNext.Height ∧
      ∃ cs, Diff demoPrev demoNext = some cs ∧
        cs.Pairwise (fun (c d : Change) => c.Y < d.Y ∨
          (c.Y = d.Y ∧ c.X < d.X ∧ c.X + c.Cells.length ≤ d.X)) ∧
        ∀ (i j : Fin cs.length), (cs.get i).Y = (cs.get j).Y →
          (cs.get i).X = (cs.get j).X → i = j :=
  ⟨by decide, by decide, rfl, rfl,
    diff_runs_sorted demoPrev demoNext (by decide) (by decide) rfl rfl⟩

/-- C5: every run of `Diff A B` is non-empty and lies inside one row of the
grid, and its cells are the cells of `B` at the columns it covers. -/
theorem diff_run_in_row (A B : Buffer) (hA : A.WF) (hB : B.WF)
    (hw : A.Width = B.Width) (hh : A.Height = B.Height) :
    ∃ cs, Diff A B = some cs ∧ ∀ c ∈ cs,
      c.Cells ≠ [] ∧ 0 ≤ c.Y ∧ c.Y < B.Height ∧ 0 ≤ c.X ∧
      c.X + c.Cells.length ≤ B.Width ∧
      ∀ i : Nat, i < c.Cells.length → c.Cells.get? i = B.Get (c.X + i) c.Y := by
  obtain ⟨cs, hcs, hspec⟩ := diff_spec A B hA hB hw hh
  refine ⟨cs, hcs, fun c hc => ?_⟩
  obtain ⟨h1, h2, h3, h4, h5, h6, -⟩ := hspec.pre c hc
  exact ⟨h1, h2, h3, h4, h5, fun i hi => (h6 i hi).1.symm⟩

/-- Witness of C5 on the frames `demoPrev` and `demoNext`. -/
theorem diff_run_in_row_witness :
    demoPrev.WF ∧ demoNext.WF ∧ demoPrev.Width = demoNext.Width ∧
      demoPrev.Height = demoNext.Height ∧
      ∃ cs, Diff demoPrev demoNext = some cs ∧ ∀ c ∈ cs,
        c.Cells ≠ [] ∧ 0 ≤ c.Y ∧ c.Y < demoNext.Height ∧ 0 ≤ c.X ∧
        c.X + c.Cells.length ≤ demoNext.Width ∧
        ∀ i : Nat, i < c.Cells.length → c.Cells.get? i = demoNext.Get (c.X + i) c.Y :=
  ⟨by decide, by decide, rfl, rfl,
    diff_run_in_row demoPrev demoNext (by decide) (by decide) rfl rfl⟩

/-- C6: every run of `Diff A B` is maximal: the cell just left of it (when
`X > 0`) and the cell just right of it (when inside the row) are equal in `A`
and `B`; two runs of one row are separated by at least one column, and two
horizontally adjacent changed cells belong to one run. -/
theorem diff_runs_maximal (A B : Buffer) (hA : A.WF) (hB : B.WF)
    (hw : A.Width = B.Width) (hh : A.Height = B.Height) :
    ∃ cs, Diff A B = some cs ∧
      (∀ c ∈ cs,
        (0 < c.X → A.Get (c.X - 1) c.Y = B.Get (c.X - 1) c.Y) ∧
        (c.X + c.Cells.length < B.Width →
          A.Get (c.X + c.Cells.length) c.Y = B.Get (c.X + c.Cells.length) c.Y)) ∧
      cs.Pairwise (fun (c d : Change) => c.Y = d.Y → c.X + c.Cells.length < d.X) ∧
      (∀ x y : Int, differs A B x y → differs A B (x + 1) y →
        ∃ c ∈ cs, c.covers x y ∧ c.covers (x + 1) y) := by
  obtain ⟨cs, hcs, hspec⟩ := diff_spec A B hA hB hw hh
  refine ⟨cs, hcs, ?_, ?_, ?_⟩
  · intro c hc
    exact ⟨fun _ => (hspec.pre c hc).2.2.2.2.2.2, fun _ => hspec.closed c hc⟩
  · refine hspec.sorted.imp ?_
    intro c d hsep hy
    rcases hsep with h1 | ⟨_, h2⟩
    · omega
    · exact h2
  · intro x y hd hd1
    obtain ⟨c, hc, hy, hx0, hx1⟩ := hspec.cover x y hd
    refine ⟨c, hc, ⟨hy, hx0, hx1⟩, hy, by omega, ?_⟩
    by_contra hcon
    have he : c.X + (c.Cells.length : Int) = x + 1 := by omega
    have := hspec.closed c hc
    rw [he, ← hy] at this
    exact hd1 this

/-- Witness of C6 on the frames `demoPrev` and `demoNext`. -/
theorem diff_runs_maximal_witness :
    demoPrev.WF ∧ demoNext.WF ∧ demoPrev.Width = demoNext.Width ∧
      demoPrev.Height = demoNext.Height ∧
      ∃ cs, Diff demoPrev demoNext = some cs ∧
        (∀ c ∈ cs,
          (0 < c.X → demoPrev.Get (c.X - 1) c.Y = demoNext.Get (c.X - 1) c.Y) ∧
          (c.X + c.Cells.length < demoNext.Width →
            demoPrev.Get (c.X + c.Cells.length) c.Y =
              demoNext.Get (c.X + c.Cells.length) c.Y)) ∧
        cs.Pairwise (fun (c d : Change) => c.Y = d.Y → c.X + c.Cells.length < d.X) ∧
        (∀ x y : Int, differs demoPrev demoNext x y → differs demoPrev demoNext (x + 1) y →
          ∃ c ∈ cs, c.covers x y ∧ c.covers (x + 1) y) :=
  ⟨by decide, by decide, rfl, rfl,
    diff_runs_maximal demoPrev demoNext (by decide) (by decide) rfl rfl⟩

theorem fullRedrawRow_eq (buf : Buffer) (hb : buf.WF) (y : Int) (hy0 : 0 ≤ y)
    (hy : y < buf.Height) (cs : List Change) (hlen : cs.length = buf.Height.toNat) :
    fullRedrawRow buf y cs = some (cs.set y.toNat
      ⟨0, y, (buf.Cells.drop (y * buf.Width).toNat).take
        (y * buf.Width + buf.Width - y * buf.Width).toNat⟩) := by
  obtain ⟨hW, hH, hL⟩ := hb
  have h0 : 0 ≤ y * buf.Width := mul_nonneg hy0 hW
  have h1 : (y + 1) * buf.Width ≤ buf.Height * buf.Width :=
    mul_le_mul_of_nonneg_right (by omega) hW
  have h2 : (y + 1) * buf.Width = y * buf.Width + buf.Width := by ring
  have h3 : buf.Height * buf.Width = buf.Width * buf.Height := by ring
  have hstop : y * buf.Width + buf.Width ≤ (buf.Cells.length : Int) := by omega
  have hidx : y < (cs.length : Int) := by omega
  have hW1 : ¬ buf.Width < 0 := by omega
  have hle : y * buf.Width ≤ y * buf.Width + buf.Width := by omega
  simp only [fullRedrawRow, hW1, if_false, h0, hle, hstop, and_self, if_true, hy0, hidx]

theorem take_drop_get (l : List Cell) (s n i : Nat) (hi : i < n) :
    ((l.drop s).take n).get? i = l.get? (s + i) := by
  simp [List.getElem?_take, hi, List.getElem?_drop]

theorem fullRedraw_spec (buf : Buffer) (hb : buf.WF) :
    ∃ cs, fullRedraw buf = some cs ∧ (cs.length : Int) = buf.Height ∧
      ∀ y : Nat, (y : Int) < buf.Height → cs.get? y =
        some ⟨0, y, (buf.Cells.drop ((y : Int) * buf.Width).toNat).take
          ((y : Int) * buf.Width + buf.Width - (y : Int) * buf.Width).toNat⟩ := by
  have hH : (0 : Int) + (buf.Height.toNat : Int) = buf.Height := by
    have := hb.2.1
    omega
  obtain ⟨cs, hcs, hlen, hrows⟩ := forRange_inv (fullRedrawRow buf)
    (fun y cs => cs.length = buf.Height.toNat ∧
      ∀ j : Nat, (j : Int) < y → cs.get? j =
        some ⟨0, j, (buf.Cells.drop ((j : Int) * buf.Width).toNat).take
          ((j : Int) * buf.Width + buf.Width - (j : Int) * buf.Width).toNat⟩)
    buf.Height.toNat 0 (List.replicate buf.Height.toNat ⟨0, 0, []⟩)
    ⟨by simp, fun j hj => by omega⟩
    (fun y cs hy0 hy hI => by
      obtain ⟨hlen, hrows⟩ := hI
      refine ⟨_, fullRedrawRow_eq buf hb y hy0 (by omega) cs hlen, by simpa using hlen, ?_⟩
      intro j hj
      by_cases hjy : (j : Int) = y
      · subst hjy
        have hjl : j < cs.length := by omega
        simp [hjl]
      · have hne : y.toNat ≠ j := by omega
        rw [List.get?_eq_getElem?, List.getElem?_set_ne hne, ← List.get?_eq_getElem?]
        exact hrows j (by omega))
  rw [hH] at hrows
  refine ⟨cs, ?_, by omega, hrows⟩
  have hH0 : ¬ buf.Height < 0 := by have := hb.2.1; omega
  simp [fullRedraw, hH0, hcs]

/-- C7: when `prev` and `next` differ in `Width` or in `Height`, `Diff` does
not fail; its result is `fullRedraw next`, whatever `prev` holds: exactly
`next.Height` runs, the `y`-th being the run at `X = 0`, `Y = y` whose
`next.Width` cells are the whole row `y` of `next`. -/
theorem diff_mismatch_full_redraw (prev next : Buffer) (hn : next.WF)
    (hd : prev.Width ≠ next.Width ∨ prev.Height ≠ next.Height) :
    ∃ cs, Diff prev next = some cs ∧ fullRedraw next = some cs ∧
      (cs.length : Int) = next.Height ∧
      ∀ y : Nat, (y : Int) < next.Height →
        ∃ c, cs.get? y = some c ∧ c.X = 0 ∧ c.Y = y ∧
          (c.Cells.length : Int) = next.Width ∧
          ∀ x : Nat, (x : Int) < next.Width → c.Cells.get? x = next.Get x y := by
  obtain ⟨cs, hcs, hlen, hrows⟩ := fullRedraw_spec next hn
  refine ⟨cs, by simp only [Diff, hd, if_true, hcs], hcs, hlen, ?_⟩
  intro y hy
  refine ⟨_, hrows y hy, rfl, rfl, ?_, ?_⟩
  · obtain ⟨hW, hH, hL⟩ := hn
    have h1 : ((y : Int) + 1) * next.Width ≤ next.Height * next.Width :=
      mul_le_mul_of_nonneg_right (by omega) hW
    have h2 : ((y : Int) + 1) * next.Width = (y : Int) * next.Width + next.Width := by ring
    have h3 : next.Height * next.Width = next.Width * next.Height := by ring
    have h0 : 0 ≤ (y : Int) * next.Width := mul_nonneg (by omega) hW
    simp only [List.length_take, List.length_drop]
    omega
  · intro x hx
    have hin : next.inBounds x y = true :=
      (inBounds_iff _ _ _).2 ⟨by omega, hx, by omega, hy⟩
    have h0 : 0 ≤ (y : Int) * next.Width := mul_nonneg (by omega) hn.1
    have hx1 : x < ((y : Int) * next.Width + next.Width - (y : Int) * next.Width).toNat := by
      omega
    simp only [Buffer.Get, hin, Bool.not_true, Bool.false_eq_true, if_false, loadAt]
    rw [take_drop_get _ _ _ _ hx1, if_pos (by omega)]
    congr 1
    omega

/-- Witness of C7: `demoPrev` (4 × 2) against `demoSmall` (2 × 1). -/
theorem diff_mismatch_full_redraw_witness :
    demoSmall.WF ∧ (demoPrev.Width ≠ demoSmall.Width ∨ demoPrev.Height ≠ demoSmall.Height) ∧
    ∃ cs, Diff demoPrev demoSmall = some cs ∧ fullRedraw demoSmall = some cs ∧
      (cs.length : Int) = demoSmall.Height ∧
      ∀ y : Nat, (y : Int) < demoSmall.Height →
        ∃ c, cs.get? y = some c ∧ c.X = 0 ∧ c.Y = y ∧
          (c.Cells.length : Int) = demoSmall.Width ∧
          ∀ x : Nat, (x : Int) < demoSmall.Width → c.Cells.get? x = demoSmall.Get x y :=
  ⟨by decide, by decide,
    diff_mismatch_full_redraw demoPrev demoSmall (by decide) (by decide)⟩

/-! ## The painter: lemmas -/

theorem writes_refl (P : Int → Int → Cell → Prop) (b : Buffer) (hb : b.WF) : Writes P b b :=
  ⟨hb, rfl, rfl, fun _ _ => Or.inl rfl⟩

theorem writes_trans {P : Int → Int → Cell → Prop} {a b c : Buffer}
    (h1 : Writes P a b) (h2 : Writes P b c) : Writes P a c := by
  obtain ⟨-, hw1, hh1, hg1⟩ := h1
  obtain ⟨hwf2, hw2, hh2, hg2⟩ := h2
  refine ⟨hwf2, by omega, by omega, fun x y => ?_⟩
  rcases hg2 x y with h | h
  · rw [h]; exact hg1 x y
  · exact Or.inr h

theorem writes_mono {P Q : Int → Int → Cell → Prop} {a b : Buffer}
    (hPQ : ∀ x y c, P x y c → Q x y c) (h : Writes P a b) : Writes Q a b := by
  obtain ⟨hwf, hw, hh, hg⟩ := h
  refine ⟨hwf, hw, hh, fun x y => ?_⟩
  rcases hg x y with h | ⟨c, hc, hp⟩
  · exact Or.inl h
  · exact Or.inr ⟨c, hc, hPQ x y c hp⟩

theorem writes_set (P : Int → Int → Cell → Prop) (b : Buffer) (hb : b.WF) (x y : Int)
    (c : Cell) (hP : b.inBounds x y = true → P x y c) :
    ∃ b1, b.Set x y c = some b1 ∧ Writes P b b1 := by
  obtain ⟨b1, hset, hwf, hw, hh, hget⟩ := set_spec b hb x y c
  refine ⟨b1, hset, hwf, hw, hh, fun x1 y1 => ?_⟩
  rw [hget]
  by_cases hc : x1 = x ∧ y1 = y ∧ b.inBounds x y = true
  · obtain ⟨rfl, rfl, hin⟩ := hc
    exact Or.inr ⟨c, by simp [hin], hP hin⟩
  · exact Or.inl (if_neg hc)

theorem writes_forRange (P : Int → Int → Cell → Prop) (body : Int → Buffer → Option Buffer)
    (n : Nat) (lo : Int) (b : Buffer) (hb : b.WF)
    (hbody : ∀ i t, t.WF → lo ≤ i → i < lo + n → ∃ t1, body i t = some t1 ∧ Writes P t t1) :
    ∃ b1, forRange body n lo b = some b1 ∧ Writes P b b1 := by
  obtain ⟨b1, h1, h2⟩ := forRange_inv body (fun _ t => Writes P b t) n lo b
    (writes_refl P b hb)
    (fun j t hj0 hj hI => by
      obtain ⟨t1, ht1, hw⟩ := hbody j t hI.1 hj0 hj
      exact ⟨t1, ht1, writes_trans hI hw⟩)
  exact ⟨b1, h1, h2⟩

theorem intersect_contains (a b : Rect) (x y : Int) :
    (intersect a b).contains x y ↔ a.contains x y ∧ b.contains x y := by
  unfold intersect
  by_cases h : min (a.X + a.W) (b.X + b.W) ≤ max a.X b.X ∨
      min (a.Y + a.H) (b.Y + b.H) ≤ max a.Y b.Y
  · simp only [h, if_true, Rect.contains]
    constructor
    · intro h1; omega
    · intro h1; omega
  · simp only [h, if_false, Rect.contains]
    constructor
    · intro h1; omega
    · intro h1; omega

theorem paintLine_writes (p : Props) (clip : Rect) (y : Int) :
    ∀ (line : List Char) (col : Int) (b : Buffer), b.WF →
      ∃ b1, paintLine p clip y col line b = some b1 ∧
        Writes (fun x1 y1 c => y1 = y ∧ clip.X ≤ x1 ∧ x1 < clip.X + clip.W ∧
          ∃ (i : Nat) (ch : Char), line.get? i = some ch ∧ x1 = col + i ∧
            c = { Rune := ch.toNat, FG := p.FG, BG := p.BG, Style := p.Style }) b b1 := by
  intro line
  induction line with
  | nil =>
    intro col b hb
    exact ⟨b, rfl, writes_refl _ b hb⟩
  | cons ch rest ih =>
    intro col b hb
    by_cases hbreak : col ≥ clip.X + clip.W
    · exact ⟨b, by simp [paintLine, hbreak], writes_refl _ b hb⟩
    · have hstep : ∃ b0, (if col ≥ clip.X then
            b.Set col y { Rune := ch.toNat, FG := p.FG, BG := p.BG, Style := p.Style }
          else some b) = some b0 ∧
          Writes (fun x1 y1 c => y1 = y ∧ clip.X ≤ x1 ∧ x1 < clip.X + clip.W ∧
            ∃ (i : Nat) (ch1 : Char), (ch :: rest).get? i = some ch1 ∧ x1 = col + i ∧
              c = { Rune := ch1.toNat, FG := p.FG, BG := p.BG, Style := p.Style }) b b0 := by
        by_cases hc : col ≥ clip.X
        · rw [if_pos hc]
          exact writes_set _ b hb col y _
            (fun _ => ⟨rfl, hc, by omega, 0, ch, rfl, by simp, rfl⟩)
        · rw [if_neg hc]
          exact ⟨b, rfl, writes_refl _ b hb⟩
      obtain ⟨b0, hb0, hw0⟩ := hstep
      obtain ⟨b1, hb1, hw1⟩ := ih (col + 1) b0 hw0.1
      refine ⟨b1, ?_, writes_trans hw0 (writes_mono ?_ hw1)⟩
      · simp only [paintLine, hbreak, if_false, hb0, Option.some_bind, hb1]
      · rintro x1 y1 c ⟨h1, h2, h3, i, ch1, h4, h5, h6⟩
        exact ⟨h1, h2, h3, i + 1, ch1, by simpa using h4, by push_cast; omega, h6⟩

theorem paintLines_writes (p : Props) (r clip : Rect) :
    ∀ (lines : List (List Char)) (k : Nat) (b : Buffer), b.WF →
      ∃ b1, paintLines p r clip k lines b = some b1 ∧
        Writes (fun x1 y1 c => clip.contains x1 y1 ∧
          ∃ (j i : Nat) (line : List Char) (ch : Char),
            lines.get? j = some line ∧ line.get? i = some ch ∧
            y1 = r.Y + ((k + j : Nat) : Int) ∧ x1 = r.X + i ∧
            c = { Rune := ch.toNat, FG := p.FG, BG := p.BG, Style := p.Style }) b b1 := by
  intro lines
  induction lines with
  | nil =>
    intro k b hb
    exact ⟨b, rfl, writes_refl _ b hb⟩
  | cons line rest ih =>
    intro k b hb
    have hshift : ∀ b0 b1 : Buffer,
        Writes (fun x1 y1 c => clip.contains x1 y1 ∧
          ∃ (j i : Nat) (line1 : List Char) (ch : Char),
            rest.get? j = some line1 ∧ line1.get? i = some ch ∧
            y1 = r.Y + ((k + 1 + j : Nat) : Int) ∧ x1 = r.X + i ∧
            c = { Rune := ch.toNat, FG := p.FG, BG := p.BG, Style := p.Style }) b0 b1 →
        Writes (fun x1 y1 c => clip.contains x1 y1 ∧
          ∃ (j i : Nat) (line1 : List Char) (ch : Char),
            (line :: rest).get? j = some line1 ∧ line1.get? i = some ch ∧
            y1 = r.Y + ((k + j : Nat) : Int) ∧ x1 = r.X + i ∧
            c = { Rune := ch.toNat, FG := p.FG, BG := p.BG, Style := p.Style }) b0 b1 := by
      intro b0 b1
      apply writes_mono
      rintro x1 y1 c ⟨h0, j, i, line1, ch, h1, h2, h3, h4, h5⟩
      exact ⟨h0, j + 1, i, line1, ch, by simpa using h1, h2, by rw [h3]; congr 2; omega, h4, h5⟩
    by_cases hskip : r.Y + (k : Int) < clip.Y ∨ r.Y + (k : Int) ≥ clip.Y + clip.H
    · obtain ⟨b1, hb1, hw1⟩ := ih (k + 1) b hb
      exact ⟨b1, by simp only [paintLines, hskip, if_true, hb1], hshift b b1 hw1⟩
    · obtain ⟨b0, hb0, hw0⟩ := paintLine_writes p clip (r.Y + (k : Int)) line r.X b hb
      obtain ⟨b1, hb1, hw1⟩ := ih (k + 1) b0 hw0.1
      refine ⟨b1, ?_, writes_trans (writes_mono ?_ hw0) (hshift b0 b1 hw1)⟩
      · simp only [paintLines, hskip, if_false, hb0, Option.some_bind, hb1]
      · rintro x1 y1 c ⟨h1, h2, h3, i, ch, h4, h5, h6⟩
        refine ⟨⟨h2, h3, by omega, by omega⟩, 0, i, line, ch, rfl, h4, ?_, h5, h6⟩
        rw [h1]; simp

theorem writes_inBounds {P : Int → Int → Cell → Prop} {a b : Buffer} (h : Writes P a b)
    (x y : Int) : b.inBounds x y = a.inBounds x y :=
  inBounds_congr b a h.2.1 h.2.2.1 x y

theorem writes_stable {P : Int → Int → Cell → Prop} {a b : Buffer} (h : Writes P a b)
    (x y : Int) (c0 : Cell) (hP : ∀ c, P x y c → c = c0) (ha : a.Get x y = some c0) :
    b.Get x y = some c0 := by
  rcases h.2.2.2 x y with h1 | ⟨c, h1, h2⟩
  · rw [h1, ha]
  · rw [h1, hP c h2]

theorem fillRow_spec (bg : Color) (r clip : Rect) (y : Int)
    (hy : r.Y ≤ y ∧ y < r.Y + r.H ∧ clip.Y ≤ y ∧ y < clip.Y + clip.H)
    (b : Buffer) (hb : b.WF) :
    ∃ b1, fillRow bg r clip y b = some b1 ∧
      Writes (fun x1 y1 c => r.contains x1 y1 ∧ clip.contains x1 y1 ∧
        c = { Rune := 32, BG := bg }) b b1 ∧
      ∀ x1 : Int, r.X ≤ x1 → x1 < r.X + r.W → clip.X ≤ x1 → x1 < clip.X + clip.W →
        b.inBounds x1 y = true → b1.Get x1 y = some { Rune := 32, BG := bg } := by
  obtain ⟨b1, hb1, hw1, hrow⟩ := forRange_inv
    (fun x t => if x ≥ clip.X then t.Set x y { Rune := 32, BG := bg } else some t)
    (fun x t => Writes (fun x1 y1 c => r.contains x1 y1 ∧ clip.contains x1 y1 ∧
        c = { Rune := 32, BG := bg }) b t ∧
      ∀ x1 : Int, r.X ≤ x1 → x1 < x → clip.X ≤ x1 → b.inBounds x1 y = true →
        t.Get x1 y = some { Rune := 32, BG := bg })
    (min (r.X + r.W) (clip.X + clip.W) - r.X).toNat r.X b
    ⟨writes_refl _ b hb, fun x1 h1 h2 => by omega⟩
    (fun j t hj0 hj hI => by
      obtain ⟨hw, hdone⟩ := hI
      by_cases hc : j ≥ clip.X
      · obtain ⟨t1, hset, hwf, hw1, hh1, hget⟩ := set_spec t hw.1 j y { Rune := 32, BG := bg }
        obtain ⟨t2, hset2, hwr⟩ := writes_set (fun x1 y1 c => r.contains x1 y1 ∧
          clip.contains x1 y1 ∧ c = { Rune := 32, BG := bg }) t hw.1 j y
          { Rune := 32, BG := bg }
          (fun _ => ⟨⟨hj0, by omega, hy.1, hy.2.1⟩, ⟨hc, by omega, hy.2.2.1, hy.2.2.2⟩, rfl⟩)
        have e : t2 = t1 := by rw [hset] at hset2; exact (Option.some.inj hset2).symm
        subst e
        refine ⟨t2, by simp only [hc, if_true, hset], writes_trans hw hwr, ?_⟩
        intro x1 h1 h2 h3 h4
        rw [hget]
        by_cases hx : x1 = j
        · subst hx
          rw [if_pos ⟨rfl, rfl, by rw [writes_inBounds hw]; exact h4⟩]
        · rw [if_neg (fun h => hx h.1)]
          exact hdone x1 h1 (by omega) h3 h4
      · refine ⟨t, by simp only [hc, if_false], hw, ?_⟩
        intro x1 h1 h2 h3 h4
        exact hdone x1 h1 (by omega) h3 h4)
  refine ⟨b1, hb1, hw1, ?_⟩
  intro x1 h1 h2 h3 h4 h5
  exact hrow x1 h1 (by omega) h3 h5

theorem fillRect_spec (bg : Color) (r clip : Rect) (b : Buffer) (hb : b.WF) :
    ∃ b1, fillRect bg r clip b = some b1 ∧
      Writes (fun x1 y1 c => r.contains x1 y1 ∧ clip.contains x1 y1 ∧
        c = { Rune := 32, BG := bg }) b b1 ∧
      ∀ x1 y1 : Int, r.contains x1 y1 → clip.contains x1 y1 → b.inBounds x1 y1 = true →
        b1.Get x1 y1 = some { Rune := 32, BG := bg } := by
  obtain ⟨b1, hb1, hw1, hrows⟩ := forRange_inv
    (fun y t => if y < clip.Y then some t else fillRow bg r clip y t)
    (fun y t => Writes (fun x1 y1 c => r.contains x1 y1 ∧ clip.contains x1 y1 ∧
        c = { Rune := 32, BG := bg }) b t ∧
      ∀ x1 y1 : Int, r.contains x1 y1 → clip.contains x1 y1 → y1 < y →
        b.inBounds x1 y1 = true → t.Get x1 y1 = some { Rune := 32, BG := bg })
    (min (r.Y + r.H) (clip.Y + clip.H) - r.Y).toNat r.Y b
    ⟨writes_refl _ b hb, fun x1 y1 h1 _ h3 => by have := h1.2.2.1; omega⟩
    (fun j t hj0 hj hI => by
      obtain ⟨hw, hdone⟩ := hI
      by_cases hc : j < clip.Y
      · refine ⟨t, by simp only [hc, if_true], hw, ?_⟩
        intro x1 y1 h1 h2 h3 h4
        have := h2.2.2.1
        exact hdone x1 y1 h1 h2 (by omega) h4
      · obtain ⟨t1, ht1, hwr, hrow⟩ := fillRow_spec bg r clip j
          ⟨hj0, by omega, by omega, by omega⟩ t hw.1
        refine ⟨t1, by simp only [hc, if_false, ht1], writes_trans hw hwr, ?_⟩
        intro x1 y1 h1 h2 h3 h4
        by_cases hy1 : y1 = j
        · subst hy1
          exact hrow x1 h1.1 h1.2.1 h2.1 h2.2.1 (by rw [writes_inBounds hw]; exact h4)
        · exact writes_stable hwr x1 y1 _ (fun c hc => hc.2.2)
            (hdone x1 y1 h1 h2 (by omega) h4))
  refine ⟨b1, hb1, hw1, ?_⟩
  intro x1 y1 h1 h2 h3
  have h4 := h1.2.2.2
  have h5 := h2.2.2.2
  exact hrows x1 y1 h1 h2 (by omega) h3

theorem paintText_spec (buf : Buffer) (hb : buf.WF) (n : Node) (r clip : Rect) :
    ∃ b1, paintText buf n r clip = some b1 ∧
      Writes (fun x y c => clip.contains x y ∧
        ((n.Props.BG ≠ 0 ∧ r.contains x y ∧ c = { Rune := 32, BG := n.Props.BG }) ∨
          TextGlyph n.Props r (wrapText n.Props.Text r.W) x y c)) buf b1 ∧
      (n.Props.BG ≠ 0 → ∀ x y : Int, buf.inBounds x y = true → r.contains x y →
        clip.contains x y → ∃ c, b1.Get x y = some c ∧ c.BG = n.Props.BG ∧
          (¬ GlyphPos r (wrapText n.Props.Text r.W) x y →
            c = { Rune := 32, FG := 0, BG := n.Props.BG, Style := 0 })) := by
  have hfill : ∃ b0, (if n.Props.BG ≠ 0 then fillRect n.Props.BG r clip buf else some buf)
      = some b0 ∧
      Writes (fun x y c => clip.contains x y ∧
        ((n.Props.BG ≠ 0 ∧ r.contains x y ∧ c = { Rune := 32, BG := n.Props.BG }) ∨
          TextGlyph n.Props r (wrapText n.Props.Text r.W) x y c)) buf b0 ∧
      (n.Props.BG ≠ 0 → ∀ x y : Int, buf.inBounds x y = true → r.contains x y →
        clip.contains x y → b0.Get x y = some { Rune := 32, BG := n.Props.BG }) := by
    by_cases hbg : n.Props.BG ≠ 0
    · obtain ⟨b0, hb0, hw0, hall⟩ := fillRect_spec n.Props.BG r clip buf hb
      refine ⟨b0, by rw [if_pos hbg]; exact hb0, writes_mono ?_ hw0, fun _ x y h1 h2 h3 =>
        hall x y h2 h3 h1⟩
      rintro x y c ⟨h1, h2, h3⟩
      exact ⟨h2, Or.inl ⟨hbg, h1, h3⟩⟩
    · exact ⟨buf, by rw [if_neg hbg], writes_refl _ buf hb, fun h => absurd h hbg⟩
  obtain ⟨b0, hb0, hw0, hall⟩ := hfill
  obtain ⟨b1, hb1, hw1⟩ := paintLines_writes n.Props r clip (wrapText n.Props.Text r.W) 0 b0
    hw0.1
  refine ⟨b1, ?_, writes_trans hw0 (writes_mono ?_ hw1), ?_⟩
  · simp only [paintText, hb0, Option.some_bind, hb1]
  · rintro x y c ⟨h0, j, i, line, ch, h1, h2, h3, h4, h5⟩
    exact ⟨h0, Or.inr ⟨j, i, line, ch, h1, h2, by simpa using h3, h4, h5⟩⟩
  · intro hbg x y hin hr hc
    have h0 := hall hbg x y hin hr hc
    rcases hw1.2.2.2 x y with h | ⟨c, hc1, -, j, i, line, ch, h1, h2, h3, h4, h5⟩
    · exact ⟨_, by rw [h, h0], rfl, fun _ => rfl⟩
    · refine ⟨c, hc1, by rw [h5], fun hng => ?_⟩
      exfalso
      apply hng
      refine ⟨j, i, line, h1, ?_, by simpa using h3, h4⟩
      by_contra hlt
      rw [List.get?_eq_getElem?, List.getElem?_eq_none (by omega)] at h2
      cases h2

theorem setClipped_writes (P : Int → Int → Cell → Prop) (p : Props) (clip : Rect)
    (x y ch : Int) (b : Buffer) (hb : b.WF)
    (hP : clip.contains x y → P x y { Rune := ch, FG := p.FG, BG := p.BG, Style := p.Style }) :
    ∃ b1, setClipped p clip x y ch b = some b1 ∧ Writes P b b1 := by
  by_cases hc : x ≥ clip.X ∧ x < clip.X + clip.W ∧ y ≥ clip.Y ∧ y < clip.Y + clip.H
  · obtain ⟨b1, h1, h2⟩ := writes_set P b hb x y
      { Rune := ch, FG := p.FG, BG := p.BG, Style := p.Style }
      (fun _ => hP ⟨hc.1, hc.2.1, hc.2.2.1, hc.2.2.2⟩)
    exact ⟨b1, by simp only [setClipped, hc, and_self, if_true, h1], h2⟩
  · exact ⟨b, by simp only [setClipped, hc, if_false], writes_refl P b hb⟩

theorem setClipped_pair_writes (P : Int → Int → Cell → Prop) (p : Props) (clip : Rect)
    (x y x1 y1 ch : Int) (b : Buffer) (hb : b.WF)
    (hP : clip.contains x y → P x y { Rune := ch, FG := p.FG, BG := p.BG, Style := p.Style })
    (hP1 : clip.contains x1 y1 →
      P x1 y1 { Rune := ch, FG := p.FG, BG := p.BG, Style := p.Style }) :
    ∃ b1, (setClipped p clip x y ch b).bind (setClipped p clip x1 y1 ch) = some b1 ∧
      Writes P b b1 := by
  obtain ⟨t1, h1, w1⟩ := setClipped_writes P p clip x y ch b hb hP
  obtain ⟨t2, h2, w2⟩ := setClipped_writes P p clip x1 y1 ch t1 w1.1 hP1
  exact ⟨t2, by rw [h1, Option.some_bind, h2], writes_trans w1 w2⟩

theorem paintBox_writes (buf : Buffer) (hb : buf.WF) (n : Node) (r clip : Rect) :
    ∃ b1, paintBox buf n r clip = some b1 ∧
      Writes (fun x y _ => clip.contains x y) buf b1 := by
  by_cases hsmall : r.W < 2 ∨ r.H < 2
  · exact ⟨buf, by simp only [paintBox, hsmall, if_true], writes_refl _ buf hb⟩
  · cases hg : borderGlyphs n.Props.Border with
    | none => exact ⟨buf, by simp only [paintBox, hsmall, if_false, hg], writes_refl _ buf hb⟩
    | some g =>
      obtain ⟨tl, tr, bl, br, hz, vt⟩ := g
      obtain ⟨b1, h1, w1⟩ := setClipped_writes (fun x y _ => clip.contains x y) n.Props clip
        r.X r.Y tl buf hb id
      obtain ⟨b2, h2, w2⟩ := setClipped_writes (fun x y _ => clip.contains x y) n.Props clip
        (r.X + r.W - 1) r.Y tr b1 w1.1 id
      obtain ⟨b3, h3, w3⟩ := setClipped_writes (fun x y _ => clip.contains x y) n.Props clip
        r.X (r.Y + r.H - 1) bl b2 w2.1 id
      obtain ⟨b4, h4, w4⟩ := setClipped_writes (fun x y _ => clip.contains x y) n.Props clip
        (r.X + r.W - 1) (r.Y + r.H - 1) br b3 w3.1 id
      obtain ⟨b5, h5, w5⟩ := writes_forRange (fun x y _ => clip.contains x y)
        (fun x b => (setClipped n.Props clip x r.Y hz b).bind
          (setClipped n.Props clip x (r.Y + r.H - 1) hz))
        (r.X + r.W - 1 - (r.X + 1)).toNat (r.X + 1) b4 w4.1
        (fun i t ht _ _ => setClipped_pair_writes _ n.Props clip i r.Y i (r.Y + r.H - 1) hz
          t ht id id)
      obtain ⟨b6, h6, w6⟩ := writes_forRange (fun x y _ => clip.contains x y)
        (fun y b => (setClipped n.Props clip r.X y vt b).bind
          (setClipped n.Props clip (r.X + r.W - 1) y vt))
        (r.Y + r.H - 1 - (r.Y + 1)).toNat (r.Y + 1) b5 w5.1
        (fun i t ht _ _ => setClipped_pair_writes _ n.Props clip r.X i (r.X + r.W - 1) i vt
          t ht id id)
      refine ⟨b6, ?_, writes_trans (writes_trans (writes_trans (writes_trans
        (writes_trans w1 w2) w3) w4) w5) w6⟩
      simp only [paintBox, hsmall, if_false, hg, h1, h2, h3, h4, h5, h6, Option.some_bind]

mutual
theorem paintNode_writes : ∀ (ln : LayoutNode) (buf : Buffer) (clip : Rect), buf.WF →
    ∃ b1, paintNode buf ln clip = some b1 ∧ Writes (fun x y _ => clip.contains x y) buf b1
  | .mk r n children, buf, clip, hb => by
    have hself : ∃ b0, (if n.Type_ = TextNode then paintText buf n r clip
        else if n.Type_ = BoxNode then paintBox buf n r clip
        else some buf) = some b0 ∧ Writes (fun x y _ => clip.contains x y) buf b0 := by
      by_cases ht : n.Type_ = TextNode
      · obtain ⟨b0, h0, w0, -⟩ := paintText_spec buf hb n r clip
        exact ⟨b0, by rw [if_pos ht]; exact h0, writes_mono (fun x y c h => h.1) w0⟩
      · by_cases hx : n.Type_ = BoxNode
        · obtain ⟨b0, h0, w0⟩ := paintBox_writes buf hb n r clip
          exact ⟨b0, by rw [if_neg ht, if_pos hx]; exact h0, w0⟩
        · exact ⟨buf, by rw [if_neg ht, if_neg hx], writes_refl _ buf hb⟩
    obtain ⟨b0, h0, w0⟩ := hself
    obtain ⟨b1, h1, w1⟩ := paintChildren_writes children b0 (intersect r clip) w0.1
    refine ⟨b1, ?_, writes_trans w0 (writes_mono ?_ w1)⟩
    · simp only [paintNode, h0, Option.some_bind, h1]
    · intro x y _ h
      exact ((intersect_contains r clip x y).1 h).2
theorem paintChildren_writes : ∀ (l : List LayoutNode) (buf : Buffer) (clip : Rect), buf.WF →
    ∃ b1, paintChildren buf l clip = some b1 ∧
      Writes (fun x y _ => clip.contains x y) buf b1
  | [], buf, clip, hb => ⟨buf, by simp only [paintChildren], writes_refl _ buf hb⟩
  | child :: rest, buf, clip, hb => by
    obtain ⟨b0, h0, w0⟩ := paintNode_writes child buf clip hb
    obtain ⟨b1, h1, w1⟩ := paintChildren_writes rest b0 clip w0.1
    exact ⟨b1, by simp only [paintChildren, h0, Option.some_bind, h1], writes_trans w0 w1⟩
end

/-! ## The painter: claims -/

/-- C8: painting a layout node succeeds and leaves unchanged every buffer cell
whose coordinates lie outside the inherited clip rectangle, whatever the
rectangles of the node and of its descendants; in particular `Paint buf tree`
changes no cell outside `tree.Rect`. -/
theorem paintNode_respects_clip (buf : Buffer) (hb : buf.WF) (ln : LayoutNode) (clip : Rect) :
    (∃ b1, paintNode buf ln clip = some b1 ∧
      ∀ x y : Int, ¬ clip.contains x y → b1.Get x y = buf.Get x y) ∧
    (∃ b2, Paint buf ln = some b2 ∧
      ∀ x y : Int, ¬ ln.Rect.contains x y → b2.Get x y = buf.Get x y) := by
  have key : ∀ c : Rect, ∃ b1, paintNode buf ln c = some b1 ∧
      ∀ x y : Int, ¬ c.contains x y → b1.Get x y = buf.Get x y := by
    intro c
    obtain ⟨b1, h1, w1⟩ := paintNode_writes ln buf c hb
    refine ⟨b1, h1, fun x y hout => ?_⟩
    rcases w1.2.2.2 x y with h | ⟨_, _, h⟩
    · exact h
    · exact absurd h hout
  exact ⟨key clip, key ln.Rect⟩

/-- Witness of C8: the tree `demoTree` painted on `demoPrev` under the clip
rectangle of columns 1-2. -/
theorem paintNode_respects_clip_witness :
    demoPrev.WF ∧
    (∃ b1, paintNode demoPrev demoTree ⟨1, 0, 2, 2⟩ = some b1 ∧
      ∀ x y : Int, ¬ (⟨1, 0, 2, 2⟩ : Rect).contains x y → b1.Get x y = demoPrev.Get x y) ∧
    (∃ b2, Paint demoPrev demoTree = some b2 ∧
      ∀ x y : Int, ¬ demoTree.Rect.contains x y → b2.Get x y = demoPrev.Get x y) :=
  ⟨by decide, paintNode_respects_clip demoPrev (by decide) demoTree ⟨1, 0, 2, 2⟩⟩

/-- C9, evaluated on the code: painting the text "ab" with the rectangle
`{0, 0, 1, 1}` under the clip `{0, 0, 3, 1}` on a blank 3 × 1 frame writes 'b' at
column 1, which lies outside the rectangle (`1 ≥ r.X + r.W`): the glyph loop of
`paintText` tests columns and rows against the clip only. -/
theorem paintText_writes_outside_rect :
    paintText demoLine demoWord ⟨0, 0, 1, 1⟩ ⟨0, 0, 3, 1⟩ =
      some ⟨3, 1, [{ Rune := 97 }, { Rune := 98 }, { Rune := 32 }]⟩ ∧
    ¬ (⟨0, 0, 1, 1⟩ : Rect).contains 1 0 ∧
    demoLine.Get 1 0 = some { Rune := 32 } := by
  decide

/-- C10: after painting a text node whose background colour is non-zero, every
in-bounds buffer cell lying in both the rectangle of the node and the clip
rectangle has that background colour, and each such cell on which no code point
of the wrapped text sits is the blank cell (space, `FG` unset, no style) with
that background. -/
theorem paintText_background (buf : Buffer) (hb : buf.WF) (n : Node) (r clip : Rect)
    (hbg : n.Props.BG ≠ 0) :
    ∃ b1, paintText buf n r clip = some b1 ∧
      ∀ x y : Int, buf.inBounds x y = true → r.contains x y → clip.contains x y →
        ∃ c, b1.Get x y = some c ∧ c.BG = n.Props.BG ∧
          (¬ GlyphPos r (wrapText n.Props.Text r.W) x y →
            c = { Rune := 32, FG := 0, BG := n.Props.BG, Style := 0 }) := by
  obtain ⟨b1, h1, -, hall⟩ := paintText_spec buf hb n r clip
  exact ⟨b1, h1, hall hbg⟩

/-- Witness of C10: the text `demoText` painted on `demoPrev` in the rectangle
of the first three columns of row 0. -/
theorem paintText_background_witness :
    demoPrev.WF ∧ demoText.Props.BG ≠ 0 ∧
    ∃ b1, paintText demoPrev demoText ⟨0, 0, 3, 1⟩ ⟨0, 0, 4, 2⟩ = some b1 ∧
      ∀ x y : Int, demoPrev.inBounds x y = true → (⟨0, 0, 3, 1⟩ : Rect).contains x y →
        (⟨0, 0, 4, 2⟩ : Rect).contains x y →
        ∃ c, b1.Get x y = some c ∧ c.BG = demoText.Props.BG ∧
          (¬ GlyphPos ⟨0, 0, 3, 1⟩ (wrapText demoText.Props.Text 3) x y →
            c = { Rune := 32, FG := 0, BG := demoText.Props.BG, Style := 0 }) :=
  ⟨by decide, by decide,
    paintText_background demoPrev (by decide) demoText ⟨0, 0, 3, 1⟩ ⟨0, 0, 4, 2⟩ (by decide)⟩

/-! ## The box border: lemmas -/

theorem exact_refl (cell : Int → Int → Cell) (b : Buffer) (hb : b.WF) :
    PaintsExactly (fun _ _ => False) cell b b :=
  ⟨hb, rfl, rfl, fun _ _ => ⟨fun h => absurd h id, fun _ => rfl⟩⟩

theorem exact_congr {S T : Int → Int → Prop} {cell : Int → Int → Cell} {b t : Buffer}
    (h : ∀ x y, S x y ↔ T x y) (hp : PaintsExactly S cell b t) : PaintsExactly T cell b t := by
  obtain ⟨hwf, hw, hh, hg⟩ := hp
  refine ⟨hwf, hw, hh, fun x y => ⟨fun hT hin => (hg x y).1 ((h x y).2 hT) hin,
    fun hT => (hg x y).2 (fun hS => hT ((h x y).1 hS))⟩⟩

theorem exact_comp {S T : Int → Int → Prop} {cell : Int → Int → Cell} {b t u : Buffer}
    (h1 : PaintsExactly S cell b t) (h2 : PaintsExactly T cell t u) :
    PaintsExactly (fun x y => S x y ∨ T x y) cell b u := by
  obtain ⟨-, hw1, hh1, hg1⟩ := h1
  obtain ⟨hwf2, hw2, hh2, hg2⟩ := h2
  refine ⟨hwf2, by omega, by omega, fun x y => ⟨?_, ?_⟩⟩
  · intro hST hin
    have hint : t.inBounds x y = true := by rw [inBounds_congr t b hw1 hh1]; exact hin
    by_cases hT : T x y
    · exact (hg2 x y).1 hT hint
    · rw [(hg2 x y).2 hT]
      rcases hST with hS | hT1
      · exact (hg1 x y).1 hS hin
      · exact absurd hT1 hT
  · intro hST
    rw [(hg2 x y).2 (fun h => hST (Or.inr h)), (hg1 x y).2 (fun h => hST (Or.inl h))]

theorem exact_setClipped (cell : Int → Int → Cell) (p : Props) (clip : Rect) (x y ch : Int)
    (b : Buffer) (hb : b.WF)
    (hcell : cell x y = { Rune := ch, FG := p.FG, BG := p.BG, Style := p.Style }) :
    ∃ t, setClipped p clip x y ch b = some t ∧
      PaintsExactly (fun x1 y1 => x1 = x ∧ y1 = y ∧ clip.contains x y) cell b t := by
  by_cases hc : x ≥ clip.X ∧ x < clip.X + clip.W ∧ y ≥ clip.Y ∧ y < clip.Y + clip.H
  · obtain ⟨t, hset, hwf, hw, hh, hget⟩ := set_spec b hb x y
      { Rune := ch, FG := p.FG, BG := p.BG, Style := p.Style }
    refine ⟨t, by simp only [setClipped, hc, and_self, if_true, hset], hwf, hw, hh,
      fun x1 y1 => ⟨?_, ?_⟩⟩
    · rintro ⟨rfl, rfl, -⟩ hin
      rw [hget, if_pos ⟨rfl, rfl, hin⟩, hcell]
    · intro hS
      rw [hget]
      apply if_neg
      rintro ⟨rfl, rfl, -⟩
      exact hS ⟨rfl, rfl, hc.1, hc.2.1, hc.2.2.1, hc.2.2.2⟩
  · refine ⟨b, by simp only [setClipped, hc, if_false], hb, rfl, rfl, fun x1 y1 => ⟨?_, ?_⟩⟩
    · rintro ⟨rfl, rfl, h1, h2, h3, h4⟩ _
      exact absurd ⟨h1, h2, h3, h4⟩ hc
    · intro _
      rfl

theorem exact_forRange (S : Int → Int → Int → Prop) (cell : Int → Int → Cell)
    (body : Int → Buffer → Option Buffer) (n : Nat) (lo : Int) (b : Buffer) (hb : b.WF)
    (hbody : ∀ j t, t.WF → lo ≤ j → j < lo + n →
      ∃ t1, body j t = some t1 ∧ PaintsExactly (S j) cell t t1) :
    ∃ b1, forRange body n lo b = some b1 ∧
      PaintsExactly (fun x y => ∃ j, lo ≤ j ∧ j < lo + n ∧ S j x y) cell b b1 := by
  obtain ⟨b1, h1, h2⟩ := forRange_inv body
    (fun i t => PaintsExactly (fun x y => ∃ j, lo ≤ j ∧ j < i ∧ S j x y) cell b t) n lo b
    (exact_congr (fun x y => ⟨fun h => absurd h id, fun ⟨j, h1, h2, _⟩ => by omega⟩)
      (exact_refl cell b hb))
    (fun i t hi0 hi hI => by
      obtain ⟨t1, ht1, hp⟩ := hbody i t hI.1 hi0 hi
      refine ⟨t1, ht1, exact_congr ?_ (exact_comp hI hp)⟩
      intro x y
      constructor
      · rintro (⟨j, h1, h2, h3⟩ | h)
        · exact ⟨j, h1, by omega, h3⟩
        · exact ⟨i, hi0, by omega, h⟩
      · rintro ⟨j, h1, h2, h3⟩
        by_cases hj : j = i
        · subst hj; exact Or.inr h3
        · exact Or.inl ⟨j, h1, by omega, h3⟩)
  exact ⟨b1, h1, h2⟩

theorem borderGlyphs_spec (border : BorderStyle)
    (hB : border = BorderSingle ∨ border = BorderDouble ∨ border = BorderRounded) :
    borderGlyphs border = some
      (((specGlyph border .topLeft).toNat : Int), ((specGlyph border .topRight).toNat : Int),
       ((specGlyph border .bottomLeft).toNat : Int),
       ((specGlyph border .bottomRight).toNat : Int),
       ((specGlyph border .horizontal).toNat : Int),
       ((specGlyph border .vertical).toNat : Int)) := by
  rcases hB with rfl | rfl | rfl <;> decide

theorem boxPart_topLeft (r : Rect) : boxPart r r.X r.Y = .topLeft := by
  simp [boxPart]

theorem boxPart_topRight (r : Rect) (hW : 2 ≤ r.W) :
    boxPart r (r.X + r.W - 1) r.Y = .topRight := by
  unfold boxPart
  rw [if_neg (by omega), if_pos ⟨rfl, rfl⟩]

theorem boxPart_bottomLeft (r : Rect) (hH : 2 ≤ r.H) :
    boxPart r r.X (r.Y + r.H - 1) = .bottomLeft := by
  unfold boxPart
  rw [if_neg (by omega), if_neg (by omega), if_pos ⟨rfl, rfl⟩]

theorem boxPart_bottomRight (r : Rect) (hW : 2 ≤ r.W) (hH : 2 ≤ r.H) :
    boxPart r (r.X + r.W - 1) (r.Y + r.H - 1) = .bottomRight := by
  unfold boxPart
  rw [if_neg (by omega), if_neg (by omega), if_neg (by omega), if_pos ⟨rfl, rfl⟩]

theorem boxPart_horizontal (r : Rect) (x y : Int) (hx0 : r.X + 1 ≤ x)
    (hx1 : x < r.X + r.W - 1) (hy : y = r.Y ∨ y = r.Y + r.H - 1) :
    boxPart r x y = .horizontal := by
  unfold boxPart
  rw [if_neg (by omega), if_neg (by omega), if_neg (by omega), if_neg (by omega), if_pos hy]

theorem boxPart_vertical (r : Rect) (x y : Int) (hy0 : r.Y + 1 ≤ y)
    (hy1 : y < r.Y + r.H - 1) : boxPart r x y = .vertical := by
  unfold boxPart
  rw [if_neg (by omega), if_neg (by omega), if_neg (by omega), if_neg (by omega),
    if_neg (by omega)]

theorem exact_setClipped_pair (cell : Int → Int → Cell) (p : Props) (clip : Rect)
    (x y x1 y1 ch : Int) (b : Buffer) (hb : b.WF)
    (hcell : cell x y = { Rune := ch, FG := p.FG, BG := p.BG, Style := p.Style })
    (hcell1 : cell x1 y1 = { Rune := ch, FG := p.FG, BG := p.BG, Style := p.Style }) :
    ∃ t, (setClipped p clip x y ch b).bind (setClipped p clip x1 y1 ch) = some t ∧
      PaintsExactly (fun u v => (u = x ∧ v = y ∧ clip.contains x y) ∨
        (u = x1 ∧ v = y1 ∧ clip.contains x1 y1)) cell b t := by
  obtain ⟨t1, h1, e1⟩ := exact_setClipped cell p clip x y ch b hb hcell
  obtain ⟨t2, h2, e2⟩ := exact_setClipped cell p clip x1 y1 ch t1 e1.1 hcell1
  exact ⟨t2, by rw [h1, Option.some_bind, h2], exact_comp e1 e2⟩

theorem paintBox_exact (buf : Buffer) (hb : buf.WF) (n : Node) (r clip : Rect)
    (hW : 2 ≤ r.W) (hH : 2 ≤ r.H)
    (hB : n.Props.Border = BorderSingle ∨ n.Props.Border = BorderDouble ∨
      n.Props.Border = BorderRounded) :
    ∃ b1, paintBox buf n r clip = some b1 ∧
      PaintsExactly (fun x y => r.onPerimeter x y ∧ clip.contains x y)
        (specBoxCell n.Props r) buf b1 := by
  have hsmall : ¬ (r.W < 2 ∨ r.H < 2) := by omega
  have hg := borderGlyphs_spec n.Props.Border hB
  obtain ⟨b1, h1, e1⟩ := exact_setClipped (specBoxCell n.Props r) n.Props clip r.X r.Y
    (specGlyph n.Props.Border .topLeft).toNat buf hb
    (by simp only [specBoxCell, boxPart_topLeft])
  obtain ⟨b2, h2, e2⟩ := exact_setClipped (specBoxCell n.Props r) n.Props clip
    (r.X + r.W - 1) r.Y (specGlyph n.Props.Border .topRight).toNat b1 e1.1
    (by simp only [specBoxCell, boxPart_topRight r hW])
  obtain ⟨b3, h3, e3⟩ := exact_setClipped (specBoxCell n.Props r) n.Props clip
    r.X (r.Y + r.H - 1) (specGlyph n.Props.Border .bottomLeft).toNat b2 e2.1
    (by simp only [specBoxCell, boxPart_bottomLeft r hH])
  obtain ⟨b4, h4, e4⟩ := exact_setClipped (specBoxCell n.Props r) n.Props clip
    (r.X + r.W - 1) (r.Y + r.H - 1) (specGlyph n.Props.Border .bottomRight).toNat b3 e3.1
    (by simp only [specBoxCell, boxPart_bottomRight r hW hH])
  have hn1 : r.X + 1 + ((r.X + r.W - 1 - (r.X + 1)).toNat : Int) = r.X + r.W - 1 := by omega
  have hn2 : r.Y + 1 + ((r.Y + r.H - 1 - (r.Y + 1)).toNat : Int) = r.Y + r.H - 1 := by omega
  obtain ⟨b5, h5, e5⟩ := exact_forRange
    (fun j u v => (u = j ∧ v = r.Y ∧ clip.contains j r.Y) ∨
      (u = j ∧ v = r.Y + r.H - 1 ∧ clip.contains j (r.Y + r.H - 1)))
    (specBoxCell n.Props r)
    (fun x b => (setClipped n.Props clip x r.Y (specGlyph n.Props.Border .horizontal).toNat b).bind
      (setClipped n.Props clip x (r.Y + r.H - 1) (specGlyph n.Props.Border .horizontal).toNat))
    (r.X + r.W - 1 - (r.X + 1)).toNat (r.X + 1) b4 e4.1
    (fun j t ht hj0 hj => exact_setClipped_pair _ n.Props clip j r.Y j (r.Y + r.H - 1) _ t ht
      (by simp only [specBoxCell, boxPart_horizontal r j r.Y hj0 (by omega) (Or.inl rfl)])
      (by simp only [specBoxCell,
        boxPart_horizontal r j (r.Y + r.H - 1) hj0 (by omega) (Or.inr rfl)]))
  obtain ⟨b6, h6, e6⟩ := exact_forRange
    (fun j u v => (u = r.X ∧ v = j ∧ clip.contains r.X j) ∨
      (u = r.X + r.W - 1 ∧ v = j ∧ clip.contains (r.X + r.W - 1) j))
    (specBoxCell n.Props r)
    (fun y b => (setClipped n.Props clip r.X y (specGlyph n.Props.Border .vertical).toNat b).bind
      (setClipped n.Props clip (r.X + r.W - 1) y (specGlyph n.Props.Border .vertical).toNat))
    (r.Y + r.H - 1 - (r.Y + 1)).toNat (r.Y + 1) b5 e5.1
    (fun j t ht hj0 hj => exact_setClipped_pair _ n.Props clip r.X j (r.X + r.W - 1) j _ t ht
      (by simp only [specBoxCell, boxPart_vertical r r.X j hj0 (by omega)])
      (by simp only [specBoxCell, boxPart_vertical r (r.X + r.W - 1) j hj0 (by omega)]))
  refine ⟨b6, ?_, exact_congr ?_ (exact_comp (exact_comp (exact_comp (exact_comp
    (exact_comp e1 e2) e3) e4) e5) e6)⟩
  · simp only [paintBox, hsmall, if_false, hg, h1, h2, h3, h4, h5, h6, Option.some_bind]
  · intro x y
    rw [hn1, hn2]
    simp only [Rect.onPerimeter, Rect.contains]
    constructor
    · rintro (((((⟨rfl, rfl, hc⟩ | ⟨rfl, rfl, hc⟩) | ⟨rfl, rfl, hc⟩) | ⟨rfl, rfl, hc⟩) |
        ⟨j, hj0, hj1, (⟨rfl, rfl, hc⟩ | ⟨rfl, rfl, hc⟩)⟩) |
        ⟨j, hj0, hj1, (⟨rfl, rfl, hc⟩ | ⟨rfl, rfl, hc⟩)⟩)
      all_goals exact ⟨⟨by omega, by omega⟩, hc⟩
    · rintro ⟨⟨⟨hx0, hx1, hy0, hy1⟩, hedge⟩, hc⟩
      by_cases hxl : x = r.X
      · by_cases hyt : y = r.Y
        · subst hxl; subst hyt
          exact Or.inl (Or.inl (Or.inl (Or.inl (Or.inl ⟨rfl, rfl, hc⟩))))
        · by_cases hyb : y = r.Y + r.H - 1
          · subst hxl; subst hyb
            exact Or.inl (Or.inl (Or.inl (Or.inr ⟨rfl, rfl, hc⟩)))
          · subst hxl
            exact Or.inr ⟨y, by omega, by omega, Or.inl ⟨rfl, rfl, hc⟩⟩
      · by_cases hxr : x = r.X + r.W - 1
        · by_cases hyt : y = r.Y
          · subst hxr; subst hyt
            exact Or.inl (Or.inl (Or.inl (Or.inl (Or.inr ⟨rfl, rfl, hc⟩))))
          · by_cases hyb : y = r.Y + r.H - 1
            · subst hxr; subst hyb
              exact Or.inl (Or.inl (Or.inr ⟨rfl, rfl, hc⟩))
            · subst hxr
              exact Or.inr ⟨y, by omega, by omega, Or.inr ⟨rfl, rfl, hc⟩⟩
        · have hy : y = r.Y ∨ y = r.Y + r.H - 1 := by omega
          rcases hy with rfl | rfl
          · exact Or.inl (Or.inr ⟨x, by omega, by omega, Or.inl ⟨rfl, rfl, hc⟩⟩)
          · exact Or.inl (Or.inr ⟨x, by omega, by omega, Or.inr ⟨rfl, rfl, hc⟩⟩)

/-! ## The box border: claims -/

/-- C11: for a box whose rectangle has `W ≥ 2` and `H ≥ 2` and whose border is
single, double or rounded, `paintBox` puts on every perimeter position of the
rectangle that lies inside the clip and the buffer the glyph of that border kind
(corners, horizontal edges, vertical edges as listed by `specGlyph`) with the
`FG`, `BG` and style of the node, writes nothing at perimeter positions outside
the clip and leaves every non-perimeter cell unchanged. -/
theorem paintBox_draws_border (buf : Buffer) (hb : buf.WF) (n : Node) (r clip : Rect)
    (hW : 2 ≤ r.W) (hH : 2 ≤ r.H)
    (hB : n.Props.Border = BorderSingle ∨ n.Props.Border = BorderDouble ∨
      n.Props.Border = BorderRounded) :
    ∃ b1, paintBox buf n r clip = some b1 ∧ ∀ x y : Int,
      (r.onPerimeter x y → clip.contains x y → buf.inBounds x y = true →
        b1.Get x y = some { Rune := (specGlyph n.Props.Border (boxPart r x y)).toNat,
                            FG := n.Props.FG, BG := n.Props.BG, Style := n.Props.Style }) ∧
      (r.onPerimeter x y → ¬ clip.contains x y → b1.Get x y = buf.Get x y) ∧
      (¬ r.onPerimeter x y → b1.Get x y = buf.Get x y) := by
  obtain ⟨b1, h1, -, -, -, hg⟩ := paintBox_exact buf hb n r clip hW hH hB
  refine ⟨b1, h1, fun x y => ⟨fun hp hc hin => (hg x y).1 ⟨hp, hc⟩ hin,
    fun _ hc => (hg x y).2 (fun h => hc h.2), fun hp => (hg x y).2 (fun h => hp h.1)⟩⟩

/-- Witness of C11: the double-border box `demoBox` over the whole of the
frame `demoPrev`, clipped to its first three columns. -/
theorem paintBox_draws_border_witness :
    demoPrev.WF ∧ 2 ≤ (⟨0, 0, 4, 2⟩ : Rect).W ∧ 2 ≤ (⟨0, 0, 4, 2⟩ : Rect).H ∧
    (demoBox.Props.Border = BorderSingle ∨ demoBox.Props.Border = BorderDouble ∨
      demoBox.Props.Border = BorderRounded) ∧
    ∃ b1, paintBox demoPrev demoBox ⟨0, 0, 4, 2⟩ ⟨0, 0, 3, 2⟩ = some b1 ∧ ∀ x y : Int,
      ((⟨0, 0, 4, 2⟩ : Rect).onPerimeter x y → (⟨0, 0, 3, 2⟩ : Rect).contains x y →
        demoPrev.inBounds x y = true →
        b1.Get x y = some
          { Rune := (specGlyph demoBox.Props.Border (boxPart ⟨0, 0, 4, 2⟩ x y)).toNat,
            FG := demoBox.Props.FG, BG := demoBox.Props.BG, Style := demoBox.Props.Style }) ∧
      ((⟨0, 0, 4, 2⟩ : Rect).onPerimeter x y → ¬ (⟨0, 0, 3, 2⟩ : Rect).contains x y →
        b1.Get x y = demoPrev.Get x y) ∧
      (¬ (⟨0, 0, 4, 2⟩ : Rect).onPerimeter x y → b1.Get x y = demoPrev.Get x y) :=
  ⟨by decide, by decide, by decide, by decide,
    paintBox_draws_border demoPrev (by decide) demoBox ⟨0, 0, 4, 2⟩ ⟨0, 0, 3, 2⟩
      (by decide) (by decide) (by decide)⟩

/-- C12: a box renders nothing below its minimum size or without a border: if
the rectangle has `W < 2` or `H < 2`, or the border kind is none, `paintBox`
returns the buffer unchanged, for every buffer and clip. -/
theorem paintBox_draws_nothing (buf : Buffer) (n : Node) (r clip : Rect)
    (h : r.W < 2 ∨ r.H < 2 ∨ n.Props.Border = BorderNone) :
    paintBox buf n r clip = some buf := by
  by_cases hsmall : r.W < 2 ∨ r.H < 2
  · simp only [paintBox, hsmall, if_true]
  · have hnone : n.Props.Border = BorderNone := by
      rcases h with h | h | h
      · exact absurd (Or.inl h) hsmall
      · exact absurd (Or.inr h) hsmall
      · exact h
    have hg : borderGlyphs n.Props.Border = none := by rw [hnone]; decide
    simp only [paintBox, hsmall, if_false, hg]

/-- Witness of C12: the box `demoBox` in a rectangle one column wide. -/
theorem paintBox_draws_nothing_witness :
    ((⟨0, 0, 1, 2⟩ : Rect).W < 2 ∨ (⟨0, 0, 1, 2⟩ : Rect).H < 2 ∨
      demoBox.Props.Border = BorderNone) ∧
    paintBox demoPrev demoBox ⟨0, 0, 1, 2⟩ ⟨0, 0, 4, 2⟩ = some demoPrev :=
  ⟨by decide, paintBox_draws_nothing demoPrev demoBox ⟨0, 0, 1, 2⟩ ⟨0, 0, 4, 2⟩ (by decide)⟩

/-! ## The cell buffer: lemmas -/

theorem wf_of_inBounds (b : Buffer) (hinv : b.sizeInv) (x y : Int)
    (hin : b.inBounds x y = true) : b.WF := by
  obtain ⟨hx0, hx, hy0, hy⟩ := (inBounds_iff b x y).1 hin
  exact ⟨by omega, by omega, hinv⟩

theorem set_out (b : Buffer) (x y : Int) (c : Cell) (h : b.inBounds x y = false) :
    b.Set x y c = some b := by
  simp [Buffer.Set, h]

theorem set_total (b : Buffer) (hinv : b.sizeInv) (x y : Int) (c : Cell) :
    ∃ b1, b.Set x y c = some b1 ∧ b1.sizeInv ∧ b1.Width = b.Width ∧ b1.Height = b.Height := by
  by_cases hin : b.inBounds x y = true
  · obtain ⟨b1, h1, hwf, hw, hh, -⟩ := set_spec b (wf_of_inBounds b hinv x y hin) x y c
    exact ⟨b1, h1, hwf.2.2, hw, hh⟩
  · exact ⟨b, set_out b x y c (by simpa using hin), hinv, rfl, rfl⟩

theorem get_total (b : Buffer) (hinv : b.sizeInv) (x y : Int) : ∃ c, b.Get x y = some c := by
  by_cases hin : b.inBounds x y = true
  · obtain ⟨c, h1, -⟩ := get_in b (wf_of_inBounds b hinv x y hin) x y hin
    exact ⟨c, h1⟩
  · exact ⟨{}, get_out b x y (by simpa using hin)⟩

/-! ## The cell buffer: claims -/

/-- C13: for `w ≥ 0` and `h ≥ 0`, `NewBuffer w h` has `Width = w`, `Height = h`
and exactly `w * h` cells, each of them the blank default: rune `' '`, `FG` 0,
`BG` 0, no style bits. -/
theorem newBuffer_blank (w h : Int) (hw : 0 ≤ w) (hh : 0 ≤ h) :
    ∃ b, NewBuffer w h = some b ∧ b.Width = w ∧ b.Height = h ∧
      (b.Cells.length : Int) = w * h ∧
      ∀ c ∈ b.Cells, c = { Rune := (' ' : Char).toNat, FG := 0, BG := 0, Style := 0 } := by
  have hwh : 0 ≤ w * h := mul_nonneg hw hh
  refine ⟨⟨w, h, (List.replicate (w * h).toNat ({} : Cell)).map
    fun c => { c with Rune := 32 }⟩, ?_, rfl, rfl, ?_, ?_⟩
  · simp only [NewBuffer, not_lt.2 hwh, if_false]
  · simp only [List.length_map, List.length_replicate]
    omega
  · intro c hc
    simp only [List.mem_map, List.mem_replicate] at hc
    obtain ⟨c0, ⟨-, rfl⟩, rfl⟩ := hc
    rfl

/-- Witness of C13: `NewBuffer 10 5`. -/
theorem newBuffer_blank_witness :
    (0 : Int) ≤ 10 ∧ (0 : Int) ≤ 5 ∧
    ∃ b, NewBuffer 10 5 = some b ∧ b.Width = 10 ∧ b.Height = 5 ∧
      (b.Cells.length : Int) = 10 * 5 ∧
      ∀ c ∈ b.Cells, c = { Rune := (' ' : Char).toNat, FG := 0, BG := 0, Style := 0 } :=
  ⟨by decide, by decide, newBuffer_blank 10 5 (by decide) (by decide)⟩

/-- C14: on a buffer with `len(Cells) = Width * Height`, for a coordinate with
`x < 0`, `x ≥ Width`, `y < 0` or `y ≥ Height`, `Set` leaves the buffer unchanged
and `Get` returns the empty cell; and at no coordinate at all does `Set` or
`Get` index outside the cell array (both return a result). -/
theorem set_get_out_of_bounds (b : Buffer) (hinv : b.sizeInv) (x y : Int) (c : Cell)
    (hout : x < 0 ∨ b.Width ≤ x ∨ y < 0 ∨ b.Height ≤ y) :
    b.Set x y c = some b ∧
    b.Get x y = some { Rune := 0, FG := 0, BG := 0, Style := 0 } ∧
    ∀ (x1 y1 : Int) (c1 : Cell), (b.Set x1 y1 c1).isSome = true ∧
      (b.Get x1 y1).isSome = true := by
  have hin : b.inBounds x y = false := by
    rw [Bool.eq_false_iff]
    intro h
    have := (inBounds_iff b x y).1 h
    omega
  refine ⟨set_out b x y c hin, get_out b x y hin, fun x1 y1 c1 => ⟨?_, ?_⟩⟩
  · obtain ⟨b1, h1, -⟩ := set_total b hinv x1 y1 c1
    rw [h1]; rfl
  · obtain ⟨c2, h2⟩ := get_total b hinv x1 y1
    rw [h2]; rfl

/-- Witness of C14: column 4 of the 4 × 2 frame `demoNext`. -/
theorem set_get_out_of_bounds_witness :
    demoNext.sizeInv ∧ ((4 : Int) < 0 ∨ demoNext.Width ≤ 4 ∨ (0 : Int) < 0 ∨
      demoNext.Height ≤ 0) ∧
    demoNext.Set 4 0 { Rune := 88 } = some demoNext ∧
    demoNext.Get 4 0 = some { Rune := 0, FG := 0, BG := 0, Style := 0 } ∧
    ∀ (x1 y1 : Int) (c1 : Cell), (demoNext.Set x1 y1 c1).isSome = true ∧
      (demoNext.Get x1 y1).isSome = true :=
  ⟨by decide, by decide,
    set_get_out_of_bounds demoNext (by decide) 4 0 { Rune := 88 } (by decide)⟩

/-- C15: on a buffer with `len(Cells) = Width * Height`, for an in-bounds
coordinate `(x, y)` and a cell `c`: after `Set x y c`, `Get x y` returns `c` and
`Get` returns its previous value at every other coordinate. -/
theorem set_then_get (b : Buffer) (hinv : b.sizeInv) (x y : Int) (c : Cell)
    (hin : b.inBounds x y = true) :
    ∃ b1, b.Set x y c = some b1 ∧ b1.Get x y = some c ∧
      ∀ x1 y1 : Int, ¬ (x1 = x ∧ y1 = y) → b1.Get x1 y1 = b.Get x1 y1 := by
  obtain ⟨b1, h1, -, -, -, hget⟩ := set_spec b (wf_of_inBounds b hinv x y hin) x y c
  refine ⟨b1, h1, ?_, ?_⟩
  · rw [hget, if_pos ⟨rfl, rfl, hin⟩]
  · intro x1 y1 hne
    rw [hget, if_neg (fun h => hne ⟨h.1, h.2.1⟩)]

/-- Witness of C15: position (2, 1) of the frame `demoNext`. -/
theorem set_then_get_witness :
    demoNext.sizeInv ∧ demoNext.inBounds 2 1 = true ∧
    ∃ b1, demoNext.Set 2 1 { Rune := 88, FG := 1, BG := 2 } = some b1 ∧
      b1.Get 2 1 = some { Rune := 88, FG := 1, BG := 2 } ∧
      ∀ x1 y1 : Int, ¬ (x1 = 2 ∧ y1 = 1) → b1.Get x1 y1 = demoNext.Get x1 y1 :=
  ⟨by decide, by decide,
    set_then_get demoNext (by decide) 2 1 { Rune := 88, FG := 1, BG := 2 } (by decide)⟩

/-- C18: `Clear` resets every cell to the blank default (space, unset `FG` and
`BG`, no style) and keeps the dimensions, so on a buffer with
`len(Cells) = Width * Height` the cleared buffer is `NewBuffer Width Height`. -/
theorem clear_is_newBuffer (b : Buffer) (hinv : b.sizeInv) :
    (∀ c ∈ b.Clear.Cells, c = { Rune := (' ' : Char).toNat, FG := 0, BG := 0, Style := 0 }) ∧
    b.Clear.Cells.length = b.Cells.length ∧
    b.Clear.Width = b.Width ∧ b.Clear.Height = b.Height ∧
    NewBuffer b.Width b.Height = some b.Clear := by
  refine ⟨?_, by simp [Buffer.Clear], rfl, rfl, ?_⟩
  · intro c hc
    simp only [Buffer.Clear, List.mem_map] at hc
    obtain ⟨_, _, rfl⟩ := hc
    rfl
  · have hlen : (b.Width * b.Height).toNat = b.Cells.length := by
      unfold Buffer.sizeInv at hinv
      omega
    have hnn : ¬ b.Width * b.Height < 0 := by
      unfold Buffer.sizeInv at hinv
      omega
    simp only [NewBuffer, hnn, if_false, Buffer.Clear, hlen]
    congr 2
    apply List.ext_getElem
    · simp
    · intro i h1 h2
      simp

/-- Witness of C18: clearing the frame `demoNext` gives `NewBuffer 4 2`. -/
theorem clear_is_newBuffer_witness :
    demoNext.sizeInv ∧
    (∀ c ∈ demoNext.Clear.Cells,
      c = { Rune := (' ' : Char).toNat, FG := 0, BG := 0, Style := 0 }) ∧
    demoNext.Clear.Cells.length = demoNext.Cells.length ∧
    demoNext.Clear.Width = demoNext.Width ∧ demoNext.Clear.Height = demoNext.Height ∧
    NewBuffer demoNext.Width demoNext.Height = some demoNext.Clear :=
  ⟨by decide, clear_is_newBuffer demoNext (by decide)⟩

theorem set_as_store (b : Buffer) (x y : Int) (c : Cell) (hin : b.inBounds x y = true)
    (b0 : Buffer) (hset : b.Set x y c = some b0) :
    ∃ cs, storeAt b.Cells (y * b.Width + x) c = some cs ∧ b0 = { b with Cells := cs } := by
  simp only [Buffer.Set, hin, Bool.not_true, Bool.false_eq_true, if_false,
    Option.map_eq_some'] at hset
  obtain ⟨cs, h1, h2⟩ := hset
  exact ⟨cs, h1, h2.symm⟩

theorem writeRunes_total (y : Int) (fg bg : Color) (style : StyleFlags) :
    ∀ (s : List Char) (col : Int) (b : Buffer), b.sizeInv →
      ∃ b1, writeRunes y fg bg style s col b = some b1 ∧ b1.sizeInv ∧
        b1.Width = b.Width ∧ b1.Height = b.Height := by
  intro s
  induction s with
  | nil =>
    intro col b hinv
    exact ⟨b, rfl, hinv, rfl, rfl⟩
  | cons r rest ih =>
    intro col b hinv
    by_cases hin : b.inBounds col y = true
    · obtain ⟨b0, hset, hinv0, hw0, hh0⟩ := set_total b hinv col y
        { Rune := r.toNat, FG := fg, BG := bg, Style := style }
      obtain ⟨cs, hcs, rfl⟩ := set_as_store b col y _ hin b0 hset
      obtain ⟨b1, h1, hinv1, hw1, hh1⟩ := ih (col + 1) _ hinv0
      refine ⟨b1, ?_, hinv1, by rw [hw1, hw0], by rw [hh1, hh0]⟩
      simp only [writeRunes, hin, Bool.not_true, Bool.false_eq_true, if_false, hcs,
        Option.some_bind, h1]
    · have hinf : b.inBounds col y = false := by simpa using hin
      exact ⟨b, by simp [writeRunes, hinf], hinv, rfl, rfl⟩

theorem writeRunes_spec (y : Int) (fg bg : Color) (style : StyleFlags) :
    ∀ (s : List Char) (col : Int) (b : Buffer), b.WF → 0 ≤ col → 0 ≤ y → y < b.Height →
      ∃ b1, writeRunes y fg bg style s col b = some b1 ∧ b1.WF ∧
        b1.Width = b.Width ∧ b1.Height = b.Height ∧
        ∀ x1 y1 : Int, b1.Get x1 y1 =
          if y1 = y ∧ col ≤ x1 ∧ x1 < col + s.length ∧ x1 < b.Width
          then (s.get? (x1 - col).toNat).map
            fun r => { Rune := r.toNat, FG := fg, BG := bg, Style := style }
          else b.Get x1 y1 := by
  intro s
  induction s with
  | nil =>
    intro col b hb _ _ _
    refine ⟨b, rfl, hb, rfl, rfl, fun x1 y1 => ?_⟩
    rw [if_neg]
    simp only [List.length_nil]
    push_cast
    omega
  | cons r rest ih =>
    intro col b hb hcol hy0 hy
    by_cases hin : b.inBounds col y = true
    · obtain ⟨b0, hset, hwf0, hw0, hh0, hget0⟩ := set_spec b hb col y
        { Rune := r.toNat, FG := fg, BG := bg, Style := style }
      obtain ⟨cs, hcs, hb0⟩ := set_as_store b col y _ hin b0 hset
      obtain ⟨b1, h1, hwf1, hw1, hh1, hget1⟩ := ih (col + 1) b0 hwf0 (by omega) hy0
        (by rw [hh0]; exact hy)
      obtain ⟨-, hcolW, -, -⟩ := (inBounds_iff b col y).1 hin
      refine ⟨b1, ?_, hwf1, by rw [hw1, hw0], by rw [hh1, hh0], fun x1 y1 => ?_⟩
      · simp only [writeRunes, hin, Bool.not_true, Bool.false_eq_true, if_false, hcs,
          Option.some_bind]
        rw [← hb0]; exact h1
      · rw [hget1, hget0, hw0]
        by_cases hy1 : y1 = y
        · subst hy1
          by_cases hx : x1 = col
          · subst hx
            have e1 : ¬ (y1 = y1 ∧ x1 + 1 ≤ x1 ∧ x1 < x1 + 1 + (rest.length : Int) ∧
                x1 < b.Width) := by omega
            have e2 : y1 = y1 ∧ x1 ≤ x1 ∧ x1 < x1 + ((r :: rest).length : Int) ∧
                x1 < b.Width := by
              refine ⟨rfl, le_refl _, ?_, hcolW⟩
              simp only [List.length_cons]; push_cast; omega
            rw [if_neg e1, if_pos ⟨rfl, rfl, hin⟩, if_pos e2]
            simp
          · by_cases hr : col + 1 ≤ x1 ∧ x1 < col + 1 + (rest.length : Int) ∧ x1 < b.Width
            · have e : (x1 - col).toNat = (x1 - (col + 1)).toNat + 1 := by omega
              have e2 : y1 = y1 ∧ col ≤ x1 ∧ x1 < col + ((r :: rest).length : Int) ∧
                  x1 < b.Width := by
                refine ⟨rfl, by omega, ?_, hr.2.2⟩
                simp only [List.length_cons]; push_cast; omega
              rw [if_pos ⟨rfl, hr⟩, if_pos e2, e]
              simp
            · have e2 : ¬ (y1 = y1 ∧ col ≤ x1 ∧ x1 < col + ((r :: rest).length : Int) ∧
                  x1 < b.Width) := by
                simp only [List.length_cons]; push_cast; omega
              rw [if_neg (fun h => hr h.2), if_neg (fun h => hx h.1), if_neg e2]
        · rw [if_neg (fun h => hy1 h.1), if_neg (fun h => hy1 h.2.1), if_neg (fun h => hy1 h.1)]
    · have hinf : b.inBounds col y = false := by simpa using hin
      have hW : b.Width ≤ col := by
        by_contra hc
        exact hin ((inBounds_iff b col y).2 ⟨hcol, by omega, hy0, hy⟩)
      refine ⟨b, by simp [writeRunes, hinf], hb, rfl, rfl, fun x1 y1 => ?_⟩
      rw [if_neg]
      omega

/-- C17: on a buffer with `len(Cells) = Width * Height`, for a row
`0 ≤ y < Height`, a start column `x ≥ 0` and a string `s`, `WriteString` puts
`Cell{s[i], fg, bg, style}` at `(x + i, y)` for every `i < len(s)` with
`x + i < Width` and leaves every other cell unchanged: the string is cut at the
right edge and never wraps. -/
theorem writeString_effect (b : Buffer) (hinv : b.sizeInv) (x y : Int) (s : List Char)
    (fg bg : Color) (style : StyleFlags) (hy0 : 0 ≤ y) (hy : y < b.Height) (hx : 0 ≤ x) :
    ∃ b1, b.WriteString x y s fg bg style = some b1 ∧
      b1.Width = b.Width ∧ b1.Height = b.Height ∧
      (∀ i : Nat, i < s.length → x + i < b.Width →
        b1.Get (x + i) y = (s.get? i).map
          fun r => { Rune := r.toNat, FG := fg, BG := bg, Style := style }) ∧
      (∀ x1 y1 : Int, ¬ (y1 = y ∧ ∃ i : Nat, i < s.length ∧ x1 = x + i ∧ x + i < b.Width) →
        b1.Get x1 y1 = b.Get x1 y1) := by
  have hW : 0 ≤ b.Width := by
    by_contra hc
    have h1 : b.Width * b.Height ≤ (-1) * b.Height :=
      mul_le_mul_of_nonneg_right (by omega) (by omega)
    unfold Buffer.sizeInv at hinv
    omega
  obtain ⟨b1, h1, -, hw1, hh1, hget⟩ := writeRunes_spec y fg bg style s x b
    ⟨hW, by omega, hinv⟩ hx hy0 hy
  refine ⟨b1, h1, hw1, hh1, ?_, ?_⟩
  · intro i hi hiW
    rw [hget, if_pos ⟨rfl, by omega, by omega, hiW⟩]
    congr 2
    omega
  · intro x1 y1 hne
    rw [hget, if_neg]
    rintro ⟨h1, h2, h3, h4⟩
    exact hne ⟨h1, (x1 - x).toNat, by omega, by omega, by omega⟩

/-- Witness of C17: "abcdef" written from column 1 of the 3 × 1 frame
`demoLine`. -/
theorem writeString_effect_witness :
    demoLine.sizeInv ∧ (0 : Int) ≤ 0 ∧ (0 : Int) < demoLine.Height ∧ (0 : Int) ≤ 1 ∧
    ∃ b1, demoLine.WriteString 1 0 ['a', 'b', 'c', 'd', 'e', 'f'] 1 0 0 = some b1 ∧
      b1.Width = demoLine.Width ∧ b1.Height = demoLine.Height ∧
      (∀ i : Nat, i < ['a', 'b', 'c', 'd', 'e', 'f'].length → (1 : Int) + i < demoLine.Width →
        b1.Get (1 + i) 0 = (['a', 'b', 'c', 'd', 'e', 'f'].get? i).map
          fun r => { Rune := r.toNat, FG := 1, BG := 0, Style := 0 }) ∧
      (∀ x1 y1 : Int, ¬ (y1 = 0 ∧ ∃ i : Nat, i < ['a', 'b', 'c', 'd', 'e', 'f'].length ∧
          x1 = 1 + i ∧ (1 : Int) + i < demoLine.Width) →
        b1.Get x1 y1 = demoLine.Get x1 y1) :=
  ⟨by decide, by decide, by decide, by decide,
    writeString_effect demoLine (by decide) 1 0 ['a', 'b', 'c', 'd', 'e', 'f'] 1 0 0
      (by decide) (by decide) (by decide)⟩

theorem forRange_fix {σ : Type} (body : Int → σ → Option σ) (s : σ)
    (h : ∀ i, body i s = some s) : ∀ (n : Nat) (lo : Int), forRange body n lo s = some s := by
  intro n
  induction n with
  | zero => intro lo; rfl
  | succ n ih =>
    intro lo
    simp only [forRange, h lo, Option.some_bind, ih (lo + 1)]

theorem fillRect_fix (bg : Color) (r clip : Rect) (b : Buffer)
    (hno : ∀ x y, b.inBounds x y = false) : fillRect bg r clip b = some b := by
  have hrow : ∀ y, fillRow bg r clip y b = some b := by
    intro y
    apply forRange_fix
    intro x
    by_cases hx : x ≥ clip.X
    · rw [if_pos hx]; exact set_out b x y _ (hno x y)
    · rw [if_neg hx]
  apply forRange_fix
  intro y
  by_cases hy : y < clip.Y
  · rw [if_pos hy]
  · rw [if_neg hy]; exact hrow y

theorem paintLine_fix (p : Props) (clip : Rect) (y : Int) (b : Buffer)
    (hno : ∀ x y, b.inBounds x y = false) :
    ∀ (line : List Char) (col : Int), paintLine p clip y col line b = some b := by
  intro line
  induction line with
  | nil => intro col; rfl
  | cons ch rest ih =>
    intro col
    by_cases hbreak : col ≥ clip.X + clip.W
    · simp only [paintLine, hbreak, if_true]
    · by_cases hc : col ≥ clip.X
      · simp only [paintLine, hbreak, if_false, hc, if_true, set_out b col y _ (hno col y),
          Option.some_bind, ih (col + 1)]
      · simp only [paintLine, hbreak, if_false, hc, Option.some_bind, ih (col + 1)]

theorem paintLines_fix (p : Props) (r clip : Rect) (b : Buffer)
    (hno : ∀ x y, b.inBounds x y = false) :
    ∀ (lines : List (List Char)) (k : Nat), paintLines p r clip k lines b = some b := by
  intro lines
  induction lines with
  | nil => intro k; rfl
  | cons line rest ih =>
    intro k
    by_cases hskip : r.Y + (k : Int) < clip.Y ∨ r.Y + (k : Int) ≥ clip.Y + clip.H
    · simp only [paintLines, hskip, if_true, ih (k + 1)]
    · simp only [paintLines, hskip, if_false, paintLine_fix p clip _ b hno line r.X,
        Option.some_bind, ih (k + 1)]

theorem paintText_fix (b : Buffer) (n : Node) (r clip : Rect)
    (hno : ∀ x y, b.inBounds x y = false) : paintText b n r clip = some b := by
  have hfill : (if n.Props.BG ≠ 0 then fillRect n.Props.BG r clip b else some b) = some b := by
    by_cases hbg : n.Props.BG ≠ 0
    · rw [if_pos hbg]; exact fillRect_fix _ r clip b hno
    · rw [if_neg hbg]
  simp only [paintText, hfill, Option.some_bind, paintLines_fix n.Props r clip b hno]

theorem setClipped_fix (p : Props) (clip : Rect) (x y ch : Int) (b : Buffer)
    (hno : ∀ x y, b.inBounds x y = false) : setClipped p clip x y ch b = some b := by
  by_cases hc : x ≥ clip.X ∧ x < clip.X + clip.W ∧ y ≥ clip.Y ∧ y < clip.Y + clip.H
  · simp only [setClipped, hc, and_self, if_true, set_out b x y _ (hno x y)]
  · simp only [setClipped, hc, if_false]

theorem paintBox_fix (b : Buffer) (n : Node) (r clip : Rect)
    (hno : ∀ x y, b.inBounds x y = false) : paintBox b n r clip = some b := by
  by_cases hsmall : r.W < 2 ∨ r.H < 2
  · simp only [paintBox, hsmall, if_true]
  · cases hg : borderGlyphs n.Props.Border with
    | none => simp only [paintBox, hsmall, if_false, hg]
    | some g =>
      obtain ⟨tl, tr, bl, br, hz, vt⟩ := g
      have h5 := forRange_fix (fun x b => (setClipped n.Props clip x r.Y hz b).bind
          (setClipped n.Props clip x (r.Y + r.H - 1) hz)) b
        (fun x => by simp only [setClipped_fix n.Props clip _ _ _ b hno, Option.some_bind])
        (r.X + r.W - 1 - (r.X + 1)).toNat (r.X + 1)
      have h6 := forRange_fix (fun y b => (setClipped n.Props clip r.X y vt b).bind
          (setClipped n.Props clip (r.X + r.W - 1) y vt)) b
        (fun y => by simp only [setClipped_fix n.Props clip _ _ _ b hno, Option.some_bind])
        (r.Y + r.H - 1 - (r.Y + 1)).toNat (r.Y + 1)
      simp only [paintBox, hsmall, if_false, hg, setClipped_fix n.Props clip _ _ _ b hno,
        Option.some_bind, h5, h6]

mutual
theorem paintNode_fix (buf : Buffer) (hno : ∀ x y, buf.inBounds x y = false) :
    ∀ (ln : LayoutNode) (clip : Rect), paintNode buf ln clip = some buf
  | .mk r n children, clip => by
    have hself : (if n.Type_ = TextNode then paintText buf n r clip
        else if n.Type_ = BoxNode then paintBox buf n r clip
        else some buf) = some buf := by
      by_cases ht : n.Type_ = TextNode
      · rw [if_pos ht]; exact paintText_fix buf n r clip hno
      · by_cases hx : n.Type_ = BoxNode
        · rw [if_neg ht, if_pos hx]; exact paintBox_fix buf n r clip hno
        · rw [if_neg ht, if_neg hx]
    simp only [paintNode, hself, Option.some_bind,
      paintChildren_fix buf hno children (intersect r clip)]
theorem paintChildren_fix (buf : Buffer) (hno : ∀ x y, buf.inBounds x y = false) :
    ∀ (l : List LayoutNode) (clip : Rect), paintChildren buf l clip = some buf
  | [], _ => by simp only [paintChildren]
  | child :: rest, clip => by
    simp only [paintChildren, paintNode_fix buf hno child clip, Option.some_bind,
      paintChildren_fix buf hno rest clip]
end

theorem paint_total (b : Buffer) (hinv : b.sizeInv) (tree : LayoutNode) :
    ∃ b1, Paint b tree = some b1 ∧ b1.sizeInv ∧ b1.Width = b.Width ∧ b1.Height = b.Height := by
  by_cases hwf : 0 ≤ b.Width ∧ 0 ≤ b.Height
  · obtain ⟨b1, h1, hw⟩ := paintNode_writes tree b tree.Rect ⟨hwf.1, hwf.2, hinv⟩
    exact ⟨b1, h1, hw.1.2.2, hw.2.1, hw.2.2.1⟩
  · have hno : ∀ x y, b.inBounds x y = false := by
      intro x y
      rw [Bool.eq_false_iff]
      intro h
      have := (inBounds_iff b x y).1 h
      omega
    exact ⟨b, paintNode_fix b hno tree tree.Rect, hinv, rfl, rfl⟩

/-- C16: the size invariant `len(Cells) = Width * Height` is established by
`NewBuffer` (for `w, h ≥ 0`) and preserved, with `Width` and `Height` unchanged,
by every mutating operation: `Set`, `Clear`, `WriteString` and `Paint`, each of
which returns a result. -/
theorem sizeInv_preserved (b : Buffer) (hinv : b.sizeInv) :
    (∀ w h : Int, 0 ≤ w → 0 ≤ h →
      ∃ nb, NewBuffer w h = some nb ∧ nb.sizeInv ∧ nb.Width = w ∧ nb.Height = h) ∧
    (∀ (x y : Int) (c : Cell),
      ∃ b1, b.Set x y c = some b1 ∧ b1.sizeInv ∧ b1.Width = b.Width ∧ b1.Height = b.Height) ∧
    (b.Clear.sizeInv ∧ b.Clear.Width = b.Width ∧ b.Clear.Height = b.Height) ∧
    (∀ (x y : Int) (s : List Char) (fg bg : Color) (style : StyleFlags),
      ∃ b1, b.WriteString x y s fg bg style = some b1 ∧ b1.sizeInv ∧
        b1.Width = b.Width ∧ b1.Height = b.Height) ∧
    (∀ tree : LayoutNode,
      ∃ b1, Paint b tree = some b1 ∧ b1.sizeInv ∧ b1.Width = b.Width ∧
        b1.Height = b.Height) := by
  refine ⟨?_, set_total b hinv, ?_, ?_, paint_total b hinv⟩
  · intro w h hw hh
    have hwh : 0 ≤ w * h := mul_nonneg hw hh
    refine ⟨⟨w, h, (List.replicate (w * h).toNat ({} : Cell)).map
      fun c => { c with Rune := 32 }⟩, ?_, ?_, rfl, rfl⟩
    · simp only [NewBuffer, not_lt.2 hwh, if_false]
    · simp only [Buffer.sizeInv, List.length_map, List.length_replicate]
      omega
  · refine ⟨?_, rfl, rfl⟩
    unfold Buffer.sizeInv at hinv ⊢
    simpa [Buffer.Clear] using hinv
  · intro x y s fg bg style
    exact writeRunes_total y fg bg style s x b hinv

/-- Witness of C16: the frame `demoNext`. -/
theorem sizeInv_preserved_witness :
    demoNext.sizeInv ∧
    (∀ w h : Int, 0 ≤ w → 0 ≤ h →
      ∃ nb, NewBuffer w h = some nb ∧ nb.sizeInv ∧ nb.Width = w ∧ nb.Height = h) ∧
    (∀ (x y : Int) (c : Cell),
      ∃ b1, demoNext.Set x y c = some b1 ∧ b1.sizeInv ∧ b1.Width = demoNext.Width ∧
        b1.Height = demoNext.Height) ∧
    (demoNext.Clear.sizeInv ∧ demoNext.Clear.Width = demoNext.Width ∧
      demoNext.Clear.Height = demoNext.Height) ∧
    (∀ (x y : Int) (s : List Char) (fg bg : Color) (style : StyleFlags),
      ∃ b1, demoNext.WriteString x y s fg bg style = some b1 ∧ b1.sizeInv ∧
        b1.Width = demoNext.Width ∧ b1.Height = demoNext.Height) ∧
    (∀ tree : LayoutNode,
      ∃ b1, Paint demoNext tree = some b1 ∧ b1.sizeInv ∧ b1.Width = demoNext.Width ∧
        b1.Height = demoNext.Height) :=
  ⟨by decide, sizeInv_preserved demoNext (by decide)⟩

/-! ## Word wrap: lemmas -/

theorem fieldsAux_append_space (c : Char) (hc : isSpace c = true) (b : List Char) :
    ∀ (a cur : List Char),
      fieldsAux (a ++ c :: b) cur = fieldsAux a cur ++ fieldsAux b [] := by
  intro a
  induction a with
  | nil =>
    intro cur
    by_cases hcur : cur = []
    · simp [fieldsAux, hc, hcur]
    · simp [fieldsAux, hc, hcur]
  | cons d a ih =>
    intro cur
    by_cases hd : isSpace d = true
    · by_cases hcur : cur = []
      · simp [fieldsAux, hd, hcur, ih]
      · simp [fieldsAux, hd, hcur, ih]
    · simp [fieldsAux, hd, ih]

theorem fieldsAux_spaces_prefix (pre : List Char) (hpre : ∀ c ∈ pre, isSpace c = true)
    (rest : List Char) : fieldsAux (pre ++ rest) [] = fieldsAux rest [] := by
  induction pre with
  | nil => rfl
  | cons d pre ih =>
    have hd : isSpace d = true := hpre d (List.mem_cons_self _ _)
    simp only [List.cons_append, fieldsAux, hd, if_true]
    exact ih (fun c hc => hpre c (List.mem_cons_of_mem _ hc))

theorem fieldsAux_word (w : List Char) (hw : ∀ c ∈ w, isSpace c = false) :
    ∀ cur : List Char, fieldsAux w cur = if cur ++ w = [] then [] else [cur ++ w] := by
  induction w with
  | nil =>
    intro cur
    simp [fieldsAux]
  | cons d w ih =>
    intro cur
    have hd : isSpace d = false := hw d (List.mem_cons_self _ _)
    simp only [fieldsAux, hd, Bool.false_eq_true, if_false]
    rw [ih (fun c hc => hw c (List.mem_cons_of_mem _ hc))]
    simp

theorem fieldsAux_good : ∀ (s cur : List Char), (∀ c ∈ cur, isSpace c = false) →
    ∀ w ∈ fieldsAux s cur, w ≠ [] ∧ ∀ c ∈ w, isSpace c = false := by
  intro s
  induction s with
  | nil =>
    intro cur hcur w hw
    by_cases h : cur = []
    · simp [fieldsAux, h] at hw
    · simp only [fieldsAux, h, if_false, List.mem_singleton] at hw
      subst hw
      exact ⟨h, hcur⟩
  | cons d s ih =>
    intro cur hcur w hw
    by_cases hd : isSpace d = true
    · by_cases h : cur = []
      · simp only [fieldsAux, hd, if_true, h] at hw
        exact ih [] (by simp) w hw
      · simp only [fieldsAux, hd, if_true, h, if_false, List.mem_cons] at hw
        rcases hw with rfl | hw
        · exact ⟨h, hcur⟩
        · exact ih [] (by simp) w hw
    · simp only [fieldsAux, hd, Bool.false_eq_true, if_false] at hw
      refine ih (cur ++ [d]) ?_ w hw
      intro c hc
      rcases List.mem_append.1 hc with h1 | h1
      · exact hcur c h1
      · rw [List.mem_singleton] at h1
        subst h1
        simpa using hd

theorem fieldsAux_splitLines : ∀ (s cur : List Char),
    ∃ l ls, splitLines s = l :: ls ∧ fieldsAux s cur = fieldsAux l cur ++ ls.flatMap fields := by
  intro s
  induction s with
  | nil =>
    intro cur
    exact ⟨[], [], rfl, by simp⟩
  | cons d s ih =>
    intro cur
    by_cases hd : d = '\n'
    · subst hd
      obtain ⟨l, ls, hsp, hf⟩ := ih []
      refine ⟨[], splitLines s, by simp [splitLines], ?_⟩
      have hnl : isSpace '\n' = true := by decide
      have hrest : fieldsAux s [] = (splitLines s).flatMap fields := by
        rw [hf, hsp]; simp [fields]
      by_cases hcur : cur = []
      · simp [fieldsAux, hnl, hcur, hrest]
      · simp [fieldsAux, hnl, hcur, hrest]
    · by_cases hsp : isSpace d = true
      · obtain ⟨l, ls, hspl, hf⟩ := ih []
        refine ⟨d :: l, ls, by simp [splitLines, hd, hspl], ?_⟩
        by_cases hcur : cur = []
        · simp [fieldsAux, hsp, hcur, hf]
        · simp [fieldsAux, hsp, hcur, hf]
      · obtain ⟨l, ls, hspl, hf⟩ := ih (cur ++ [d])
        refine ⟨d :: l, ls, by simp [splitLines, hd, hspl], ?_⟩
        simp [fieldsAux, hsp, hf]

theorem fields_splitLines (s : List Char) : (splitLines s).flatMap fields = fields s := by
  obtain ⟨l, ls, hsp, hf⟩ := fieldsAux_splitLines s []
  rw [hsp, fields, hf]
  simp [fields]

theorem wrapWords_fields (leading : List Char) (hlead : ∀ c ∈ leading, isSpace c = true)
    (maxWidth : Int) :
    ∀ (ws : List (List Char)) (line : List Char) (lineLen : Int),
      (∀ w ∈ ws, w ≠ [] ∧ ∀ c ∈ w, isSpace c = false) →
      (wrapWords leading maxWidth line lineLen ws).flatMap fields = fields line ++ ws := by
  intro ws
  induction ws with
  | nil =>
    intro line lineLen _
    simp [wrapWords]
  | cons w ws ih =>
    intro line lineLen hws
    obtain ⟨hwne, hwns⟩ := hws w (List.mem_cons_self _ _)
    have hrest : ∀ v ∈ ws, v ≠ [] ∧ ∀ c ∈ v, isSpace c = false :=
      fun v hv => hws v (List.mem_cons_of_mem _ hv)
    have hword : fieldsAux w [] = [w] := by
      rw [fieldsAux_word w hwns []]
      simp [hwne]
    by_cases hfit : lineLen + 1 + runeCount w ≤ maxWidth
    · simp only [wrapWords, hfit, if_true]
      rw [ih _ _ hrest, fields, fieldsAux_append_space ' ' (by decide) w line [], hword]
      simp [fields]
    · simp only [wrapWords, hfit, if_false, List.flatMap_cons]
      rw [ih _ _ hrest, fields, fields, fieldsAux_spaces_prefix leading hlead w, hword]
      simp

theorem take_length_sub_dropWhile (p : Char → Bool) (raw : List Char) :
    raw.take (raw.length - (raw.dropWhile p).length) = raw.takeWhile p := by
  have h := List.takeWhile_append_dropWhile p raw
  have hlen : (raw.takeWhile p).length + (raw.dropWhile p).length = raw.length := by
    have := congrArg List.length h
    rw [List.length_append] at this
    exact this
  have e : raw.length - (raw.dropWhile p).length = (raw.takeWhile p).length := by omega
  rw [e]
  have h2 := List.take_left (raw.takeWhile p) (raw.dropWhile p)
  rw [h] at h2
  exact h2

theorem wrapLine_fields (maxWidth : Int) (raw : List Char) :
    (wrapLine maxWidth raw).flatMap fields = fields raw := by
  have hsplit : raw.takeWhile (fun c => c = ' ' || c = '\t') ++ trimLeft raw = raw :=
    List.takeWhile_append_dropWhile _ raw
  have hlead : ∀ c ∈ raw.takeWhile (fun c => c = ' ' || c = '\t'), isSpace c = true := by
    intro c hc
    have := List.mem_takeWhile_imp hc
    simp only [Bool.or_eq_true, decide_eq_true_eq] at this
    rcases this with rfl | rfl <;> decide
  have htake : raw.take (raw.length - (trimLeft raw).length) =
      raw.takeWhile (fun c => c = ' ' || c = '\t') :=
    take_length_sub_dropWhile _ raw
  have hraw : fields raw = fields (trimLeft raw) := by
    conv_lhs => rw [← hsplit]
    exact fieldsAux_spaces_prefix _ hlead _
  have hleadf : fields (raw.takeWhile (fun c => c = ' ' || c = '\t')) = [] := by
    have := fieldsAux_spaces_prefix _ hlead []
    simpa [fields, fieldsAux] using this
  simp only [wrapLine, htake]
  by_cases ht : trimLeft raw = []
  · simp only [ht, if_true, List.flatMap_cons, List.flatMap_nil, List.append_nil, hleadf]
    rw [hraw, ht]; rfl
  · simp only [ht, if_false]
    cases hf : fields (trimLeft raw) with
    | nil =>
      simp only [List.flatMap_cons, List.flatMap_nil, List.append_nil, hleadf]
      rw [hraw, hf]
    | cons w0 ws =>
      have hgood := fieldsAux_good (trimLeft raw) [] (by simp)
      have hall : ∀ w ∈ w0 :: ws, w ≠ [] ∧ ∀ c ∈ w, isSpace c = false := by
        intro w hw
        apply hgood w
        rw [← hf] at hw
        exact hw
      obtain ⟨hw0ne, hw0ns⟩ := hall w0 (List.mem_cons_self _ _)
      simp only []
      rw [wrapWords_fields _ hlead maxWidth ws _ _
        (fun w hw => hall w (List.mem_cons_of_mem _ hw)), hraw, hf, fields,
        fieldsAux_spaces_prefix _ hlead w0, fieldsAux_word w0 hw0ns []]
      simp [hw0ne]

/-- C19: word-wrap never splits, drops, duplicates or reorders a word: for
`maxWidth > 0`, the concatenation, over the lines of `wrapText s maxWidth` in
order, of the whitespace-separated words of each line is the sequence of the
whitespace-separated words of `s`. -/
theorem wrapText_preserves_words (s : List Char) (maxWidth : Int) (hpos : 0 < maxWidth) :
    (wrapText s maxWidth).flatMap fields = fields s := by
  have hmw : ¬ maxWidth ≤ 0 := by omega
  by_cases hs : s = []
  · subst hs
    simp [wrapText, hmw, fields, fieldsAux]
  · simp only [wrapText, hmw, if_false, hs]
    rw [List.flatMap_assoc]
    rw [List.flatMap_congr (fun raw _ => wrapLine_fields maxWidth raw)]
    exact fields_splitLines s

/-- Witness of C19: "  ab cd\n\txyz  q" wrapped to width 5. -/
theorem wrapText_preserves_words_witness :
    (0 : Int) < 5 ∧
    (wrapText [' ', ' ', 'a', 'b', ' ', 'c', 'd', '\n', '\t', 'x', 'y', 'z', ' ', ' ', 'q']
      5).flatMap fields =
    fields [' ', ' ', 'a', 'b', ' ', 'c', 'd', '\n', '\t', 'x', 'y', 'z', ' ', ' ', 'q'] :=
  ⟨by decide, wrapText_preserves_words _ 5 (by decide)⟩

/-- C20 as stated fails: `wrapText "hello" 3` is the single line "hello" of 5
code points, more than `maxWidth = 3` (a word is never split), and
`wrapText "      a" 3` keeps the six leading spaces. -/
theorem wrapText_line_exceeds_maxWidth :
    wrapText ['h', 'e', 'l', 'l', 'o'] 3 = [['h', 'e', 'l', 'l', 'o']] ∧
    ¬ (∀ line ∈ wrapText ['h', 'e', 'l', 'l', 'o'] 3, runeCount line ≤ 3) ∧
    wrapText [' ', ' ', ' ', ' ', ' ', ' ', 'a'] 3 = [[' ', ' ', ' ', ' ', ' ', ' ', 'a']] := by
  decide

/-! ## Word wrap: greedy packing, hard breaks, leading whitespace -/

theorem splitLines_cons_form (s : List Char) : ∃ l ls, splitLines s = l :: ls := by
  obtain ⟨l, ls, h, -⟩ := fieldsAux_splitLines s []
  exact ⟨l, ls, h⟩

theorem splitLines_append_newline (b : List Char) :
    ∀ a : List Char, splitLines (a ++ '\n' :: b) = splitLines a ++ splitLines b := by
  intro a
  induction a with
  | nil => simp [splitLines]
  | cons c a ih =>
    by_cases hc : c = '\n'
    · simp [splitLines, hc, ih]
    · obtain ⟨l, ls, hl⟩ := splitLines_cons_form a
      have e : splitLines (a ++ '\n' :: b) = l :: (ls ++ splitLines b) := by
        rw [ih, hl]; rfl
      simp only [List.cons_append, splitLines, hc, if_false, List.append_eq, e, hl]

theorem wrapText_eq_flatMap (s : List Char) (maxWidth : Int) (hpos : 0 < maxWidth) :
    wrapText s maxWidth = (splitLines s).flatMap (wrapLine maxWidth) := by
  have hmw : ¬ maxWidth ≤ 0 := by omega
  by_cases hs : s = []
  · subst hs
    simp [wrapText, hmw, splitLines, wrapLine, trimLeft]
  · simp only [wrapText, hmw, if_false, hs]

theorem wrapWords_head (leading : List Char) (maxWidth : Int) :
    ∀ (ws : List (List Char)) (line : List Char) (lineLen : Int),
      (∀ w ∈ ws, w ≠ [] ∧ ∀ c ∈ w, isSpace c = false) →
      ∃ hd tl taken, wrapWords leading maxWidth line lineLen ws = hd :: tl ∧
        fields hd = fields line ++ taken := by
  intro ws
  induction ws with
  | nil =>
    intro line lineLen _
    exact ⟨line, [], [], rfl, by simp⟩
  | cons w ws ih =>
    intro line lineLen hws
    obtain ⟨hwne, hwns⟩ := hws w (List.mem_cons_self _ _)
    by_cases hfit : lineLen + 1 + runeCount w ≤ maxWidth
    · obtain ⟨hd, tl, taken, h1, h2⟩ := ih (line ++ ' ' :: w) (lineLen + 1 + runeCount w)
        (fun v hv => hws v (List.mem_cons_of_mem _ hv))
      refine ⟨hd, tl, w :: taken, by simp only [wrapWords, hfit, if_true, h1], ?_⟩
      rw [h2, fields, fieldsAux_append_space ' ' (by decide) w line [],
        fieldsAux_word w hwns []]
      simp [fields, hwne]
    · exact ⟨line, wrapWords leading maxWidth (leading ++ w)
        (runeCount leading + runeCount w) ws, [],
        by simp only [wrapWords, hfit, if_false], by simp⟩

theorem wrapWords_greedy (leading : List Char) (hlead : ∀ c ∈ leading, isSpace c = true)
    (maxWidth : Int) :
    ∀ (ws : List (List Char)) (line : List Char) (lineLen : Int),
      lineLen = runeCount line →
      (∀ w ∈ ws, w ≠ [] ∧ ∀ c ∈ w, isSpace c = false) →
      ∀ (i : Nat) (l1 l2 : List Char),
        (wrapWords leading maxWidth line lineLen ws).get? i = some l1 →
        (wrapWords leading maxWidth line lineLen ws).get? (i + 1) = some l2 →
        ∃ w rest, fields l2 = w :: rest ∧ runeCount l1 + 1 + runeCount w > maxWidth := by
  intro ws
  induction ws with
  | nil =>
    intro line lineLen _ _ i l1 l2 _ h2
    simp [wrapWords] at h2
  | cons w ws ih =>
    intro line lineLen hlen hws i l1 l2 h1 h2
    obtain ⟨hwne, hwns⟩ := hws w (List.mem_cons_self _ _)
    have hrest : ∀ v ∈ ws, v ≠ [] ∧ ∀ c ∈ v, isSpace c = false :=
      fun v hv => hws v (List.mem_cons_of_mem _ hv)
    by_cases hfit : lineLen + 1 + runeCount w ≤ maxWidth
    · simp only [wrapWords, hfit, if_true] at h1 h2
      refine ih (line ++ ' ' :: w) (lineLen + 1 + runeCount w) ?_ hrest i l1 l2 h1 h2
      simp only [runeCount, List.length_append, List.length_cons] at hlen ⊢
      push_cast
      omega
    · simp only [wrapWords, hfit, if_false] at h1 h2
      cases i with
      | zero =>
        simp only [List.get?_cons_zero, Option.some.injEq] at h1
        subst h1
        obtain ⟨hd, tl, taken, e1, e2⟩ := wrapWords_head leading maxWidth ws (leading ++ w)
          (runeCount leading + runeCount w) hrest
        simp only [List.get?_cons_succ, e1, List.get?_cons_zero, Option.some.injEq] at h2
        subst h2
        refine ⟨w, taken, ?_, ?_⟩
        · rw [e2, fields, fieldsAux_spaces_prefix leading hlead w, fieldsAux_word w hwns []]
          simp [hwne]
        · rw [← hlen]; omega
      | succ j =>
        simp only [List.get?_cons_succ] at h1 h2
        refine ih (leading ++ w) (runeCount leading + runeCount w) ?_ hrest j l1 l2 h1 h2
        simp only [runeCount, List.length_append]
        push_cast
        rfl

theorem leading_isSpace (raw : List Char) :
    ∀ c ∈ raw.takeWhile (fun c => c = ' ' || c = '\t'), isSpace c = true := by
  intro c hc
  have := List.mem_takeWhile_imp hc
  simp only [Bool.or_eq_true, decide_eq_true_eq] at this
  rcases this with rfl | rfl <;> decide

/-- C21: word-wrap is greedy: `wrapText s maxWidth` is the concatenation of
the wrapped source lines, and whenever two consecutive output lines come from
the same source line, the length of the first plus one separating space plus
the length of the first word of the second exceeds `maxWidth`. -/
theorem wrapText_greedy (s : List Char) (maxWidth : Int) (hpos : 0 < maxWidth) :
    wrapText s maxWidth = (splitLines s).flatMap (wrapLine maxWidth) ∧
    ∀ raw ∈ splitLines s, ∀ (i : Nat) (l1 l2 : List Char),
      (wrapLine maxWidth raw).get? i = some l1 →
      (wrapLine maxWidth raw).get? (i + 1) = some l2 →
      ∃ w rest, fields l2 = w :: rest ∧ runeCount l1 + 1 + runeCount w > maxWidth := by
  refine ⟨wrapText_eq_flatMap s maxWidth hpos, ?_⟩
  intro raw _ i l1 l2 h1 h2
  have htake : raw.take (raw.length - (trimLeft raw).length) =
      raw.takeWhile (fun c => c = ' ' || c = '\t') :=
    take_length_sub_dropWhile _ raw
  simp only [wrapLine, htake] at h1 h2
  by_cases ht : trimLeft raw = []
  · simp [ht] at h2
  · simp only [ht, if_false] at h1 h2
    cases hf : fields (trimLeft raw) with
    | nil =>
      rw [hf] at h2
      simp at h2
    | cons w0 ws =>
      rw [hf] at h1 h2
      simp only [] at h1 h2
      have hgood := fieldsAux_good (trimLeft raw) [] (by simp)
      have hall : ∀ w ∈ ws, w ≠ [] ∧ ∀ c ∈ w, isSpace c = false := by
        intro w hw
        apply hgood w
        have : w ∈ fields (trimLeft raw) := by rw [hf]; exact List.mem_cons_of_mem _ hw
        exact this
      exact wrapWords_greedy _ (leading_isSpace raw) maxWidth ws _ _ rfl hall i l1 l2 h1 h2

/-- Witness of C21: "aa bb cc" wrapped to width 5. -/
theorem wrapText_greedy_witness :
    (0 : Int) < 5 ∧
    wrapText ['a', 'a', ' ', 'b', 'b', ' ', 'c', 'c'] 5 =
      (splitLines ['a', 'a', ' ', 'b', 'b', ' ', 'c', 'c']).flatMap (wrapLine 5) ∧
    ∀ raw ∈ splitLines ['a', 'a', ' ', 'b', 'b', ' ', 'c', 'c'],
      ∀ (i : Nat) (l1 l2 : List Char),
      (wrapLine 5 raw).get? i = some l1 → (wrapLine 5 raw).get? (i + 1) = some l2 →
      ∃ w rest, fields l2 = w :: rest ∧ runeCount l1 + 1 + runeCount w > 5 :=
  ⟨by decide, wrapText_greedy _ 5 (by decide)⟩

theorem wrapWords_ne_nil (leading : List Char) (maxWidth : Int) :
    ∀ (ws : List (List Char)) (line : List Char) (lineLen : Int),
      wrapWords leading maxWidth line lineLen ws ≠ [] := by
  intro ws
  induction ws with
  | nil => intro line lineLen; simp [wrapWords]
  | cons w ws ih =>
    intro line lineLen
    by_cases hfit : lineLen + 1 + runeCount w ≤ maxWidth
    · simp only [wrapWords, hfit, if_true]; exact ih _ _
    · simp [wrapWords, hfit]

theorem wrapLine_ne_nil (maxWidth : Int) (raw : List Char) : wrapLine maxWidth raw ≠ [] := by
  unfold wrapLine
  by_cases ht : trimLeft raw = []
  · simp [ht]
  · simp only [ht, if_false]
    cases fields (trimLeft raw) with
    | nil => simp
    | cons w0 ws => exact wrapWords_ne_nil _ _ _ _ _

theorem length_le_flatMap_wrapLine (maxWidth : Int) (ls : List (List Char)) :
    ls.length ≤ (ls.flatMap (wrapLine maxWidth)).length := by
  induction ls with
  | nil => simp
  | cons l ls ih =>
    have hpos : 0 < (wrapLine maxWidth l).length :=
      List.length_pos.2 (wrapLine_ne_nil maxWidth l)
    simp only [List.flatMap_cons, List.length_append, List.length_cons]
    omega

/-- C22: embedded newlines are hard breaks: for `maxWidth > 0`,
`wrapText (a ++ "\n" ++ b)` is `wrapText a` followed by `wrapText b`; hence the
number of output lines is at least the number of newline-separated source
lines. -/
theorem wrapText_newline_hard_break (a b : List Char) (maxWidth : Int)
    (hpos : 0 < maxWidth) :
    wrapText (a ++ ['\n'] ++ b) maxWidth = wrapText a maxWidth ++ wrapText b maxWidth ∧
    ∀ s : List Char, (splitLines s).length ≤ (wrapText s maxWidth).length := by
  constructor
  · rw [wrapText_eq_flatMap _ _ hpos, wrapText_eq_flatMap a _ hpos,
      wrapText_eq_flatMap b _ hpos]
    have e : a ++ ['\n'] ++ b = a ++ '\n' :: b := by simp
    rw [e, splitLines_append_newline, List.flatMap_append]
  · intro s
    rw [wrapText_eq_flatMap s _ hpos]
    exact length_le_flatMap_wrapLine maxWidth _

/-- Witness of C22: "ab cd" and "ef" wrapped to width 3. -/
theorem wrapText_newline_hard_break_witness :
    (0 : Int) < 3 ∧
    wrapText (['a', 'b', ' ', 'c', 'd'] ++ ['\n'] ++ ['e', 'f']) 3 =
      wrapText ['a', 'b', ' ', 'c', 'd'] 3 ++ wrapText ['e', 'f'] 3 ∧
    ∀ s : List Char, (splitLines s).length ≤ (wrapText s 3).length :=
  ⟨by decide, wrapText_newline_hard_break ['a', 'b', ' ', 'c', 'd'] ['e', 'f'] 3 (by decide)⟩

theorem wrapWords_line_form (leading : List Char) (maxWidth : Int) :
    ∀ (ws : List (List Char)) (line : List Char) (lineLen : Int),
      ∀ l ∈ wrapWords leading maxWidth line lineLen ws,
        (∃ suf, l = line ++ suf) ∨ (∃ w ∈ ws, ∃ suf, l = leading ++ w ++ suf) := by
  intro ws
  induction ws with
  | nil =>
    intro line lineLen l hl
    simp only [wrapWords, List.mem_singleton] at hl
    exact Or.inl ⟨[], by simp [hl]⟩
  | cons w ws ih =>
    intro line lineLen l hl
    by_cases hfit : lineLen + 1 + runeCount w ≤ maxWidth
    · simp only [wrapWords, hfit, if_true] at hl
      rcases ih _ _ l hl with ⟨suf, h⟩ | ⟨v, hv, suf, h⟩
      · exact Or.inl ⟨' ' :: w ++ suf, by rw [h]; simp⟩
      · exact Or.inr ⟨v, List.mem_cons_of_mem _ hv, suf, h⟩
    · simp only [wrapWords, hfit, if_false, List.mem_cons] at hl
      rcases hl with rfl | hl
      · exact Or.inl ⟨[], by simp⟩
      · rcases ih _ _ l hl with ⟨suf, h⟩ | ⟨v, hv, suf, h⟩
        · exact Or.inr ⟨w, List.mem_cons_self _ _, suf, h⟩
        · exact Or.inr ⟨v, List.mem_cons_of_mem _ hv, suf, h⟩

theorem leadingRun_of_word (leading w suf : List Char)
    (hlead : ∀ c ∈ leading, (c = ' ' || c = '\t') = true)
    (hwne : w ≠ []) (hwns : ∀ c ∈ w, isSpace c = false) :
    leadingRun (leading ++ w ++ suf) = leading := by
  unfold leadingRun
  rw [List.append_assoc, List.takeWhile_append_of_pos hlead]
  cases w with
  | nil => exact absurd rfl hwne
  | cons c w =>
    have hc : isSpace c = false := hwns c (List.mem_cons_self _ _)
    have hnp : ¬ ((c = ' ' || c = '\t') = true) := by
      intro h
      simp only [Bool.or_eq_true, decide_eq_true_eq] at h
      rcases h with rfl | rfl
      · exact absurd hc (by decide)
      · exact absurd hc (by decide)
    simp [List.takeWhile_cons, hnp]

/-- C23: word-wrap preserves leading whitespace: for `maxWidth > 0`,
`wrapText s maxWidth` is the concatenation of the wrapped source lines, every
output line produced from a source line begins with exactly the leading run of
spaces and tabs of that source line, and a source line of spaces and tabs only
is returned unchanged as one line. -/
theorem wrapText_keeps_leading (s : List Char) (maxWidth : Int) (hpos : 0 < maxWidth) :
    wrapText s maxWidth = (splitLines s).flatMap (wrapLine maxWidth) ∧
    ∀ raw ∈ splitLines s,
      (∀ line ∈ wrapLine maxWidth raw, leadingRun line = leadingRun raw) ∧
      ((∀ c ∈ raw, c = ' ' ∨ c = '\t') → wrapLine maxWidth raw = [raw]) := by
  refine ⟨wrapText_eq_flatMap s maxWidth hpos, ?_⟩
  intro raw _
  have htake : raw.take (raw.length - (trimLeft raw).length) = leadingRun raw :=
    take_length_sub_dropWhile _ raw
  have hlead : ∀ c ∈ leadingRun raw, (c = ' ' || c = '\t') = true := by
    intro c hc
    unfold leadingRun at hc
    exact List.mem_takeWhile_imp (p := fun c => c = ' ' || c = '\t') hc
  have hself : leadingRun (leadingRun raw) = leadingRun raw := by
    have : (leadingRun raw ++ []).takeWhile (fun c => c = ' ' || c = '\t') =
        leadingRun raw ++ ([] : List Char).takeWhile (fun c => c = ' ' || c = '\t') :=
      List.takeWhile_append_of_pos hlead
    simpa [leadingRun] using this
  constructor
  · intro line hline
    simp only [wrapLine, htake] at hline
    by_cases ht : trimLeft raw = []
    · simp only [ht, if_true, List.mem_singleton] at hline
      rw [hline, hself]
    · simp only [ht, if_false] at hline
      cases hf : fields (trimLeft raw) with
      | nil =>
        rw [hf] at hline
        simp only [List.mem_singleton] at hline
        rw [hline, hself]
      | cons w0 ws =>
        rw [hf] at hline
        simp only [] at hline
        have hgood := fieldsAux_good (trimLeft raw) [] (by simp)
        have hall : ∀ w ∈ w0 :: ws, w ≠ [] ∧ ∀ c ∈ w, isSpace c = false := by
          intro w hw
          apply hgood w
          have : w ∈ fields (trimLeft raw) := by rw [hf]; exact hw
          exact this
        rcases wrapWords_line_form _ _ ws _ _ line hline with ⟨suf, h⟩ | ⟨v, hv, suf, h⟩
        · obtain ⟨h1, h2⟩ := hall w0 (List.mem_cons_self _ _)
          rw [h]
          exact leadingRun_of_word _ w0 suf hlead h1 h2
        · obtain ⟨h1, h2⟩ := hall v (List.mem_cons_of_mem _ hv)
          rw [h]
          exact leadingRun_of_word _ v suf hlead h1 h2
  · intro hall
    have hdrop : trimLeft raw = [] := by
      unfold trimLeft
      rw [List.dropWhile_eq_nil_iff]
      intro c hc
      rcases hall c hc with rfl | rfl <;> decide
    simp [wrapLine, hdrop]

/-- Witness of C23: "  ab cd" wrapped to width 4. -/
theorem wrapText_keeps_leading_witness :
    (0 : Int) < 4 ∧
    wrapText [' ', ' ', 'a', 'b', ' ', 'c', 'd'] 4 =
      (splitLines [' ', ' ', 'a', 'b', ' ', 'c', 'd']).flatMap (wrapLine 4) ∧
    ∀ raw ∈ splitLines [' ', ' ', 'a', 'b', ' ', 'c', 'd'],
      (∀ line ∈ wrapLine 4 raw, leadingRun line = leadingRun raw) ∧
      ((∀ c ∈ raw, c = ' ' ∨ c = '\t') → wrapLine 4 raw = [raw]) :=
  ⟨by decide, wrapText_keeps_leading _ 4 (by decide)⟩

/-! ## The focus manager: lemmas -/

theorem current_in_range (m : Manager) (h0 : 0 ≤ m.current)
    (hlt : m.current < m.focusables.length) :
    m.Current = (m.focusables.get? m.current.toNat).map fun k => (k, m) := by
  have hlen : ¬ m.focusables.length = 0 := by omega
  have hge : ¬ m.current ≥ m.focusables.length := by omega
  simp only [Manager.Current, hlen, if_false, hge, h0, if_true]

theorem current_empty (m : Manager) (h : m.focusables = []) : m.Current = some ([], m) := by
  simp [Manager.Current, h]

theorem current_key_in_range (m : Manager) (h0 : 0 ≤ m.current)
    (hlt : m.current < m.focusables.length) :
    m.Current.map Prod.fst = m.focusables.get? m.current.toNat := by
  rw [current_in_range m h0 hlt]
  cases m.focusables.get? m.current.toNat <;> rfl

theorem next_in_range (m : Manager) (h0 : 0 ≤ m.current) (hne : m.focusables ≠ []) :
    m.Next = { m with current := (m.current + 1) % m.focusables.length } := by
  have hlen : ¬ m.focusables.length = 0 := by
    intro h; exact hne (List.length_eq_zero.1 h)
  have h1 : 0 ≤ m.current + 1 := by omega
  have h2 : (0 : Int) ≤ (m.focusables.length : Int) := by omega
  simp only [Manager.Next, hlen, if_false]
  rw [Int.tmod_eq_emod h1 h2]

theorem sub_one_emod (c n : Int) (h0 : 0 ≤ c) (hlt : c < n) :
    (c - 1) % n = if c = 0 then n - 1 else c - 1 := by
  by_cases hc : c = 0
  · subst hc
    have e : ((0 : Int) - 1) % n = (0 - 1 + n) % n := Int.add_emod_self.symm
    have h1 : (0 : Int) ≤ 0 - 1 + n := by omega
    have h2 : (0 : Int) - 1 + n < n := by omega
    rw [if_pos rfl, e, Int.emod_eq_of_lt h1 h2]
    omega
  · have h1 : 0 ≤ c - 1 := by omega
    have h2 : c - 1 < n := by omega
    rw [if_neg hc, Int.emod_eq_of_lt h1 h2]

theorem add_one_emod (c n : Int) (h0 : 0 ≤ c) (hlt : c < n) :
    (c + 1) % n = if c + 1 = n then 0 else c + 1 := by
  by_cases hc : c + 1 = n
  · rw [if_pos hc, hc]
    exact Int.emod_self
  · have h1 : 0 ≤ c + 1 := by omega
    have h2 : c + 1 < n := by omega
    rw [if_neg hc, Int.emod_eq_of_lt h1 h2]

theorem prev_in_range (m : Manager) (h0 : 0 ≤ m.current) (hne : m.focusables ≠ []) :
    m.Prev = { m with current := (m.current - 1) % m.focusables.length } := by
  have hlen : ¬ m.focusables.length = 0 := by
    intro h; exact hne (List.length_eq_zero.1 h)
  have hpos : (0 : Int) < (m.focusables.length : Int) := by
    have := Nat.pos_of_ne_zero hlen
    omega
  have h1 : 0 ≤ m.current - 1 + (m.focusables.length : Int) := by omega
  have h2 : (0 : Int) ≤ (m.focusables.length : Int) := by omega
  simp only [Manager.Prev, hlen, if_false]
  rw [Int.tmod_eq_emod h1 h2, Int.add_emod_self]

theorem iterate_next (keys : List (List Char)) (hne : keys ≠ []) (stack : List contextEntry) :
    ∀ j : Nat, Manager.Next^[j] ⟨keys, 0, stack⟩ =
      ⟨keys, ((j % keys.length : Nat) : Int), stack⟩ := by
  intro j
  induction j with
  | zero => simp
  | succ j ih =>
    rw [Function.iterate_succ_apply', ih, next_in_range _ (Int.natCast_nonneg _) hne]
    have h : ((j % keys.length + 1) % keys.length : Nat) = (j + 1) % keys.length :=
      Nat.mod_add_mod j keys.length 1
    simp only [Manager.mk.injEq, true_and, and_true]
    rw [← h]
    push_cast
    rfl

theorem update_fresh (tree : LayoutNode) :
    NewManager.Update tree = some ⟨collectFocusables tree [], 0, []⟩ := by
  simp [Manager.Update, NewManager, Manager.Current]

/-! ## The focus manager: claims -/

/-- C24: for a fresh manager updated with a tree whose focusable keys in order
are `k_0 .. k_(n-1)` with `n ≥ 1`, `Current` is `k_0`, after `j` calls of `Next`
`Current` is `k_(j mod n)`, and `n` calls of `Next` return to the starting
state. -/
theorem focus_next_cycles (tree : LayoutNode) (hne : collectFocusables tree [] ≠ []) :
    ∃ m0, NewManager.Update tree = some m0 ∧
      m0.focusables = collectFocusables tree [] ∧
      m0.Current.map Prod.fst = (collectFocusables tree []).get? 0 ∧
      (∀ j : Nat, (Manager.Next^[j] m0).Current.map Prod.fst =
        (collectFocusables tree []).get? (j % (collectFocusables tree []).length)) ∧
      Manager.Next^[(collectFocusables tree []).length] m0 = m0 := by
  have hpos : 0 < (collectFocusables tree []).length := List.length_pos.2 hne
  have hcur : ∀ j : Nat, (Manager.Next^[j]
      (⟨collectFocusables tree [], 0, []⟩ : Manager)).Current.map Prod.fst =
      (collectFocusables tree []).get? (j % (collectFocusables tree []).length) := by
    intro j
    rw [iterate_next _ hne [] j, current_key_in_range _ (Int.natCast_nonneg _)
      (by
        show ((j % (collectFocusables tree []).length : Nat) : Int) <
          ((collectFocusables tree []).length : Int)
        exact_mod_cast Nat.mod_lt j hpos)]
    simp only [Int.toNat_ofNat]
  refine ⟨_, update_fresh tree, rfl, ?_, hcur, ?_⟩
  · simpa using hcur 0
  · rw [iterate_next _ hne [] _]
    simp

/-- Witness of C24: the column of the keys "a", "b", "c". -/
theorem focus_next_cycles_witness :
    collectFocusables demoFocusTree [] ≠ [] ∧
    ∃ m0, NewManager.Update demoFocusTree = some m0 ∧
      m0.focusables = collectFocusables demoFocusTree [] ∧
      m0.Current.map Prod.fst = (collectFocusables demoFocusTree []).get? 0 ∧
      (∀ j : Nat, (Manager.Next^[j] m0).Current.map Prod.fst =
        (collectFocusables demoFocusTree []).get?
          (j % (collectFocusables demoFocusTree []).length)) ∧
      Manager.Next^[(collectFocusables demoFocusTree []).length] m0 = m0 :=
  ⟨by decide, focus_next_cycles demoFocusTree (by decide)⟩

/-- C25: for a manager with `n ≥ 1` focusables and a current index
`0 ≤ i < n`, `Prev` moves to index `(i - 1) mod n` and changes nothing else;
from index 0 it wraps to the last key; `Prev` undoes `Next` and `Next` undoes
`Prev`. -/
theorem focus_prev_wraps (m : Manager) (h0 : 0 ≤ m.current)
    (hlt : m.current < m.focusables.length) :
    m.Prev = { m with current := (m.current - 1) % m.focusables.length } ∧
    (m.current = 0 → m.Prev.Current.map Prod.fst = m.focusables.getLast?) ∧
    m.Next.Prev = m ∧ m.Prev.Next = m := by
  have hne : m.focusables ≠ [] := by
    intro h; rw [h] at hlt; simp at hlt; omega
  have hpos : (0 : Int) < m.focusables.length := by omega
  have hprev := prev_in_range m h0 hne
  have hnext := next_in_range m h0 hne
  have hr1 : 0 ≤ (m.current - 1) % (m.focusables.length : Int) :=
    Int.emod_nonneg _ (by omega)
  have hr2 : (m.current - 1) % (m.focusables.length : Int) < m.focusables.length :=
    Int.emod_lt_of_pos _ hpos
  have hr3 : 0 ≤ (m.current + 1) % (m.focusables.length : Int) :=
    Int.emod_nonneg _ (by omega)
  obtain ⟨keys, cur, stack⟩ := m
  simp only at h0 hlt hne hpos hprev hnext hr1 hr2 hr3
  refine ⟨hprev, ?_, ?_, ?_⟩
  · intro hz
    subst hz
    rw [hprev, current_key_in_range _ hr1 hr2]
    have e : ((0 : Int) - 1) % (keys.length : Int) = keys.length - 1 := by
      rw [← Int.add_emod_self]
      exact Int.emod_eq_of_lt (by omega) (by omega)
    simp only [e]
    rw [List.getLast?_eq_getElem?, List.get?_eq_getElem?]
    congr 1
    omega
  · rw [hnext, prev_in_range _ hr3 hne]
    simp only [Manager.mk.injEq, true_and, and_true]
    rw [add_one_emod cur _ h0 hlt]
    by_cases hc : cur + 1 = (keys.length : Int)
    · rw [if_pos hc, sub_one_emod 0 _ (le_refl _) hpos, if_pos rfl]
      omega
    · rw [if_neg hc, sub_one_emod (cur + 1) _ (by omega) (by omega), if_neg (by omega)]
      omega
  · rw [hprev, next_in_range _ hr1 hne]
    simp only [Manager.mk.injEq, true_and, and_true]
    rw [sub_one_emod cur _ h0 hlt]
    by_cases hc : cur = 0
    · rw [if_pos hc, add_one_emod _ _ (by omega) (by omega), if_pos (by omega)]
      omega
    · rw [if_neg hc, add_one_emod _ _ (by omega) (by omega), if_neg (by omega)]
      omega

/-- Witness of C25: the keys "a", "b", "c" with the focus on index 0. -/
theorem focus_prev_wraps_witness :
    (0 : Int) ≤ (⟨[['a'], ['b'], ['c']], 0, []⟩ : Manager).current ∧
    (⟨[['a'], ['b'], ['c']], 0, []⟩ : Manager).current <
      (⟨[['a'], ['b'], ['c']], 0, []⟩ : Manager).focusables.length ∧
    ((⟨[['a'], ['b'], ['c']], 0, []⟩ : Manager).Prev =
      { (⟨[['a'], ['b'], ['c']], 0, []⟩ : Manager) with
        current := ((⟨[['a'], ['b'], ['c']], 0, []⟩ : Manager).current - 1) %
          (⟨[['a'], ['b'], ['c']], 0, []⟩ : Manager).focusables.length } ∧
    ((⟨[['a'], ['b'], ['c']], 0, []⟩ : Manager).current = 0 →
      (⟨[['a'], ['b'], ['c']], 0, []⟩ : Manager).Prev.Current.map Prod.fst =
        (⟨[['a'], ['b'], ['c']], 0, []⟩ : Manager).focusables.getLast?) ∧
    (⟨[['a'], ['b'], ['c']], 0, []⟩ : Manager).Next.Prev = ⟨[['a'], ['b'], ['c']], 0, []⟩ ∧
    (⟨[['a'], ['b'], ['c']], 0, []⟩ : Manager).Prev.Next = ⟨[['a'], ['b'], ['c']], 0, []⟩) :=
  ⟨by decide, by decide, focus_prev_wraps ⟨[['a'], ['b'], ['c']], 0, []⟩ (by decide) (by decide)⟩

theorem findKey_some (k : List Char) : ∀ (ks : List (List Char)) (i j : Nat),
    findKey k ks i = some j → ∃ d, j = i + d ∧ ks.get? d = some k := by
  intro ks
  induction ks with
  | nil => intro i j h; simp [findKey] at h
  | cons a ks ih =>
    intro i j h
    by_cases ha : a = k
    · simp only [findKey, ha, if_true, Option.some.injEq] at h
      exact ⟨0, by omega, by simp [ha]⟩
    · simp only [findKey, ha, if_false] at h
      obtain ⟨d, h1, h2⟩ := ih (i + 1) j h
      exact ⟨d + 1, by omega, by simpa using h2⟩

theorem findKey_none (k : List Char) : ∀ (ks : List (List Char)) (i : Nat),
    findKey k ks i = none → k ∉ ks := by
  intro ks
  induction ks with
  | nil => intro i _; simp
  | cons a ks ih =>
    intro i h
    by_cases ha : a = k
    · simp [findKey, ha] at h
    · simp only [findKey, ha, if_false] at h
      simp only [List.mem_cons, not_or]
      exact ⟨fun e => ha e.symm, ih (i + 1) h⟩

theorem current_at_zero (keys : List (List Char)) (stack : List contextEntry) :
    (⟨keys, 0, stack⟩ : Manager).Current.map Prod.fst = some (keys.headD []) := by
  cases keys with
  | nil => simp [Manager.Current]
  | cons a ks => simp [Manager.Current]

theorem update_spec (m : Manager) (tree : LayoutNode) (k : List Char) (m1 : Manager)
    (hcur : m.Current = some (k, m1)) :
    m.Update tree = some ⟨collectFocusables tree [],
      if k ≠ [] then ((findKey k (collectFocusables tree []) 0).getD 0 : Nat) else 0,
      m1.contextStack⟩ := by
  unfold Manager.Update
  rw [hcur, Option.some_bind]
  dsimp only
  by_cases hk : k ≠ []
  · rw [if_pos hk, if_pos hk]
    cases findKey k (collectFocusables tree []) 0 <;> rfl
  · rw [if_neg hk, if_neg hk]

/-- C26: `Update` preserves the current focus if its key still exists: when
`Current` returns `k` before `Update tree`, then after it the focusable list is
the key list of the tree, `Current` returns `k` if `k` is non-empty and occurs in
that list, and otherwise returns the first key of the list, or "" when the list
is empty. -/
theorem update_keeps_focus (m : Manager) (tree : LayoutNode) (k : List Char) (m1 : Manager)
    (hcur : m.Current = some (k, m1)) :
    ∃ m2, m.Update tree = some m2 ∧ m2.focusables = collectFocusables tree [] ∧
      (k ≠ [] → k ∈ collectFocusables tree [] → m2.Current.map Prod.fst = some k) ∧
      (¬ (k ≠ [] ∧ k ∈ collectFocusables tree []) →
        m2.Current.map Prod.fst = some ((collectFocusables tree []).headD [])) := by
  refine ⟨_, update_spec m tree k m1 hcur, rfl, ?_, ?_⟩
  · intro hk hmem
    rw [if_pos hk]
    cases hf : findKey k (collectFocusables tree []) 0 with
    | none => exact absurd hmem (findKey_none k _ 0 hf)
    | some j =>
      obtain ⟨d, h1, h2⟩ := findKey_some k _ 0 j hf
      have hd : d < (collectFocusables tree []).length := by
        by_contra hc
        rw [List.get?_eq_getElem?, List.getElem?_eq_none (by omega)] at h2
        cases h2
      have hj : j = d := by omega
      subst hj
      rw [current_key_in_range _ (by simp) (by simpa using hd)]
      simpa using h2
  · intro hno
    by_cases hk : k ≠ []
    · rw [if_pos hk]
      cases hf : findKey k (collectFocusables tree []) 0 with
      | none => exact current_at_zero _ _
      | some j =>
        exfalso
        obtain ⟨d, -, h2⟩ := findKey_some k _ 0 j hf
        exact hno ⟨hk, List.get?_mem h2⟩
    · rw [if_neg hk]
      exact current_at_zero _ _

/-- Witness of C26: the focus on "b" survives an update with the same tree. -/
theorem update_keeps_focus_witness :
    (⟨[['a'], ['b'], ['c']], 1, []⟩ : Manager).Current =
      some (['b'], ⟨[['a'], ['b'], ['c']], 1, []⟩) ∧
    ∃ m2, (⟨[['a'], ['b'], ['c']], 1, []⟩ : Manager).Update demoFocusTree = some m2 ∧
      m2.focusables = collectFocusables demoFocusTree [] ∧
      (['b'] ≠ [] → ['b'] ∈ collectFocusables demoFocusTree [] →
        m2.Current.map Prod.fst = some ['b']) ∧
      (¬ (['b'] ≠ [] ∧ ['b'] ∈ collectFocusables demoFocusTree []) →
        m2.Current.map Prod.fst = some ((collectFocusables demoFocusTree []).headD [])) :=
  ⟨by decide, update_keeps_focus ⟨[['a'], ['b'], ['c']], 1, []⟩ demoFocusTree ['b']
    ⟨[['a'], ['b'], ['c']], 1, []⟩ (by decide)⟩

mutual
theorem collectFocusables_eq : ∀ (t : LayoutNode) (keys : List (List Char)),
    collectFocusables t keys = keys ++
      ((preorder t).filter fun n => n.Props.Focusable && n.Props.Key ≠ []).map
        fun n => n.Props.Key
  | .mk r n children, keys => by
    simp only [collectFocusables, preorder]
    rw [collectChildren_eq children]
    by_cases h : (n.Props.Focusable && n.Props.Key ≠ []) = true
    · rw [if_pos h]
      simp only [List.filter_cons, h, if_true, List.map_cons, List.append_assoc,
        List.singleton_append]
    · rw [if_neg h]
      simp only [List.filter_cons, h, if_false, Bool.false_eq_true]
theorem collectChildren_eq : ∀ (l : List LayoutNode) (keys : List (List Char)),
    collectChildren l keys = keys ++
      ((preorderList l).filter fun n => n.Props.Focusable && n.Props.Key ≠ []).map
        fun n => n.Props.Key
  | [], keys => by simp [collectChildren, preorderList]
  | child :: rest, keys => by
    simp only [collectChildren, preorderList]
    rw [collectChildren_eq rest, collectFocusables_eq child]
    simp
end

theorem current_total (m : Manager) (hv : m.focusables = [] ∨ 0 ≤ m.current) :
    ∃ k m1, m.Current = some (k, m1) := by
  by_cases he : m.focusables = []
  · exact ⟨[], m, current_empty m he⟩
  · have h0 : 0 ≤ m.current := by
      rcases hv with h | h
      · exact absurd h he
      · exact h
    have hlen : ¬ m.focusables.length = 0 := fun h => he (List.length_eq_zero.1 h)
    have hpos : 0 < m.focusables.length := Nat.pos_of_ne_zero hlen
    by_cases hge : m.current ≥ m.focusables.length
    · refine ⟨m.focusables.get ⟨0, hpos⟩, { m with current := 0 }, ?_⟩
      simp [Manager.Current, hlen, hge, List.getElem?_eq_getElem hpos]
    · have hlt : m.current.toNat < m.focusables.length := by omega
      refine ⟨m.focusables.get ⟨m.current.toNat, hlt⟩, m, ?_⟩
      simp [Manager.Current, hlen, hge, h0, List.getElem?_eq_getElem hlt]

/-- C27 as stated fails: a node marked focusable whose key is empty is
skipped. On the tree of one focusable text without a key, `Update` leaves the
focusable list empty and `FocusableCount` is 0, although one node of the tree
is marked focusable. -/
theorem update_skips_unkeyed :
    NewManager.Update demoUnkeyedTree = some ⟨[], 0, []⟩ ∧
    (⟨[], 0, []⟩ : Manager).FocusableCount = 0 ∧
    ((preorder demoUnkeyedTree).filter fun n => n.Props.Focusable).length = 1 ∧
    ((preorder demoUnkeyedTree).filter fun n => n.Props.Focusable).map
      (fun n => n.Props.Key) = [[]] := by
  decide

/-- C27, amended: after `Update tree` the focusable list is exactly the
sequence of keys of all nodes of the laid-out tree that are marked focusable
and have a non-empty key, in pre-order; `FocusableCount` is the number of such
nodes. -/
theorem update_collects_keyed (m : Manager) (tree : LayoutNode)
    (hv : m.focusables = [] ∨ 0 ≤ m.current) :
    ∃ m2, m.Update tree = some m2 ∧
      m2.focusables = ((preorder tree).filter
        fun n => n.Props.Focusable && n.Props.Key ≠ []).map (fun n => n.Props.Key) ∧
      m2.FocusableCount = ((preorder tree).filter
        fun n => n.Props.Focusable && n.Props.Key ≠ []).length := by
  obtain ⟨k, m1, hcur⟩ := current_total m hv
  have hkeys := collectFocusables_eq tree []
  simp only [List.nil_append] at hkeys
  refine ⟨_, update_spec m tree k m1 hcur, hkeys, ?_⟩
  simp only [Manager.FocusableCount, hkeys, List.length_map]

/-- Witness of the amended C27: a fresh manager and the column "a", "b", "c". -/
theorem update_collects_keyed_witness :
    (NewManager.focusables = [] ∨ 0 ≤ NewManager.current) ∧
    ∃ m2, NewManager.Update demoFocusTree = some m2 ∧
      m2.focusables = ((preorder demoFocusTree).filter
        fun n => n.Props.Focusable && n.Props.Key ≠ []).map (fun n => n.Props.Key) ∧
      m2.FocusableCount = ((preorder demoFocusTree).filter
        fun n => n.Props.Focusable && n.Props.Key ≠ []).length :=
  ⟨by decide, update_collects_keyed NewManager demoFocusTree (by decide)⟩

theorem next_frame (m : Manager) :
    m.Next.focusables = m.focusables ∧ m.Next.contextStack = m.contextStack := by
  unfold Manager.Next
  split <;> exact ⟨rfl, rfl⟩

theorem prev_frame (m : Manager) :
    m.Prev.focusables = m.focusables ∧ m.Prev.contextStack = m.contextStack := by
  unfold Manager.Prev
  split <;> exact ⟨rfl, rfl⟩

theorem applyFocusOps_frame (ops : List FocusOp) : ∀ m : Manager,
    (applyFocusOps ops m).focusables = m.focusables ∧
    (applyFocusOps ops m).contextStack = m.contextStack := by
  induction ops with
  | nil => intro m; exact ⟨rfl, rfl⟩
  | cons op ops ih =>
    intro m
    cases op with
    | next =>
      have h := ih m.Next
      have h2 := next_frame m
      exact ⟨h.1.trans h2.1, h.2.trans h2.2⟩
    | prev =>
      have h := ih m.Prev
      have h2 := prev_frame m
      exact ⟨h.1.trans h2.1, h.2.trans h2.2⟩

theorem popContext_concat (m : Manager) (s : List contextEntry) (e : contextEntry)
    (h : m.contextStack = s ++ [e]) :
    m.PopContext = ⟨e.focusables, e.current, s⟩ := by
  unfold Manager.PopContext
  rw [h]
  simp

/-- C28: `PushContext tree` followed by `PopContext` restores the previous
focus context, whatever `Next` and `Prev` calls happened in between: the whole
manager (focusable list, current index, context stack) is the one before the
push. After `PushContext tree` the focus is on the first focusable of the
pushed tree (or "" when it has none), and `PopContext` on an empty stack leaves
the manager unchanged. -/
theorem push_pop_restores (m : Manager) (tree : LayoutNode) (ops : List FocusOp) :
    (applyFocusOps ops (m.PushContext tree)).PopContext = m ∧
    (applyFocusOps ops (m.PushContext tree)).PopContext.Current = m.Current ∧
    (m.PushContext tree).focusables = collectFocusables tree [] ∧
    (m.PushContext tree).Current.map Prod.fst = some ((collectFocusables tree []).headD []) ∧
    (m.contextStack = [] → m.PopContext = m) := by
  have hpop : (applyFocusOps ops (m.PushContext tree)).PopContext = m := by
    have h := (applyFocusOps_frame ops (m.PushContext tree)).2
    have h2 : (m.PushContext tree).contextStack = m.contextStack ++ [⟨m.focusables, m.current⟩] :=
      rfl
    rw [popContext_concat _ _ _ (h.trans h2)]
  refine ⟨hpop, by rw [hpop], rfl, current_at_zero _ _, ?_⟩
  intro h
  unfold Manager.PopContext
  rw [h]
  rfl

/-- Witness of C28: a manager focused on "b" enters the context of the column
"a", "b", "c", moves the focus three times and leaves the context again. -/
theorem push_pop_restores_witness :
    (applyFocusOps [.next, .next, .prev]
      ((⟨[['x'], ['b']], 1, []⟩ : Manager).PushContext demoFocusTree)).PopContext =
      ⟨[['x'], ['b']], 1, []⟩ ∧
    ((⟨[['x'], ['b']], 1, []⟩ : Manager).PushContext demoFocusTree).Current.map Prod.fst =
      some ['a'] ∧
    (⟨[['x'], ['b']], 1, []⟩ : Manager).PopContext = ⟨[['x'], ['b']], 1, []⟩ :=
  ⟨(push_pop_restores ⟨[['x'], ['b']], 1, []⟩ demoFocusTree [.next, .next, .prev]).1,
   (push_pop_restores ⟨[['x'], ['b']], 1, []⟩ demoFocusTree [.next, .next, .prev]).2.2.2.1,
   (push_pop_restores ⟨[['x'], ['b']], 1, []⟩ demoFocusTree [.next, .next, .prev]).2.2.2.2 rfl⟩

theorem sameExcept_of_fields (S : List Attr) (a b : Node) (ht : a.Type_ = b.Type_)
    (hc : a.Children = b.Children)
    (hp : ∀ x, x ∉ S → Props.attrEq x a.Props b.Props) : Node.SameExcept S a b :=
  ⟨ht, hc, hp⟩

/-- C29: each decorator returns a node equal to its receiver except for the
one attribute it sets (`WithKey`: Key; `WithFlex`: FlexWeight; `WithSize`: Width
and Height; `WithFocusable`: Focusable = true; `WithScrollOffset`: ScrollOffset;
`WithScrollToBottom`: ScrollToBottom = true): type, children and every other
property are unchanged, and decorators for different attributes commute. -/
theorem decorators_frame_commute (n : Node) (key : List Char) (weight w h offset : Int) :
    ((n.WithKey key).Props.Key = key ∧ Node.SameExcept [.Key] (n.WithKey key) n) ∧
    ((n.WithFlex weight).Props.FlexWeight = weight ∧
      Node.SameExcept [.FlexWeight] (n.WithFlex weight) n) ∧
    ((n.WithSize w h).Props.Width = w ∧ (n.WithSize w h).Props.Height = h ∧
      Node.SameExcept [.Width, .Height] (n.WithSize w h) n) ∧
    (n.WithFocusable.Props.Focusable = true ∧
      Node.SameExcept [.Focusable] n.WithFocusable n) ∧
    ((n.WithScrollOffset offset).Props.ScrollOffset = offset ∧
      Node.SameExcept [.ScrollOffset] (n.WithScrollOffset offset) n) ∧
    (n.WithScrollToBottom.Props.ScrollToBottom = true ∧
      Node.SameExcept [.ScrollToBottom] n.WithScrollToBottom n) ∧
    ((n.WithKey key).WithFlex weight = (n.WithFlex weight).WithKey key ∧
      (n.WithKey key).WithSize w h = (n.WithSize w h).WithKey key ∧
      (n.WithKey key).WithFocusable = n.WithFocusable.WithKey key ∧
      (n.WithKey key).WithScrollOffset offset = (n.WithScrollOffset offset).WithKey key ∧
      (n.WithKey key).WithScrollToBottom = n.WithScrollToBottom.WithKey key ∧
      (n.WithFlex weight).WithSize w h = (n.WithSize w h).WithFlex weight ∧
      (n.WithFlex weight).WithFocusable = n.WithFocusable.WithFlex weight ∧
      (n.WithFlex weight).WithScrollOffset offset =
        (n.WithScrollOffset offset).WithFlex weight ∧
      (n.WithFlex weight).WithScrollToBottom = n.WithScrollToBottom.WithFlex weight ∧
      (n.WithSize w h).WithFocusable = n.WithFocusable.WithSize w h ∧
      (n.WithSize w h).WithScrollOffset offset = (n.WithScrollOffset offset).WithSize w h ∧
      (n.WithSize w h).WithScrollToBottom = n.WithScrollToBottom.WithSize w h ∧
      n.WithFocusable.WithScrollOffset offset = (n.WithScrollOffset offset).WithFocusable ∧
      n.WithFocusable.WithScrollToBottom = n.WithScrollToBottom.WithFocusable ∧
      (n.WithScrollOffset offset).WithScrollToBottom =
        n.WithScrollToBottom.WithScrollOffset offset) := by
  obtain ⟨t, p, c⟩ := n
  refine ⟨⟨rfl, ?_⟩, ⟨rfl, ?_⟩, ⟨rfl, rfl, ?_⟩, ⟨rfl, ?_⟩, ⟨rfl, ?_⟩, ⟨rfl, ?_⟩,
    rfl, rfl, rfl, rfl, rfl, rfl, rfl, rfl, rfl, rfl, rfl, rfl, rfl, rfl, rfl⟩ <;>
  · refine sameExcept_of_fields _ _ _ rfl rfl ?_
    intro x hx
    cases x <;> first | rfl | (exfalso; simp at hx)

/-- Witness of C29: the decorators on a box node with every attribute set;
chaining key, flex and size in two orders gives the same node, with the type
and the two children of the receiver. -/
theorem decorators_frame_commute_witness :
    ((demoNode.WithKey ['z']).WithFlex 2).WithSize 7 8 =
      ((demoNode.WithSize 7 8).WithFlex 2).WithKey ['z'] ∧
    (demoNode.WithKey ['z']).Props.Key = ['z'] ∧
    Node.SameExcept [.Key] (demoNode.WithKey ['z']) demoNode ∧
    Node.SameExcept [.Width, .Height] (demoNode.WithSize 7 8) demoNode :=
  ⟨rfl,
   (decorators_frame_commute demoNode ['z'] 2 7 8 9).1.1,
   (decorators_frame_commute demoNode ['z'] 2 7 8 9).1.2,
   (decorators_frame_commute demoNode ['z'] 2 7 8 9).2.2.1.2.2⟩

theorem decodeRune_size_pos (data : List Nat) (h : data ≠ []) : 1 ≤ (decodeRune data).2 := by
  have hl : ¬ data.length = 0 := fun e => h (List.length_eq_zero.1 e)
  unfold decodeRune
  rw [if_neg hl]
  dsimp only
  split
  · exact Nat.le_refl 1
  · split
    · exact Nat.le_refl 1
    · rename_i size r heq
      split
      · exact Nat.le_refl 1
      · dsimp only
        split at heq
        · cases heq; omega
        · split at heq
          · cases heq; omega
          · split at heq
            · cases heq; omega
            · cases heq

theorem parseStep_advance (data : List Nat) (i : Nat) (keys : List Key)
    (hi : i < data.length) : i < (parseStep data i keys).1 := by
  have hne : data.drop i ≠ [] := by
    intro e
    have := congrArg List.length e
    simp at this
    omega
  have hd := decodeRune_size_pos _ hne
  unfold parseStep
  dsimp only
  split
  · split
    · rename_i r heq
      split at heq
      · split at heq
        · cases heq; dsimp only; omega
        · cases heq
      · cases heq
    · split <;> dsimp only <;> omega
  · repeat (first | (dsimp only; omega) | split)

theorem parseLoop_fuel (data : List Nat) : ∀ (f1 f2 i : Nat) (keys : List Key),
    data.length - i ≤ f1 → data.length - i ≤ f2 →
    parseLoop data f1 i keys = parseLoop data f2 i keys := by
  intro f1
  induction f1 with
  | zero =>
    intro f2 i keys h1 _
    have hi : ¬ i < data.length := by omega
    cases f2 with
    | zero => rfl
    | succ f2 => simp only [parseLoop, if_neg hi]
  | succ f1 ih =>
    intro f2 i keys h1 h2
    by_cases hi : i < data.length
    · cases f2 with
      | zero => omega
      | succ f2 =>
        have hadv := parseStep_advance data i keys hi
        simp only [parseLoop, if_pos hi]
        exact ih f2 _ _ (by omega) (by omega)
    · cases f2 with
      | zero => simp only [parseLoop, if_neg hi]
      | succ f2 => simp only [parseLoop, if_neg hi]

theorem decodeRune_ascii (b : Nat) (rest : List Nat) (hb : b < 0x80) :
    decodeRune (b :: rest) = ((b : Int), 1) := by
  unfold decodeRune
  simp [hb]

theorem parseStep_printable (data : List Nat) (i : Nat) (keys : List Key)
    (hi : i < data.length) (hlo : 0x20 ≤ data.getD i 0) (hhi : data.getD i 0 ≤ 0x7E) :
    parseStep data i keys = (i + 1, keys ++ [⟨RuneKey, (data.getD i 0 : Nat)⟩]) := by
  have hdrop : data.drop i = data.getD i 0 :: data.drop (i + 1) := by
    rw [List.getD_eq_getElem _ _ hi]
    exact List.drop_eq_getElem_cons hi
  have hdec : decodeRune (data.drop i) = (((data.getD i 0 : Nat) : Int), 1) := by
    rw [hdrop]
    exact decodeRune_ascii _ _ (by omega)
  unfold parseStep
  dsimp only
  rw [if_neg (by omega), if_neg (by omega), if_neg (by omega), if_neg (by omega),
    if_neg (by omega), if_neg (by omega), if_neg (by omega), if_neg (by omega),
    if_pos (by omega), hdec]

theorem parseLoop_printable (data : List Nat)
    (h : ∀ b ∈ data, 0x20 ≤ b ∧ b ≤ 0x7E) : ∀ (fuel i : Nat) (keys : List Key),
    data.length - i ≤ fuel →
    parseLoop data fuel i keys = keys ++ (data.drop i).map fun b => ⟨RuneKey, ((b : Nat) : Int)⟩ := by
  intro fuel
  induction fuel with
  | zero =>
    intro i keys hf
    have hi : data.length ≤ i := by omega
    simp [parseLoop, List.drop_of_length_le hi]
  | succ fuel ih =>
    intro i keys hf
    by_cases hi : i < data.length
    · have hmem : data.getD i 0 ∈ data := by
        rw [List.getD_eq_getElem _ _ hi]
        exact List.getElem_mem hi
      obtain ⟨hlo, hhi⟩ := h _ hmem
      have hdrop : data.drop i = data.getD i 0 :: data.drop (i + 1) := by
        rw [List.getD_eq_getElem _ _ hi]
        exact List.drop_eq_getElem_cons hi
      simp only [parseLoop, if_pos hi, parseStep_printable data i keys hi hlo hhi]
      rw [ih (i + 1) _ (by omega), hdrop]
      simp
    · have hi2 : data.length ≤ i := by omega
      simp [parseLoop, hi, List.drop_of_length_le hi2]

/-- C30: for every byte string consisting only of printable ASCII bytes
(0x20..0x7E), `parseInput` returns exactly one key per byte, in order, each of
type `RuneKey` with `Rune` equal to that byte; the loop needs no more than
`len(data)` iterations for it. -/
theorem parseInput_printable (data : List Nat) (h : ∀ b ∈ data, 0x20 ≤ b ∧ b ≤ 0x7E) :
    parseInput data = data.map (fun b => ⟨RuneKey, ((b : Nat) : Int)⟩) ∧
    ∀ fuel, data.length ≤ fuel → parseLoop data fuel 0 [] = parseInput data := by
  have hmain : parseInput data = data.map (fun b => ⟨RuneKey, ((b : Nat) : Int)⟩) := by
    unfold parseInput
    rw [parseLoop_printable data h data.length 0 [] (by omega)]
    simp
  refine ⟨hmain, ?_⟩
  intro fuel hf
  unfold parseInput
  exact parseLoop_fuel data fuel data.length 0 [] (by omega) (by omega)

/-- Witness of C30: the three bytes of "abc" give the three rune keys a, b, c. -/
theorem parseInput_printable_witness :
    (∀ b ∈ demoBytes, 0x20 ≤ b ∧ b ≤ 0x7E) ∧
    parseInput demoBytes = [⟨RuneKey, 0x61⟩, ⟨RuneKey, 0x62⟩, ⟨RuneKey, 0x63⟩] :=
  ⟨by decide, (parseInput_printable demoBytes (by decide)).1⟩

theorem getD_shift (pre data : List Nat) (j : Nat) :
    (pre ++ data).getD (pre.length + j) 0 = data.getD j 0 := by
  simp [List.getD_eq_getElem?_getD, List.getElem?_append_right]

theorem drop_shift (pre data : List Nat) (j : Nat) :
    (pre ++ data).drop (pre.length + j) = data.drop j := by
  rw [← List.drop_drop]
  simp

theorem parseStep_shift (pre data : List Nat) (i : Nat) (keys : List Key) :
    parseStep (pre ++ data) (pre.length + i) keys =
      (pre.length + (parseStep data i []).1, keys ++ (parseStep data i []).2) := by
  have e1 : pre.length + i + 1 = pre.length + (i + 1) := rfl
  have e2 : pre.length + i + 2 = pre.length + (i + 2) := rfl
  have e3 : ∀ a b : Nat, (pre.length + a < pre.length + b) = (a < b) := by
    intro a b; simp
  unfold parseStep
  simp only [getD_shift, e1, e2, drop_shift, List.length_append, e3, List.nil_append]
  by_cases h1 : data.getD i 0 = 0x1b
  · simp only [h1, if_true]
    by_cases h2 : i + 1 < data.length ∧ data.getD (i + 1) 0 = 0x5b
    · simp only [h2, and_self, if_true]
      by_cases h3 : (parseCSI (List.drop (i + 2) data)).2 > 0
      · simp only [h3, if_true, List.nil_append, Nat.add_assoc]
      · simp only [h3, if_false]
        split <;> simp [Nat.add_assoc]
    · simp only [h2, if_false]
      split <;> simp [Nat.add_assoc]
  · simp only [h1, if_false]
    repeat (first | split | simp [Nat.add_assoc])

theorem parseLoop_shift (fuel : Nat) : ∀ (pre data : List Nat) (i : Nat) (keys : List Key),
    parseLoop (pre ++ data) fuel (pre.length + i) keys = keys ++ parseLoop data fuel i [] := by
  induction fuel with
  | zero => intro pre data i keys; simp [parseLoop]
  | succ fuel ih =>
    intro pre data i keys
    by_cases hi : i < data.length
    · have hi2 : pre.length + i < (pre ++ data).length := by
        rw [List.length_append]; omega
      simp only [parseLoop, if_pos hi, if_pos hi2, parseStep_shift]
      rw [ih pre data]
      have h := ih [] data (parseStep data i []).1 (parseStep data i []).2
      simp only [List.nil_append, List.length_nil, Nat.zero_add] at h
      rw [h, List.append_assoc]
    · have hi2 : ¬ pre.length + i < (pre ++ data).length := by
        rw [List.length_append]; omega
      simp only [parseLoop, if_neg hi, if_neg hi2, List.append_nil]

theorem parseInput_cons_of_step (t rest : List Nat) (k : Key) (ht : t ≠ [])
    (hstep : parseStep (t ++ rest) 0 [] = (t.length, [k])) :
    parseInput (t ++ rest) = k :: parseInput rest := by
  have hlen : 0 < t.length := List.length_pos.2 ht
  unfold parseInput
  obtain ⟨f, hf⟩ : ∃ f, (t ++ rest).length = f + 1 :=
    ⟨t.length - 1 + rest.length, by rw [List.length_append]; omega⟩
  have h0 : 0 < (t ++ rest).length := by omega
  rw [hf]
  simp only [parseLoop, if_pos h0, hstep]
  have h := parseLoop_shift f t rest 0 [k]
  simp only [Nat.add_zero] at h
  rw [h, parseLoop_fuel rest f rest.length 0 [] (by rw [List.length_append] at hf; omega)
    (by omega)]
  rfl

/-- C31: `parseInput` tokenizes recognised key sequences one at a time: for the
sequences ESC[A, ESC[B, ESC[C, ESC[D, ESC[Z, ESC[5~, CR, TAB, 0x7F and 0x03
followed by any bytes `rest`, the result is the key of type Up, Down, Right,
Left, ShiftTab, PageUp, Enter, Tab, Backspace, CtrlC followed by the keys of
`rest`; a lone ESC byte yields exactly one Escape key. -/
theorem parseInput_tokenizes (rest : List Nat) :
    parseInput ([0x1b, 0x5b, 0x41] ++ rest) = { Type_ := Up } :: parseInput rest ∧
    parseInput ([0x1b, 0x5b, 0x42] ++ rest) = { Type_ := Down } :: parseInput rest ∧
    parseInput ([0x1b, 0x5b, 0x43] ++ rest) = { Type_ := Right } :: parseInput rest ∧
    parseInput ([0x1b, 0x5b, 0x44] ++ rest) = { Type_ := Left } :: parseInput rest ∧
    parseInput ([0x1b, 0x5b, 0x5a] ++ rest) = { Type_ := ShiftTab } :: parseInput rest ∧
    parseInput ([0x1b, 0x5b, 0x35, 0x7e] ++ rest) = { Type_ := PageUp } :: parseInput rest ∧
    parseInput ([0x0d] ++ rest) = { Type_ := Enter } :: parseInput rest ∧
    parseInput ([0x09] ++ rest) = { Type_ := Tab } :: parseInput rest ∧
    parseInput ([0x7f] ++ rest) = { Type_ := Backspace } :: parseInput rest ∧
    parseInput ([0x03] ++ rest) = { Type_ := CtrlC } :: parseInput rest ∧
    parseInput [0x1b] = [{ Type_ := Escape }] := by
  refine ⟨?_, ?_, ?_, ?_, ?_, ?_, ?_, ?_, ?_, ?_, by decide⟩ <;>
  · refine parseInput_cons_of_step _ rest _ (by simp) ?_
    simp [parseStep, parseCSI]

/-- Instance of C31: the arrow-up sequence followed by the bytes of "abc", and
each recognised sequence alone. -/
theorem parseInput_tokenizes_witness :
    parseInput ([0x1b, 0x5b, 0x41] ++ demoBytes) =
      [{ Type_ := Up }, ⟨RuneKey, 0x61⟩, ⟨RuneKey, 0x62⟩, ⟨RuneKey, 0x63⟩] ∧
    parseInput [0x1b, 0x5b, 0x35, 0x7e] = [{ Type_ := PageUp }] ∧
    parseInput [0x7f] = [{ Type_ := Backspace }] :=
  ⟨(parseInput_tokenizes demoBytes).1,
   (parseInput_tokenizes []).2.2.2.2.2.1,
   (parseInput_tokenizes []).2.2.2.2.2.2.2.2.1⟩

/-- Over the unbounded integers `intersect a b` holds exactly the points of
`a` and `b`, has no negative width or height, and is commutative. -/
theorem intersect_is_meet (a b : Rect) :
    (∀ x y : Int, (intersect a b).contains x y ↔ a.contains x y ∧ b.contains x y) ∧
    0 ≤ (intersect a b).W ∧ 0 ≤ (intersect a b).H ∧
    intersect a b = intersect b a := by
  refine ⟨intersect_contains a b, ?_, ?_, ?_⟩
  · unfold intersect
    dsimp only
    split
    · exact Int.le_refl 0
    · dsimp only; omega
  · unfold intersect
    dsimp only
    split
    · exact Int.le_refl 0
    · dsimp only; omega
  · unfold intersect
    rw [max_comm a.X b.X, max_comm a.Y b.Y, min_comm (a.X + a.W) (b.X + b.W),
      min_comm (a.Y + a.H) (b.Y + b.H)]

/-- Two overlapping rectangles, and a rectangle of negative size, whose
intersection with anything is the empty rectangle. -/
theorem intersect_is_meet_witness :
    intersect ⟨0, 0, 10, 5⟩ ⟨4, 2, 10, 10⟩ = ⟨4, 2, 6, 3⟩ ∧
    intersect ⟨0, 0, 10, 5⟩ ⟨4, 2, 10, 10⟩ = intersect ⟨4, 2, 10, 10⟩ ⟨0, 0, 10, 5⟩ ∧
    0 ≤ (intersect ⟨0, 0, -3, 5⟩ ⟨0, 0, 10, 10⟩).W :=
  ⟨by decide, (intersect_is_meet ⟨0, 0, 10, 5⟩ ⟨4, 2, 10, 10⟩).2.2.2,
   (intersect_is_meet ⟨0, 0, -3, 5⟩ ⟨0, 0, 10, 10⟩).2.1⟩

theorem current_of_valid (m : Manager) (hv : validIndex m.focusables m.current) :
    ∃ k, m.Current = some (k, m) ∧ (m.focusables = [] → k = []) ∧
      (m.focusables ≠ [] → m.focusables.get? m.current.toNat = some k) := by
  by_cases he : m.focusables = []
  · exact ⟨[], current_empty m he, fun _ => rfl, fun h => absurd he h⟩
  · have hlt : m.current < m.focusables.length := by
      rcases hv.2 with h | h
      · exact absurd h he
      · exact h
    have hn : m.current.toNat < m.focusables.length := by
      have := hv.1
      omega
    refine ⟨m.focusables.get ⟨m.current.toNat, hn⟩, ?_, fun h => absurd h he, fun _ => ?_⟩
    · rw [current_in_range m hv.1 hlt]
      simp [List.getElem?_eq_getElem hn]
    · simp [List.getElem?_eq_getElem hn]

theorem next_valid (m : Manager) (hv : validIndex m.focusables m.current) :
    validIndex m.Next.focusables m.Next.current := by
  by_cases he : m.focusables = []
  · have : m.Next = m := by simp [Manager.Next, he]
    rw [this]; exact hv
  · rw [next_in_range m hv.1 he]
    have hpos : (0 : Int) < m.focusables.length := by
      have := List.length_pos.2 he
      omega
    exact ⟨Int.emod_nonneg _ (by omega), Or.inr (Int.emod_lt_of_pos _ hpos)⟩

theorem prev_valid (m : Manager) (hv : validIndex m.focusables m.current) :
    validIndex m.Prev.focusables m.Prev.current := by
  by_cases he : m.focusables = []
  · have : m.Prev = m := by simp [Manager.Prev, he]
    rw [this]; exact hv
  · rw [prev_in_range m hv.1 he]
    have hpos : (0 : Int) < m.focusables.length := by
      have := List.length_pos.2 he
      omega
    exact ⟨Int.emod_nonneg _ (by omega), Or.inr (Int.emod_lt_of_pos _ hpos)⟩

theorem validIndex_zero (keys : List (List Char)) : validIndex keys 0 := by
  refine ⟨Int.le_refl 0, ?_⟩
  cases keys with
  | nil => exact Or.inl rfl
  | cons a l => right; simp

theorem update_valid (m : Manager) (tree : LayoutNode) (hinv : m.Inv) :
    ∃ m2, m.Update tree = some m2 ∧ m2.Inv := by
  obtain ⟨k, hcur, -, -⟩ := current_of_valid m hinv.1
  refine ⟨_, update_spec m tree k m hcur, ?_, hinv.2⟩
  dsimp only
  by_cases hk : k ≠ []
  · rw [if_pos hk]
    cases hf : findKey k (collectFocusables tree []) 0 with
    | none => exact validIndex_zero _
    | some j =>
      obtain ⟨d, h1, h2⟩ := findKey_some k _ 0 j hf
      have hd : d < (collectFocusables tree []).length := by
        by_contra hc
        rw [List.get?_eq_getElem?, List.getElem?_eq_none (by omega)] at h2
        cases h2
      refine ⟨by simp, Or.inr ?_⟩
      simp only [Option.getD_some]
      omega
  · rw [if_neg hk]
    exact validIndex_zero _

theorem pop_inv (m : Manager) (hinv : m.Inv) : m.PopContext.Inv := by
  rcases List.eq_nil_or_concat m.contextStack with h | ⟨s, e, h⟩
  · have : m.PopContext = m := by simp [Manager.PopContext, h]
    rw [this]; exact hinv
  · rw [popContext_concat m s e (by rw [h]; simp)]
    refine ⟨hinv.2 e (by rw [h]; simp), ?_⟩
    intro e1 he1
    exact hinv.2 e1 (by rw [h]; simp [he1])

theorem call_inv (m : Manager) (op : ManagerOp) (hinv : m.Inv) :
    ∃ m2, m.call op = some m2 ∧ m2.Inv := by
  cases op with
  | update tree => exact update_valid m tree hinv
  | next =>
    refine ⟨m.Next, rfl, next_valid m hinv.1, ?_⟩
    rw [(next_frame m).2]; exact hinv.2
  | prev =>
    refine ⟨m.Prev, rfl, prev_valid m hinv.1, ?_⟩
    rw [(prev_frame m).2]; exact hinv.2
  | pushContext tree =>
    refine ⟨m.PushContext tree, rfl, validIndex_zero _, ?_⟩
    intro e he
    have he2 : e ∈ m.contextStack ++ [⟨m.focusables, m.current⟩] := he
    rcases List.mem_append.1 he2 with h | h
    · exact hinv.2 e h
    · rw [List.mem_singleton.1 h]; exact hinv.1
  | popContext => exact ⟨m.PopContext, rfl, pop_inv m hinv⟩
  | current =>
    obtain ⟨k, hcur, -, -⟩ := current_of_valid m hinv.1
    exact ⟨m, by simp [Manager.call, hcur], hinv⟩

theorem calls_inv (ops : List ManagerOp) : ∀ m : Manager, m.Inv →
    ∃ m2, Manager.calls ops m = some m2 ∧ m2.Inv := by
  induction ops with
  | nil => intro m h; exact ⟨m, rfl, h⟩
  | cons op ops ih =>
    intro m h
    obtain ⟨m1, h1, hinv1⟩ := call_inv m op h
    obtain ⟨m2, h2, hinv2⟩ := ih m1 hinv1
    exact ⟨m2, by simp [Manager.calls, h1, h2], hinv2⟩

/-- C36: every sequence of calls of `Update`, `Next`, `Prev`, `PushContext`,
`PopContext` and `Current` on a new manager runs without a panic, and in the
state it reaches the current index satisfies `0 ≤ current` and the focusable
list is empty or `current` is below its length. Hence `Current` indexes in
range and returns the key at `current` without taking its reset branch (the
state is unchanged), and with no focusables `Current` is "" and `Next` and
`Prev` leave the state unchanged. -/
theorem focus_index_in_range (ops : List ManagerOp) :
    ∃ m, Manager.calls ops NewManager = some m ∧
      0 ≤ m.current ∧ (m.focusables = [] ∨ m.current < m.focusables.length) ∧
      ¬ (m.focusables.length ≠ 0 ∧ m.current ≥ m.focusables.length) ∧
      (∃ k, m.Current = some (k, m) ∧ (m.focusables = [] → k = []) ∧
        (m.focusables ≠ [] → m.focusables.get? m.current.toNat = some k)) ∧
      (m.focusables = [] → m.Next = m ∧ m.Prev = m) := by
  have h0 : NewManager.Inv := by
    refine ⟨validIndex_zero _, ?_⟩
    intro e he
    simp [NewManager] at he
  obtain ⟨m, hm, hinv⟩ := calls_inv ops NewManager h0
  refine ⟨m, hm, hinv.1.1, hinv.1.2, ?_, current_of_valid m hinv.1, ?_⟩
  · rintro ⟨hne, hge⟩
    rcases hinv.1.2 with h | h
    · exact hne (by rw [h]; rfl)
    · omega
  · intro he
    constructor
    · simp [Manager.Next, he]
    · simp [Manager.Prev, he]

/-- Instance of C36: update with the column "a", "b", "c", step back to "c",
enter a context on an empty-keyed tree, step forward, and leave it again. -/
theorem focus_index_in_range_witness :
    Manager.calls [.update demoFocusTree, .prev, .pushContext demoUnkeyedTree, .next,
      .current, .popContext] NewManager = some ⟨[['a'], ['b'], ['c']], 2, []⟩ ∧
    ∃ m, Manager.calls [.update demoFocusTree, .prev] NewManager = some m ∧
      0 ≤ m.current ∧ (m.focusables = [] ∨ m.current < m.focusables.length) ∧
      ¬ (m.focusables.length ≠ 0 ∧ m.current ≥ m.focusables.length) ∧
      (∃ k, m.Current = some (k, m) ∧ (m.focusables = [] → k = []) ∧
        (m.focusables ≠ [] → m.focusables.get? m.current.toNat = some k)) ∧
      (m.focusables = [] → m.Next = m ∧ m.Prev = m) :=
  ⟨by decide, focus_index_in_range [.update demoFocusTree, .prev]⟩

theorem fields_leading_word (leading w : List Char) (hlead : ∀ c ∈ leading, isSpace c = true)
    (hw : w ≠ [] ∧ ∀ c ∈ w, isSpace c = false) : fields (leading ++ w) = [w] := by
  unfold fields
  rw [ fieldsAux_spaces_prefix leading hlead, fieldsAux_word w hw.2]
  simp [hw.1]

theorem wrapWords_two_words (leading : List Char) (hlead : ∀ c ∈ leading, isSpace c = true)
    (maxWidth : Int) :
    ∀ (ws : List (List Char)) (line : List Char) (lineLen : Int),
      lineLen = runeCount line →
      (∀ w ∈ ws, w ≠ [] ∧ ∀ c ∈ w, isSpace c = false) →
      (2 ≤ (fields line).length → runeCount line ≤ maxWidth) →
      ∀ l ∈ wrapWords leading maxWidth line lineLen ws,
        2 ≤ (fields l).length → runeCount l ≤ maxWidth := by
  intro ws
  induction ws with
  | nil =>
    intro line lineLen _ _ hline l hl
    simp only [wrapWords, List.mem_singleton] at hl
    rw [hl]; exact hline
  | cons w ws ih =>
    intro line lineLen hlen hws hline l hl
    have hws2 : ∀ w ∈ ws, w ≠ [] ∧ ∀ c ∈ w, isSpace c = false :=
      fun v hv => hws v (List.mem_cons_of_mem _ hv)
    simp only [wrapWords] at hl
    by_cases hfit : lineLen + 1 + runeCount w ≤ maxWidth
    · rw [if_pos hfit] at hl
      have hcount : lineLen + 1 + runeCount w = runeCount (line ++ ' ' :: w) := by
        rw [hlen]
        simp only [runeCount, List.length_append, List.length_cons]
        push_cast
        omega
      exact ih _ _ hcount hws2 (fun _ => by rw [← hcount]; exact hfit) l hl
    · rw [if_neg hfit] at hl
      rcases List.mem_cons.1 hl with h | h
      · rw [h]; exact hline
      · have hcount : runeCount leading + runeCount w = runeCount (leading ++ w) := by
          simp only [runeCount, List.length_append]
          push_cast
          rfl
        refine ih _ _ hcount hws2 ?_ l h
        intro h2
        rw [fields_leading_word leading w hlead (hws w (List.mem_cons_self _ _))] at h2
        simp at h2

theorem wrapWords_fits (leading : List Char) (maxWidth : Int) :
    ∀ (ws : List (List Char)) (line : List Char) (lineLen : Int),
      lineLen = runeCount line → runeCount line ≤ maxWidth →
      (∀ w ∈ ws, runeCount (leading ++ w) ≤ maxWidth) →
      ∀ l ∈ wrapWords leading maxWidth line lineLen ws, runeCount l ≤ maxWidth := by
  intro ws
  induction ws with
  | nil =>
    intro line lineLen _ hline _ l hl
    simp only [wrapWords, List.mem_singleton] at hl
    rw [hl]; exact hline
  | cons w ws ih =>
    intro line lineLen hlen hline hws l hl
    have hws2 : ∀ w ∈ ws, runeCount (leading ++ w) ≤ maxWidth :=
      fun v hv => hws v (List.mem_cons_of_mem _ hv)
    simp only [wrapWords] at hl
    by_cases hfit : lineLen + 1 + runeCount w ≤ maxWidth
    · rw [if_pos hfit] at hl
      have hcount : lineLen + 1 + runeCount w = runeCount (line ++ ' ' :: w) := by
        rw [hlen]
        simp only [runeCount, List.length_append, List.length_cons]
        push_cast
        omega
      exact ih _ _ hcount (by rw [← hcount]; exact hfit) hws2 l hl
    · rw [if_neg hfit] at hl
      rcases List.mem_cons.1 hl with h | h
      · rw [h]; exact hline
      · have hcount : runeCount leading + runeCount w = runeCount (leading ++ w) := by
          simp only [runeCount, List.length_append]
          push_cast
          rfl
        exact ih _ _ hcount (hws w (List.mem_cons_self _ _)) hws2 l h

theorem wrapLine_two_words (maxWidth : Int) (raw : List Char) :
    ∀ l ∈ wrapLine maxWidth raw, 2 ≤ (fields l).length → runeCount l ≤ maxWidth := by
  intro l hl h2
  have htake : raw.take (raw.length - (trimLeft raw).length) = leadingRun raw :=
    take_length_sub_dropWhile _ raw
  have hlead : ∀ c ∈ leadingRun raw, isSpace c = true := leading_isSpace raw
  have hEmpty : fields (leadingRun raw) = [] := by
    have := fieldsAux_spaces_prefix (leadingRun raw) hlead []
    simpa [fields, fieldsAux] using this
  simp only [wrapLine, htake] at hl
  by_cases ht : trimLeft raw = []
  · simp only [ht, if_true, List.mem_singleton] at hl
    rw [hl, hEmpty] at h2
    simp at h2
  · simp only [ht, if_false] at hl
    cases hf : fields (trimLeft raw) with
    | nil =>
      rw [hf] at hl
      simp only [List.mem_singleton] at hl
      rw [hl, hEmpty] at h2
      simp at h2
    | cons w0 ws =>
      rw [hf] at hl
      simp only [] at hl
      have hgood := fieldsAux_good (trimLeft raw) [] (by simp)
      have hall : ∀ w ∈ w0 :: ws, w ≠ [] ∧ ∀ c ∈ w, isSpace c = false := by
        intro w hw
        apply hgood w
        show w ∈ fields (trimLeft raw)
        rw [hf]; exact hw
      refine wrapWords_two_words _ hlead maxWidth ws _ _ rfl
        (fun w hw => hall w (List.mem_cons_of_mem _ hw)) ?_ l hl h2
      intro h3
      rw [fields_leading_word _ w0 hlead (hall w0 (List.mem_cons_self _ _))] at h3
      simp at h3

theorem wrapLine_fits (maxWidth : Int) (hpos : 0 < maxWidth) (raw : List Char)
    (hnolead : leadingRun raw = [])
    (hwords : ∀ w ∈ fields raw, runeCount w ≤ maxWidth) :
    ∀ l ∈ wrapLine maxWidth raw, runeCount l ≤ maxWidth := by
  intro l hl
  have htake : raw.take (raw.length - (trimLeft raw).length) = leadingRun raw :=
    take_length_sub_dropWhile _ raw
  have htrim : trimLeft raw = raw := by
    have h := List.takeWhile_append_dropWhile (fun c => c = ' ' || c = '\t') raw
    unfold leadingRun at hnolead
    rw [hnolead, List.nil_append] at h
    exact h
  have hzero : runeCount ([] : List Char) ≤ maxWidth := by
    simp only [runeCount, List.length_nil]
    push_cast
    omega
  simp only [wrapLine, htake] at hl
  simp only [hnolead, htrim, List.nil_append] at hl
  by_cases ht : raw = []
  · simp only [ht, if_true, List.mem_singleton] at hl
    rw [hl]; exact hzero
  · simp only [ht, if_false] at hl
    cases hf : fields raw with
    | nil =>
      rw [hf] at hl
      simp only [List.mem_singleton] at hl
      rw [hl]; exact hzero
    | cons w0 ws =>
      rw [hf] at hl hwords
      simp only [] at hl
      exact wrapWords_fits [] maxWidth ws _ _ rfl (hwords w0 (List.mem_cons_self _ _))
        (fun w hw => by
          rw [List.nil_append]
          exact hwords w (List.mem_cons_of_mem _ hw)) l hl

/-- C38: for every `s` and `maxWidth > 0`, a line of `wrapText s maxWidth` can
exceed `maxWidth` code points only if it holds at most one word: every output
line with two or more words has at most `maxWidth` code points. Consequently,
when no source line has leading spaces or tabs and every word of `s` has at
most `maxWidth` code points, every output line fits within `maxWidth`. -/
theorem wrapText_overlong_single_word (s : List Char) (maxWidth : Int) (hpos : 0 < maxWidth) :
    (∀ l ∈ wrapText s maxWidth, 2 ≤ (fields l).length → runeCount l ≤ maxWidth) ∧
    ((∀ raw ∈ splitLines s, leadingRun raw = []) →
      (∀ w ∈ fields s, runeCount w ≤ maxWidth) →
      ∀ l ∈ wrapText s maxWidth, runeCount l ≤ maxWidth) := by
  rw [wrapText_eq_flatMap s maxWidth hpos]
  constructor
  · intro l hl
    obtain ⟨raw, -, hraw⟩ := List.mem_flatMap.1 hl
    exact wrapLine_two_words maxWidth raw l hraw
  · intro hnolead hwords l hl
    obtain ⟨raw, hmem, hraw⟩ := List.mem_flatMap.1 hl
    refine wrapLine_fits maxWidth hpos raw (hnolead raw hmem) ?_ l hraw
    intro w hw
    apply hwords
    rw [← fields_splitLines s]
    exact List.mem_flatMap.2 ⟨raw, hmem, hw⟩

/-- Witness of C38: "ab cd ef" wrapped at width 5 gives "ab cd" and "ef"; both
parts of the claim apply. -/
theorem wrapText_overlong_single_word_witness :
    (0 : Int) < 5 ∧
    wrapText ['a', 'b', ' ', 'c', 'd', ' ', 'e', 'f'] 5 =
      [['a', 'b', ' ', 'c', 'd'], ['e', 'f']] ∧
    (∀ l ∈ wrapText ['a', 'b', ' ', 'c', 'd', ' ', 'e', 'f'] 5,
      2 ≤ (fields l).length → runeCount l ≤ 5) ∧
    (∀ l ∈ wrapText ['a', 'b', ' ', 'c', 'd', ' ', 'e', 'f'] 5, runeCount l ≤ 5) :=
  ⟨by decide, by decide,
   (wrapText_overlong_single_word ['a', 'b', ' ', 'c', 'd', ' ', 'e', 'f'] 5 (by decide)).1,
   (wrapText_overlong_single_word ['a', 'b', ' ', 'c', 'd', ' ', 'e', 'f'] 5 (by decide)).2
     (by decide) (by decide)⟩

set_option maxRecDepth 100000 in
theorem leadBits : ∀ b < 256,
    (b &&& 0xE0 = 0xC0 ↔ 0xC0 ≤ b ∧ b < 0xE0) ∧
    (b &&& 0xF0 = 0xE0 ↔ 0xE0 ≤ b ∧ b < 0xF0) ∧
    (b &&& 0xF8 = 0xF0 ↔ 0xF0 ≤ b ∧ b < 0xF8) := by
  decide

set_option maxRecDepth 100000 in
theorem payloadBits : ∀ b < 256,
    (0xC0 ≤ b → b < 0xE0 → b &&& 0x1F = b - 0xC0) ∧
    (0xE0 ≤ b → b < 0xF0 → b &&& 0x0F = b - 0xE0) ∧
    (0xF0 ≤ b → b < 0xF8 → b &&& 0x07 = b - 0xF0) ∧
    (0x80 ≤ b → b < 0xC0 → b &&& 0x3F = b - 0x80) := by
  decide

theorem shiftLeft_six_lor (a lo : Nat) (h : lo < 64) : (a <<< 6) ||| lo = a * 64 + lo := by
  rw [Nat.shiftLeft_eq]
  have h2 : lo < 2 ^ 6 := h
  have := Nat.mul_add_lt_is_or h2 a
  rw [Nat.mul_comm] at this
  rw [← this]

theorem decodeLoop_succ (data : List Nat) (n i r : Nat) :
    decodeLoop data (n + 1) i r =
      decodeLoop data n (i + 1) ((r <<< 6) ||| (data.getD i 0 &&& 0x3F)) := rfl

theorem decodeRune_lead (b : Nat) (rest : List Nat) (hb : b < 256) (h0 : 0xC0 ≤ b)
    (h1 : b < 0xF8) :
    decodeRune (b :: rest) =
      if (b :: rest).length < announcedSize b then ((63 : Int), 1)
      else (((decodeLoop (b :: rest) (announcedSize b - 1) 1
        (b - (if b < 0xE0 then 0xC0 else if b < 0xF0 then 0xE0 else 0xF0)) : Nat) : Int),
        announcedSize b) := by
  obtain ⟨l2, l3, l4⟩ := leadBits b hb
  obtain ⟨p2, p3, p4, -⟩ := payloadBits b hb
  have hn : ¬ b < 0x80 := by omega
  unfold decodeRune announcedSize
  simp only [List.length_cons, Nat.add_one_ne_zero, if_false, List.getD_cons_zero, hn]
  by_cases c2 : b < 0xE0
  · simp only [l2.2 ⟨h0, c2⟩, if_true, c2, p2 h0 c2]
  · have n2 : ¬ b &&& 0xE0 = 0xC0 := fun h => c2 (l2.1 h).2
    by_cases c3 : b < 0xF0
    · simp only [n2, if_false, l3.2 ⟨by omega, c3⟩, if_true, c2, c3, p3 (by omega) c3]
    · have n3 : ¬ b &&& 0xF0 = 0xE0 := fun h => c3 (l3.1 h).2
      simp only [n2, n3, if_false, l4.2 ⟨by omega, h1⟩, if_true, c2, c3, p4 (by omega) h1]

theorem decodeRune_no_lead (b : Nat) (rest : List Nat) (hb : b < 256)
    (h : (0x80 ≤ b ∧ b < 0xC0) ∨ 0xF8 ≤ b) : decodeRune (b :: rest) = (63, 1) := by
  obtain ⟨l2, l3, l4⟩ := leadBits b hb
  have hn : ¬ b < 0x80 := by omega
  have n2 : ¬ b &&& 0xE0 = 0xC0 := fun e => by have := l2.1 e; omega
  have n3 : ¬ b &&& 0xF0 = 0xE0 := fun e => by have := l3.1 e; omega
  have n4 : ¬ b &&& 0xF8 = 0xF0 := fun e => by have := l4.1 e; omega
  unfold decodeRune
  simp only [List.length_cons, Nat.add_one_ne_zero, if_false, List.getD_cons_zero, hn, n2, n3,
    n4]

theorem decodeRune_size_le (data : List Nat) (h : data ≠ []) :
    (decodeRune data).2 ≤ data.length := by
  have hl : ¬ data.length = 0 := fun e => h (List.length_eq_zero.1 e)
  have h1 : 1 ≤ data.length := Nat.pos_of_ne_zero hl
  unfold decodeRune
  rw [if_neg hl]
  dsimp only
  split
  · exact h1
  · split
    · exact h1
    · split
      · exact h1
      · dsimp only; omega

theorem cont_byte (lo : Nat) (h : lo < 64) : (0x80 + lo) &&& 0x3F = lo := by
  have := (payloadBits (0x80 + lo) (by omega)).2.2.2 (by omega) (by omega)
  omega

theorem decodeRune_utf8 (r : Nat) (rest : List Nat) (hr : r < 0x110000) :
    decodeRune (utf8 r ++ rest) = ((r : Int), (utf8 r).length) := by
  unfold utf8
  by_cases c1 : r < 0x80
  · simp only [c1, if_true, List.singleton_append, List.length_singleton]
    exact decodeRune_ascii r rest c1
  · by_cases c2 : r < 0x800
    · simp only [c1, c2, if_false, if_true, List.cons_append, List.nil_append]
      rw [decodeRune_lead _ _ (by omega) (by omega) (by omega)]
      have ha : announcedSize (0xC0 + r / 64) = 2 := by
        unfold announcedSize; rw [if_pos (by omega)]
      have hlt : 0xC0 + r / 64 < 0xE0 := by omega
      simp only [ha, List.length_cons, hlt, if_true, decodeLoop_succ, decodeLoop,
        List.getD_cons_succ, List.getD_cons_zero, cont_byte _ (Nat.mod_lt r (by decide)),
        List.length_nil]
      rw [if_neg (by omega), shiftLeft_six_lor _ _ (Nat.mod_lt r (by decide))]
      have : (0xC0 + r / 64 - 0xC0) * 64 + r % 64 = r := by omega
      rw [this]
    · by_cases c3 : r < 0x10000
      · simp only [c1, c2, c3, if_false, if_true, List.cons_append, List.nil_append]
        rw [decodeRune_lead _ _ (by omega) (by omega) (by omega)]
        have ha : announcedSize (0xE0 + r / 4096) = 3 := by
          unfold announcedSize; rw [if_neg (by omega), if_pos (by omega)]
        have hlt : ¬ 0xE0 + r / 4096 < 0xE0 := by omega
        have hlt2 : 0xE0 + r / 4096 < 0xF0 := by omega
        simp only [ha, List.length_cons, hlt, hlt2, if_true, if_false, decodeLoop_succ,
          decodeLoop, List.getD_cons_succ, List.getD_cons_zero,
          cont_byte _ (Nat.mod_lt _ (by decide : 0 < 64)), List.length_nil]
        rw [if_neg (by omega), shiftLeft_six_lor _ _ (Nat.mod_lt _ (by decide)),
          shiftLeft_six_lor _ _ (Nat.mod_lt _ (by decide))]
        have : ((0xE0 + r / 4096 - 0xE0) * 64 + r / 64 % 64) * 64 + r % 64 = r := by omega
        rw [this]
      · simp only [c1, c2, c3, if_false, List.cons_append, List.nil_append]
        rw [decodeRune_lead _ _ (by omega) (by omega) (by omega)]
        have ha : announcedSize (0xF0 + r / 262144) = 4 := by
          unfold announcedSize; rw [if_neg (by omega), if_neg (by omega)]
        have hlt : ¬ 0xF0 + r / 262144 < 0xE0 := by omega
        have hlt2 : ¬ 0xF0 + r / 262144 < 0xF0 := by omega
        simp only [ha, List.length_cons, hlt, hlt2, if_false, decodeLoop_succ,
          decodeLoop, List.getD_cons_succ, List.getD_cons_zero,
          cont_byte _ (Nat.mod_lt _ (by decide : 0 < 64)), List.length_nil]
        rw [if_neg (by omega), shiftLeft_six_lor _ _ (Nat.mod_lt _ (by decide)),
          shiftLeft_six_lor _ _ (Nat.mod_lt _ (by decide)),
          shiftLeft_six_lor _ _ (Nat.mod_lt _ (by decide))]
        have : (((0xF0 + r / 262144 - 0xF0) * 64 + r / 4096 % 64) * 64 + r / 64 % 64) * 64 +
            r % 64 = r := by omega
        rw [this]

theorem utf8_lead_ne (r : Nat) (hr : r < 0x110000) :
    (utf8 r).head? ≠ some 0xC0 ∧ (utf8 r).head? ≠ some 0xC1 ∧ (utf8 r).head? ≠ some 0xF5 := by
  unfold utf8
  split_ifs <;> simp <;> omega

/-- C39 as stated fails: 0xC0 is an invalid lead byte, since the UTF-8 encoding
of no code point starts with it, but `decodeRune` decodes the two bytes C0 80
as the code point 0 of size 2 instead of returning ('?', 1); likewise F5 with
three more bytes. -/
theorem decodeRune_accepts_invalid_lead :
    decodeRune [0xC0, 0x80] = (0, 2) ∧ decodeRune [0xC0, 0x80] ≠ (63, 1) ∧
    decodeRune [0xF5, 0x80, 0x80, 0x80] = (0x140000, 4) ∧
    (∀ r : Nat, r < 0x110000 → (utf8 r).head? ≠ some 0xC0 ∧ (utf8 r).head? ≠ some 0xF5) := by
  refine ⟨by decide, by decide, by decide, ?_⟩
  intro r hr
  exact ⟨(utf8_lead_ne r hr).1, (utf8_lead_ne r hr).2.2⟩

/-- C39, amended: `decodeRune` inverts UTF-8 encoding: for every Unicode scalar
value `r` and every byte string `rest`, `decodeRune (utf8 r ++ rest)` is `r`
with the length of `utf8 r`, which is 1, 2, 3 or 4. For a first byte that is a
continuation byte (0x80..0xBF) or one of 0xF8..0xFF, and for a lead byte
0xC0..0xF7 followed by fewer bytes than it announces, the result is ('?', 1);
every lead byte 0xC0..0xF7 with enough bytes is decoded with the size it
announces. The reported size of a non-empty input is between 1 and the input
length. -/
theorem decodeRune_inverts_utf8 :
    (∀ (r : Nat) (rest : List Nat), Nat.isValidChar r →
      decodeRune (utf8 r ++ rest) = ((r : Int), (utf8 r).length) ∧
      1 ≤ (utf8 r).length ∧ (utf8 r).length ≤ 4) ∧
    (∀ (b : Nat) (rest : List Nat), b < 256 → (0x80 ≤ b ∧ b < 0xC0) ∨ 0xF8 ≤ b →
      decodeRune (b :: rest) = (63, 1)) ∧
    (∀ (b : Nat) (rest : List Nat), b < 256 → 0xC0 ≤ b → b < 0xF8 →
      (b :: rest).length < announcedSize b → decodeRune (b :: rest) = (63, 1)) ∧
    (∀ (b : Nat) (rest : List Nat), b < 256 → 0xC0 ≤ b → b < 0xF8 →
      announcedSize b ≤ (b :: rest).length → (decodeRune (b :: rest)).2 = announcedSize b) ∧
    (∀ data : List Nat, data ≠ [] →
      1 ≤ (decodeRune data).2 ∧ (decodeRune data).2 ≤ data.length) := by
  refine ⟨?_, ?_, ?_, ?_, ?_⟩
  · intro r rest hr
    have hlt : r < 0x110000 := by
      rcases hr with h | h
      · omega
      · exact h.2
    refine ⟨decodeRune_utf8 r rest hlt, ?_, ?_⟩ <;>
    · unfold utf8
      split_ifs <;> simp
  · intro b rest hb h
    exact decodeRune_no_lead b rest hb h
  · intro b rest hb h0 h1 hlen
    rw [decodeRune_lead b rest hb h0 h1, if_pos hlen]
  · intro b rest hb h0 h1 hlen
    rw [decodeRune_lead b rest hb h0 h1, if_neg (by omega)]
  · intro data hne
    exact ⟨decodeRune_size_pos data hne, decodeRune_size_le data hne⟩

/-- Witness of the amended C39: the encodings of "A", "é", "€" and an emoji
followed by a byte, a continuation byte first, the byte 0xFF first, and a
truncated three-byte sequence. -/
theorem decodeRune_inverts_utf8_witness :
    utf8 0x41 = [0x41] ∧ utf8 0xE9 = [0xC3, 0xA9] ∧ utf8 0x20AC = [0xE2, 0x82, 0xAC] ∧
    utf8 0x1F600 = [0xF0, 0x9F, 0x98, 0x80] ∧
    decodeRune ([0xC3, 0xA9] ++ [0x41]) = (0xE9, 2) ∧
    decodeRune ([0xE2, 0x82, 0xAC] ++ [0x41]) = (0x20AC, 3) ∧
    decodeRune ([0xF0, 0x9F, 0x98, 0x80] ++ [0x41]) = (0x1F600, 4) ∧
    decodeRune [0x80, 0x41] = (63, 1) ∧
    decodeRune [0xFF, 0x41] = (63, 1) ∧
    decodeRune [0xE2, 0x82] = (63, 1) :=
  ⟨by decide, by decide, by decide, by decide,
   (decodeRune_inverts_utf8.1 0xE9 [0x41] (by decide)).1,
   (decodeRune_inverts_utf8.1 0x20AC [0x41] (by decide)).1,
   (decodeRune_inverts_utf8.1 0x1F600 [0x41] (by decide)).1,
   decodeRune_inverts_utf8.2.1 0x80 [0x41] (by decide) (by decide),
   decodeRune_inverts_utf8.2.1 0xFF [0x41] (by decide) (by decide),
   decodeRune_inverts_utf8.2.2.1 0xE2 [0x82] (by decide) (by decide) (by decide) (by decide)⟩

theorem head_dropWhile_false (p : Char → Bool) : ∀ (l : List Char) (c : Char),
    (l.dropWhile p).head? = some c → p c = false := by
  intro l
  induction l with
  | nil => intro c h; simp at h
  | cons a l ih =>
    intro c h
    by_cases ha : p a = true
    · rw [List.dropWhile_cons_of_pos ha] at h
      exact ih c h
    · rw [List.dropWhile_cons_of_neg ha] at h
      simp only [List.head?_cons, Option.some.injEq] at h
      rw [← h]
      simpa using ha

theorem trimSpace_spec (s : List Char) :
    ∃ pre suf, s = pre ++ trimSpace s ++ suf ∧
      (∀ c ∈ pre, isSpace c = true) ∧ (∀ c ∈ suf, isSpace c = true) ∧
      (∀ c, (trimSpace s).head? = some c → isSpace c = false) ∧
      (∀ c, (trimSpace s).getLast? = some c → isSpace c = false) := by
  have h1 := List.takeWhile_append_dropWhile isSpace s
  have h2 := List.takeWhile_append_dropWhile isSpace (s.dropWhile isSpace).reverse
  have h3 : s.dropWhile isSpace = trimSpace s ++
      ((s.dropWhile isSpace).reverse.takeWhile isSpace).reverse := by
    have := congrArg List.reverse h2
    rw [List.reverse_append, List.reverse_reverse] at this
    exact this.symm
  have hlast : ∀ c, (trimSpace s).getLast? = some c → isSpace c = false := by
    intro c hc
    unfold trimSpace at hc
    rw [List.getLast?_reverse] at hc
    exact head_dropWhile_false isSpace _ c hc
  refine ⟨s.takeWhile isSpace, ((s.dropWhile isSpace).reverse.takeWhile isSpace).reverse,
    ?_, ?_, ?_, ?_, hlast⟩
  · rw [List.append_assoc, ← h3, h1]
  · intro c hc
    exact List.mem_takeWhile_imp hc
  · intro c hc
    exact List.mem_takeWhile_imp (List.mem_reverse.1 hc)
  · intro c hc
    cases ht : trimSpace s with
    | nil => rw [ht] at hc; simp at hc
    | cons a t =>
      rw [ht] at hc h3
      simp only [List.head?_cons, Option.some.injEq] at hc
      apply head_dropWhile_false isSpace s c
      rw [h3, ← hc]
      rfl

/-- C34, evaluated on the code: `Submit` returns the value with its surrounding
white space removed, not the current value that its comment and the claim
name; for the value " a" it returns "a". -/
theorem submit_trims_value :
    (TextInput.Submit ⟨[' ', 'a'], 2, ['p'], true⟩).1 = ['a'] ∧
    (TextInput.Submit ⟨[' ', 'a'], 2, ['p'], true⟩).1 ≠
      (⟨[' ', 'a'], 2, ['p'], true⟩ : TextInput).Value := by
  decide

/-- What `Submit` computes: the returned string is the value without a prefix
and a suffix of white space and neither starts nor ends with white space, and
the returned `TextInput` has an empty `Value`, `Cursor` 0 and the `Placeholder`
and `Focused` fields of the receiver. -/
theorem submit_returns_trimmed (ti : TextInput) :
    (∃ pre suf, ti.Value = pre ++ ti.Submit.1 ++ suf ∧
      (∀ c ∈ pre, isSpace c = true) ∧ (∀ c ∈ suf, isSpace c = true) ∧
      (∀ c, ti.Submit.1.head? = some c → isSpace c = false) ∧
      (∀ c, ti.Submit.1.getLast? = some c → isSpace c = false)) ∧
    ti.Submit.2.Value = [] ∧ ti.Submit.2.Cursor = 0 ∧
    ti.Submit.2.Placeholder = ti.Placeholder ∧ ti.Submit.2.Focused = ti.Focused :=
  ⟨trimSpace_spec ti.Value, rfl, rfl, rfl, rfl⟩

/-- The two lines " ab" and "c " are submitted without the space at either
end. -/
theorem submit_returns_trimmed_witness :
    (TextInput.Submit ⟨[' ', 'a', 'b', '\n', 'c', ' '], 3, ['p'], true⟩) =
      (['a', 'b', '\n', 'c'], ⟨[], 0, ['p'], true⟩) ∧
    (TextInput.Submit ⟨[' ', 'a', 'b', '\n', 'c', ' '], 3, ['p'], true⟩).2.Placeholder = ['p'] :=
  ⟨by decide,
   (submit_returns_trimmed ⟨[' ', 'a', 'b', '\n', 'c', ' '], 3, ['p'], true⟩).2.2.2.1⟩

theorem runeToChar_toNat (c : Char) : runeToChar (c.toNat : Int) = c := by
  have hv : c.toNat.isValidChar := c.valid
  unfold runeToChar
  rw [if_pos ⟨Int.natCast_nonneg _, by simpa using hv⟩]
  simp [Char.ofNat_toNat]

theorem fromRunes_toRunes (s : List Char) : fromRunes (toRunes s) = s := by
  unfold fromRunes toRunes
  rw [List.map_map]
  conv_rhs => rw [← List.map_id s]
  apply List.map_congr_left
  intro c _
  exact runeToChar_toNat c

theorem length_fromRunes (runes : List Int) : (fromRunes runes).length = runes.length := by
  simp [fromRunes]

theorem length_toRunes (s : List Char) : (toRunes s).length = s.length := by
  simp [toRunes]

theorem lineStartFrom_spec (runes : List Int) : ∀ n : Nat, n ≤ runes.length →
    ∃ k, lineStartFrom runes n = some k ∧ 0 ≤ k ∧ k ≤ n := by
  intro n
  induction n with
  | zero => intro _; exact ⟨0, rfl, Int.le_refl 0, Int.le_refl 0⟩
  | succ n ih =>
    intro hn
    have hlt : n < runes.length := hn
    simp only [lineStartFrom, List.get?_eq_getElem?, List.getElem?_eq_getElem hlt]
    by_cases hc : runes[n] = 10
    · exact ⟨(n : Int) + 1, by simp [hc], by omega, by push_cast; omega⟩
    · obtain ⟨k, hk, h0, h1⟩ := ih (by omega)
      exact ⟨k, by simp [hc, hk], h0, by push_cast; omega⟩

theorem lineStart_spec (runes : List Int) (cursor : Int) (h0 : 0 ≤ cursor)
    (h1 : cursor ≤ runes.length) :
    ∃ k, lineStart runes cursor = some k ∧ 0 ≤ k ∧ k ≤ cursor := by
  obtain ⟨k, hk, a, b⟩ := lineStartFrom_spec runes cursor.toNat (by omega)
  exact ⟨k, hk, a, by omega⟩

theorem lineEndFrom_spec (runes : List Int) : ∀ (n : Nat) (i : Int), 0 ≤ i →
    i + n = runes.length →
    ∃ k, lineEndFrom runes n i = some k ∧ i ≤ k ∧ k ≤ runes.length := by
  intro n
  induction n with
  | zero =>
    intro i _ h
    exact ⟨runes.length, rfl, by omega, Int.le_refl _⟩
  | succ n ih =>
    intro i hi h
    have hlt : i.toNat < runes.length := by omega
    have hneg : ¬ i < 0 := by omega
    simp only [lineEndFrom, hneg, if_false, List.get?_eq_getElem?, List.getElem?_eq_getElem hlt]
    by_cases hc : runes[i.toNat] = 10
    · exact ⟨i, by simp [hc], Int.le_refl _, by omega⟩
    · obtain ⟨k, hk, a, b⟩ := ih (i + 1) (by omega) (by push_cast at h ⊢; omega)
      exact ⟨k, by simp [hc, hk], by omega, b⟩

theorem lineEnd_spec (runes : List Int) (cursor : Int) (h0 : 0 ≤ cursor)
    (h1 : cursor ≤ runes.length) :
    ∃ k, lineEnd runes cursor = some k ∧ cursor ≤ k ∧ k ≤ runes.length := by
  unfold lineEnd
  exact lineEndFrom_spec runes _ cursor h0 (by omega)

theorem cursorPosition_col_nonneg (runes : List Int) (cursor : Int) :
    0 ≤ (cursorPosition runes cursor).2 := by
  unfold cursorPosition
  have key : ∀ (l : List Int) (lc : Int × Int), 0 ≤ lc.2 →
      0 ≤ (l.foldl (fun (lc : Int × Int) c =>
        if c = 10 then (lc.1 + 1, 0) else (lc.1, lc.2 + 1)) lc).2 := by
    intro l
    induction l with
    | nil => intro lc h; exact h
    | cons c l ih =>
      intro lc h
      simp only [List.foldl_cons]
      apply ih
      split
      · exact Int.le_refl 0
      · dsimp only; omega
  exact key _ _ (Int.le_refl 0)

theorem moveCursorUp_spec (runes : List Int) (cursor : Int) (h0 : 0 ≤ cursor)
    (h1 : cursor ≤ runes.length) :
    ∃ k, moveCursorUp runes cursor = some k ∧ 0 ≤ k ∧ k ≤ runes.length := by
  have hcol := cursorPosition_col_nonneg runes cursor
  obtain ⟨start, hs, s0, s1⟩ := lineStart_spec runes cursor h0 h1
  unfold moveCursorUp
  simp only [hs, Option.some_bind]
  by_cases hz : start = 0
  · exact ⟨0, by simp [hz], Int.le_refl 0, by omega⟩
  · obtain ⟨ps, hps, p0, p1⟩ := lineStart_spec runes (start - 1) (by omega) (by omega)
    simp only [hz, if_false, hps, Option.some_bind]
    refine ⟨_, rfl, ?_, ?_⟩ <;> split <;> omega

theorem moveCursorDown_spec (runes : List Int) (cursor : Int) (h0 : 0 ≤ cursor)
    (h1 : cursor ≤ runes.length) :
    ∃ k, moveCursorDown runes cursor = some k ∧ 0 ≤ k ∧ k ≤ runes.length := by
  have hcol := cursorPosition_col_nonneg runes cursor
  obtain ⟨e, he, e0, e1⟩ := lineEnd_spec runes cursor h0 h1
  unfold moveCursorDown
  simp only [he, Option.some_bind]
  by_cases hz : e ≥ runes.length
  · exact ⟨runes.length, by simp [hz], by omega, Int.le_refl _⟩
  · obtain ⟨ne, hne, n0, n1⟩ := lineEnd_spec runes (e + 1) (by omega) (by omega)
    simp only [hz, if_false, hne, Option.some_bind]
    refine ⟨_, rfl, ?_, ?_⟩ <;> split <;> omega

theorem updateRunes_spec (runes : List Int) (cursor : Int) (key : Key) (h0 : 0 ≤ cursor)
    (h1 : cursor ≤ runes.length) :
    ∃ rs c, updateRunes runes cursor key = some (rs, c) ∧ 0 ≤ c ∧ c ≤ rs.length ∧
      (key.Type_ = Left ∨ key.Type_ = Right ∨ key.Type_ = Home ∨ key.Type_ = End ∨
        key.Type_ = Up ∨ key.Type_ = Down → rs = runes) := by
  have hto : sliceTo runes cursor = some (runes.take cursor.toNat) := by
    simp [sliceTo, h0, h1]
  have hfrom : sliceFrom runes cursor = some (runes.drop cursor.toNat) := by
    simp [sliceFrom, h0, h1]
  have hn : cursor.toNat ≤ runes.length := by omega
  unfold updateRunes
  by_cases k1 : key.Type_ = RuneKey
  · refine ⟨_, _, by simp only [k1, if_true, hto, hfrom, Option.some_bind]; rfl, by omega, ?_, ?_⟩
    · simp only [List.length_append, List.length_take, List.length_drop, List.length_singleton]
      omega
    · intro h; rw [k1] at h; exact absurd h (by decide)
  rw [if_neg k1]
  by_cases k2 : key.Type_ = ShiftEnter
  · refine ⟨_, _, by simp only [k2, if_true, hto, hfrom, Option.some_bind]; rfl, by omega, ?_, ?_⟩
    · simp only [List.length_append, List.length_take, List.length_drop, List.length_singleton]
      omega
    · intro h; rw [k2] at h; exact absurd h (by decide)
  rw [if_neg k2]
  by_cases k3 : key.Type_ = Backspace
  · rw [if_pos k3]
    by_cases hc : cursor > 0
    · have hto1 : sliceTo runes (cursor - 1) = some (runes.take (cursor - 1).toNat) := by
        simp [sliceTo]; omega
      refine ⟨_, _, by simp only [hc, if_true, hto1, hfrom, Option.some_bind]; rfl, by omega,
        ?_, ?_⟩
      · simp only [List.length_append, List.length_take, List.length_drop]
        omega
      · intro h; rw [k3] at h; exact absurd h (by decide)
    · exact ⟨runes, cursor, by simp [hc], h0, h1, fun _ => rfl⟩
  rw [if_neg k3]
  by_cases k4 : key.Type_ = Delete
  · rw [if_pos k4]
    by_cases hc : cursor < runes.length
    · have hfrom1 : sliceFrom runes (cursor + 1) = some (runes.drop (cursor + 1).toNat) := by
        simp [sliceFrom]; omega
      refine ⟨_, _, by simp only [hc, if_true, hto, hfrom1, Option.some_bind]; rfl, h0, ?_, ?_⟩
      · simp only [List.length_append, List.length_take, List.length_drop]
        omega
      · intro h; rw [k4] at h; exact absurd h (by decide)
    · exact ⟨runes, cursor, by simp [hc], h0, h1, fun _ => rfl⟩
  rw [if_neg k4]
  by_cases k5 : key.Type_ = Left
  · rw [if_pos k5]
    by_cases hc : cursor > 0
    · exact ⟨runes, cursor - 1, by simp [hc], by omega, by omega, fun _ => rfl⟩
    · exact ⟨runes, cursor, by simp [hc], h0, h1, fun _ => rfl⟩
  rw [if_neg k5]
  by_cases k6 : key.Type_ = Right
  · rw [if_pos k6]
    by_cases hc : cursor < runes.length
    · exact ⟨runes, cursor + 1, by simp [hc], by omega, by omega, fun _ => rfl⟩
    · exact ⟨runes, cursor, by simp [hc], h0, h1, fun _ => rfl⟩
  rw [if_neg k6]
  by_cases k7 : key.Type_ = Home
  · rw [if_pos k7]
    obtain ⟨k, hk, a, b⟩ := lineStart_spec runes cursor h0 h1
    exact ⟨runes, k, by simp [hk], a, by omega, fun _ => rfl⟩
  rw [if_neg k7]
  by_cases k8 : key.Type_ = End
  · rw [if_pos k8]
    obtain ⟨k, hk, a, b⟩ := lineEnd_spec runes cursor h0 h1
    exact ⟨runes, k, by simp [hk], by omega, b, fun _ => rfl⟩
  rw [if_neg k8]
  by_cases k9 : key.Type_ = Up
  · rw [if_pos k9]
    obtain ⟨k, hk, a, b⟩ := moveCursorUp_spec runes cursor h0 h1
    exact ⟨runes, k, by simp [hk], a, b, fun _ => rfl⟩
  rw [if_neg k9]
  by_cases k10 : key.Type_ = Down
  · rw [if_pos k10]
    obtain ⟨k, hk, a, b⟩ := moveCursorDown_spec runes cursor h0 h1
    exact ⟨runes, k, by simp [hk], a, b, fun _ => rfl⟩
  rw [if_neg k10]
  exact ⟨runes, cursor, rfl, h0, h1, fun _ => rfl⟩

/-- C35: the cursor invariant `0 ≤ Cursor ≤` number of code points of `Value`
holds for `NewTextInput` and is preserved by `Update` for every key: under the
invariant `Update` returns (no slice or index expression is out of range) and
the result satisfies the invariant again; the navigation keys Left, Right,
Home, End, Up and Down leave `Value` unchanged. -/
theorem update_preserves_cursorInv (placeholder : List Char) (ti : TextInput) (key : Key)
    (hinv : ti.cursorInv) :
    (NewTextInput placeholder).cursorInv ∧
    ∃ ti2, ti.Update key = some ti2 ∧ ti2.cursorInv ∧
      ti2.Placeholder = ti.Placeholder ∧ ti2.Focused = ti.Focused ∧
      (key.Type_ = Left ∨ key.Type_ = Right ∨ key.Type_ = Home ∨ key.Type_ = End ∨
        key.Type_ = Up ∨ key.Type_ = Down → ti2.Value = ti.Value) := by
  refine ⟨⟨Int.le_refl 0, by simp [NewTextInput]⟩, ?_⟩
  obtain ⟨rs, c, h, c0, c1, hnav⟩ := updateRunes_spec (toRunes ti.Value) ti.Cursor key hinv.1
    (by rw [length_toRunes]; exact hinv.2)
  refine ⟨{ ti with Value := fromRunes rs, Cursor := c }, by simp [TextInput.Update, h],
    ⟨c0, ?_⟩, rfl, rfl, ?_⟩
  · show c ≤ ((fromRunes rs).length : Int)
    rw [length_fromRunes]; exact c1
  · intro hk
    show fromRunes rs = ti.Value
    rw [hnav hk, fromRunes_toRunes]

/-- Witness of C35: the cursor after "ab" in the two lines "ab" and "c" moves
down to the end of "c". -/
theorem update_preserves_cursorInv_witness :
    demoInput.cursorInv ∧ demoInput.Update { Type_ := Down } = some { demoInput with Cursor := 4 } ∧
    ∃ ti2, demoInput.Update { Type_ := Down } = some ti2 ∧ ti2.cursorInv ∧
      ti2.Placeholder = demoInput.Placeholder ∧ ti2.Focused = demoInput.Focused ∧
      ((({ Type_ := Down } : Key)).Type_ = Left ∨ (({ Type_ := Down } : Key)).Type_ = Right ∨
        (({ Type_ := Down } : Key)).Type_ = Home ∨ (({ Type_ := Down } : Key)).Type_ = End ∨
        (({ Type_ := Down } : Key)).Type_ = Up ∨ (({ Type_ := Down } : Key)).Type_ = Down →
        ti2.Value = demoInput.Value) :=
  ⟨by unfold TextInput.cursorInv; decide, by decide,
   (update_preserves_cursorInv [] demoInput { Type_ := Down }
     (by unfold TextInput.cursorInv; decide)).2⟩

theorem codeLoop_ge (lines : List (List Char)) (colors : ColorScheme) :
    ∀ (n i : Nat) (acc : List Node), i ≤ (codeLoop lines colors n i acc).1 := by
  intro n
  induction n with
  | zero => intro i acc; exact Nat.le_refl i
  | succ n ih =>
    intro i acc
    simp only [codeLoop]
    split
    · exact Nat.le_trans (Nat.le_succ i) (ih (i + 1) _)
    · exact Nat.le_refl i

theorem renderLoop_fuel (lines : List (List Char)) (colors : ColorScheme) :
    ∀ (f1 f2 i : Nat) (width : Int) (nodes : List Node),
      lines.length - i ≤ f1 → lines.length - i ≤ f2 →
      renderLoop lines colors f1 i width nodes = renderLoop lines colors f2 i width nodes := by
  intro f1
  induction f1 with
  | zero =>
    intro f2 i width nodes h1 _
    have hi : ¬ i < lines.length := by omega
    cases f2 with
    | zero => rfl
    | succ f2 => simp only [renderLoop, if_neg hi]
  | succ f1 ih =>
    intro f2 i width nodes h1 h2
    by_cases hi : i < lines.length
    · cases f2 with
      | zero => omega
      | succ f2 =>
        simp only [renderLoop, if_pos hi]
        split
        · have hge := codeLoop_ge lines colors (lines.length - (i + 1)) (i + 1) []
          apply ih
          · split <;> omega
          · split <;> omega
        · split
          · exact ih f2 _ _ _ (by omega) (by omega)
          · exact ih f2 _ _ _ (by omega) (by omega)
    · cases f2 with
      | zero => simp only [renderLoop, if_neg hi]
      | succ f2 => simp only [renderLoop, if_neg hi]

theorem renderLoop_length (lines : List (List Char)) (colors : ColorScheme)
    (h : ∀ line ∈ lines, isFence line = false) :
    ∀ (fuel i : Nat) (width : Int) (nodes : List Node), lines.length - i ≤ fuel →
      (renderLoop lines colors fuel i width nodes).length = nodes.length + (lines.length - i) := by
  intro fuel
  induction fuel with
  | zero =>
    intro i width nodes hf
    simp only [renderLoop]
    omega
  | succ fuel ih =>
    intro i width nodes hf
    by_cases hi : i < lines.length
    · have hmem : lines.getD i [] ∈ lines := by
        rw [List.getD_eq_getElem _ _ hi]
        exact List.getElem_mem hi
      have hnf : isFence (lines.getD i []) = false := h _ hmem
      simp only [renderLoop, if_pos hi, hnf, Bool.false_eq_true, if_false]
      split
      · rw [ih _ _ _ (by omega), List.length_append, List.length_singleton]
        omega
      · rw [ih _ _ _ (by omega), List.length_append, List.length_singleton]
        omega
    · simp only [renderLoop, if_neg hi]
      omega

theorem length_splitLines (s : List Char) : (splitLines s).length = s.count '\n' + 1 := by
  induction s with
  | nil => rfl
  | cons c cs ih =>
    by_cases hc : c = '\n'
    · subst hc
      simp only [splitLines, if_true, List.length_cons, ih, List.count_cons_self]
    · have hne : (c == '\n') = false := by simpa using hc
      simp only [splitLines, hc, if_false]
      rw [List.count_cons_of_ne (fun e => hc e.symm)]
      cases hs : splitLines cs with
      | nil => rw [hs] at ih; simp at ih
      | cons l ls =>
        rw [hs] at ih
        simpa using ih

/-- C32: for every markdown text none of whose lines begins, after trimming
surrounding white space, with a code fence, `Render text width fg` returns
exactly one node per line of `text`, that is the number of newline characters
plus one; the loop needs no more iterations than there are lines. In
particular the empty text yields exactly one node. -/
theorem render_one_node_per_line (text : List Char) (width : Int) (fg : Color)
    (h : ∀ line ∈ splitLines text, isFence line = false) :
    (Render text width fg).length = text.count '\n' + 1 ∧
    (splitLines text).length = text.count '\n' + 1 ∧
    (∀ fuel, (splitLines text).length ≤ fuel →
      renderLoop (splitLines text) (DefaultColors fg) fuel 0 width [] = Render text width fg) ∧
    (Render [] width fg).length = 1 := by
  refine ⟨?_, length_splitLines text, ?_, ?_⟩
  · unfold Render RenderWithColors
    rw [renderLoop_length _ _ h _ _ _ _ (by omega), length_splitLines]
    simp
  · intro fuel hf
    unfold Render RenderWithColors
    exact renderLoop_fuel _ _ _ _ _ _ _ (by omega) (by omega)
  · unfold Render RenderWithColors
    rw [renderLoop_length _ _ (by decide) _ _ _ _ (by omega)]
    rfl

/-- Witness of C32: the two bullet items "- a" and "- b" give two nodes. -/
theorem render_one_node_per_line_witness :
    (∀ line ∈ splitLines ['-', ' ', 'a', '\n', '-', ' ', 'b'], isFence line = false) ∧
    (Render ['-', ' ', 'a', '\n', '-', ' ', 'b'] 40 7).length = 2 :=
  ⟨by decide, (render_one_node_per_line ['-', ' ', 'a', '\n', '-', ' ', 'b'] 40 7 (by decide)).1⟩

theorem splitLines_no_newline : ∀ s : List Char, (∀ c ∈ s, c ≠ '\n') → splitLines s = [s] := by
  intro s
  induction s with
  | nil => intro _; rfl
  | cons c cs ih =>
    intro h
    have hc : c ≠ '\n' := h c (List.mem_cons_self _ _)
    have hcs := ih (fun d hd => h d (List.mem_cons_of_mem _ hd))
    simp only [splitLines, hc, if_false, hcs]

theorem utf8_length_pos (r : Nat) : 1 ≤ (utf8 r).length := by
  unfold utf8
  split_ifs <;> simp

theorem byteLen_cons (c : Char) (l : List Char) :
    byteLen (c :: l) = (utf8 c.toNat).length + byteLen l := by
  simp [byteLen]

theorem count_le_byteLen (c : Char) : ∀ l : List Char, l.count c ≤ byteLen l := by
  intro l
  induction l with
  | nil => simp [byteLen]
  | cons a l ih =>
    rw [byteLen_cons]
    have h1 := utf8_length_pos a.toNat
    have h2 : (a :: l).count c ≤ l.count c + 1 := by
      rw [List.count_cons]
      split <;> omega
    omega

theorem trimSpace_two_stars (w : List Char) :
    ∃ t suf, trimSpace ('*' :: '*' :: w) = '*' :: '*' :: t ∧ w = t ++ suf := by
  obtain ⟨pre, suf, hs, hpre, hsuf, -, -⟩ := trimSpace_spec ('*' :: '*' :: w)
  have hstar : isSpace '*' = false := by decide
  cases pre with
  | cons a pre =>
    have ha := hpre a (List.mem_cons_self _ _)
    simp only [List.cons_append, List.cons.injEq] at hs
    rw [← hs.1, hstar] at ha
    cases ha
  | nil =>
    rw [List.nil_append] at hs
    cases ht : trimSpace ('*' :: '*' :: w) with
    | nil =>
      rw [ht, List.nil_append] at hs
      have := hsuf '*' (by rw [← hs]; exact List.mem_cons_self _ _)
      rw [hstar] at this
      cases this
    | cons a t1 =>
      rw [ht] at hs
      simp only [List.cons_append, List.cons.injEq] at hs
      obtain ⟨ha, hs2⟩ := hs
      cases t1 with
      | nil =>
        rw [List.nil_append] at hs2
        have := hsuf '*' (by rw [← hs2]; exact List.mem_cons_self _ _)
        rw [hstar] at this
        cases this
      | cons b t =>
        simp only [List.cons_append, List.cons.injEq] at hs2
        exact ⟨t, suf, by rw [← ha, ← hs2.1], hs2.2⟩

theorem findCloseFrom_none (runes : List Char) (m0 : Char) (ms : List Char) :
    ∀ (n i : Nat), (∀ j, i ≤ j → runes.get? j ≠ some m0) →
      findCloseFrom runes (m0 :: ms) n i = -1 := by
  intro n
  induction n with
  | zero => intro i _; rfl
  | succ n ih =>
    intro i h
    have hne : ¬ (runes.drop i).take (m0 :: ms).length = m0 :: ms := by
      intro e
      have h0 := congrArg List.head? e
      cases hd : runes.drop i with
      | nil => rw [hd] at h0; simp at h0
      | cons a l =>
        rw [hd] at h0
        simp only [List.length_cons, List.take_succ_cons, List.head?_cons,
          Option.some.injEq] at h0
        have hget : runes.get? i = some a := by
          have := congrArg List.head? hd
          simpa [List.head?_drop] using this
        exact h i (Nat.le_refl i) (by rw [hget, h0])
    simp only [findCloseFrom, hne, if_false]
    exact ih (i + 1) (fun j hj => h j (by omega))

/-- A code point that starts no inline markup. -/
theorem parseInlineStep_plain (runes : List Char) (fg : Color) (colors : ColorScheme)
    (st : InlineState) (c : Char) (hget : runes.get? st.i = some c) (h1 : c ≠ '*')
    (h2 : c ≠ backtick) (h3 : c ≠ '[') :
    parseInlineStep runes fg colors st = { st with buf := st.buf ++ [c], i := st.i + 1 } := by
  have hdrop : (runes.drop st.i).take 1 = [c] := by
    have hlt : st.i < runes.length := by
      by_contra hc
      rw [List.get?_eq_getElem?, List.getElem?_eq_none (by omega)] at hget
      cases hget
    rw [List.get?_eq_getElem?, List.getElem?_eq_getElem hlt] at hget
    rw [List.drop_eq_getElem_cons hlt]
    simp only [List.take_succ_cons, List.take_zero]
    rw [Option.some.injEq] at hget
    rw [hget]
  unfold parseInlineStep
  simp only [hget, Option.some.injEq, h1, h2, h3, false_and, and_false, if_false, hdrop]

theorem parseInlineLoop_plain (runes : List Char) (fg : Color) (colors : ColorScheme) :
    ∀ (fuel : Nat) (st : InlineState),
      (∀ j c, st.i ≤ j → runes.get? j = some c → c ≠ '*' ∧ c ≠ backtick ∧ c ≠ '[') →
      st.i ≤ runes.length → runes.length - st.i ≤ fuel →
      parseInlineLoop runes fg colors fuel st =
        { st with buf := st.buf ++ runes.drop st.i, i := runes.length } := by
  intro fuel
  induction fuel with
  | zero =>
    intro st _ hle hf
    have hlen : st.i = runes.length := by omega
    have hd : runes.drop st.i = [] := List.drop_of_length_le (by omega)
    simp only [parseInlineLoop]
    rw [hd, List.append_nil, ← hlen]
  | succ fuel ih =>
    intro st hplain hle hf
    by_cases hi : st.i < runes.length
    · have hget : runes.get? st.i = some runes[st.i] := by
        rw [List.get?_eq_getElem?, List.getElem?_eq_getElem hi]
      obtain ⟨h1, h2, h3⟩ := hplain st.i _ (Nat.le_refl _) hget
      simp only [parseInlineLoop, if_pos hi, parseInlineStep_plain runes fg colors st _ hget h1 h2 h3]
      rw [ih _ (fun j c hj hc => hplain j c (by dsimp only at hj; omega) hc)
        (by dsimp only; omega) (by dsimp only; omega)]
      dsimp only
      rw [List.append_assoc, List.singleton_append, ← List.drop_eq_getElem_cons hi]
    · have hlen : st.i = runes.length := by omega
      have hd : runes.drop st.i = [] := List.drop_of_length_le (by omega)
      simp only [parseInlineLoop, if_neg hi]
      rw [hd, List.append_nil, ← hlen]

theorem parseInline_unclosed_bold (w : List Char) (fg : Color) (colors : ColorScheme)
    (hw : ∀ c ∈ w, c ≠ '*' ∧ c ≠ backtick ∧ c ≠ '[') :
    parseInline ('*' :: '*' :: w) fg colors = [TextStyled ('*' :: '*' :: w) fg 0 0] := by
  have hget : ∀ j c, 2 ≤ j → ('*' :: '*' :: w).get? j = some c →
      c ≠ '*' ∧ c ≠ backtick ∧ c ≠ '[' := by
    intro j c hj hc
    obtain ⟨k, rfl⟩ : ∃ k, j = k + 2 := ⟨j - 2, by omega⟩
    simp only [List.get?_cons_succ] at hc
    exact hw c (List.get?_mem hc)
  have hnone : findClose ('*' :: '*' :: w) 2 ['*', '*'] = -1 := by
    unfold findClose
    apply findCloseFrom_none
    intro j hj e
    exact (hget j '*' hj e).1 rfl
  have h2 : ¬ ('*' :: '*' :: w).get? 2 = some '*' := fun e => (hget 2 '*' (Nat.le_refl 2) e).1 rfl
  have hstep : parseInlineStep ('*' :: '*' :: w) fg colors ⟨[], [], 0⟩ =
      ⟨[], ['*', '*'], 2⟩ := by
    unfold parseInlineStep
    simp only [h2, and_false, if_false, hnone]
    simp
  have hunf : parseInlineLoop ('*' :: '*' :: w) fg colors ('*' :: '*' :: w).length ⟨[], [], 0⟩ =
      parseInlineLoop ('*' :: '*' :: w) fg colors (w.length + 1)
        (parseInlineStep ('*' :: '*' :: w) fg colors ⟨[], [], 0⟩) := by
    show parseInlineLoop ('*' :: '*' :: w) fg colors (w.length + 1 + 1) ⟨[], [], 0⟩ = _
    rw [parseInlineLoop]
    simp
  unfold parseInline
  rw [hunf, hstep]
  rw [parseInlineLoop_plain _ _ _ _ _ (fun j c hj hc => hget j c hj hc)
    (by simp only [List.length_cons]; omega) (by simp only [List.length_cons]; omega)]
  have hpos : byteLen ('*' :: '*' :: w) > 0 := by
    rw [byteLen_cons]
    have := utf8_length_pos ('*').toNat
    omega
  simp only [InlineState.flush, List.drop_succ_cons, List.drop_zero, List.cons_append,
    List.nil_append, hpos, if_true]

theorem renderLine_unclosed_bold (w : List Char) (colors : ColorScheme)
    (hw : ∀ c ∈ w, c ≠ '*' ∧ c ≠ backtick ∧ c ≠ '[') :
    isFence ('*' :: '*' :: w) = false ∧ isHorizontalRule (trimSpace ('*' :: '*' :: w)) = false ∧
    renderLine ('*' :: '*' :: w) colors = Row [TextStyled ('*' :: '*' :: w) colors.Text 0 0] := by
  obtain ⟨t, suf, ht, hsuf⟩ := trimSpace_two_stars w
  have htw : ∀ c ∈ t, c ≠ '*' := fun c hc => (hw c (by rw [hsuf]; simp [hc])).1
  refine ⟨?_, ?_, ?_⟩
  · unfold isFence hasPrefix
    rw [ht]
    rfl
  · unfold isHorizontalRule
    rw [ht]
    obtain ⟨ft, hft⟩ : ∃ ft, ft = t.filter (fun c => decide (c ≠ ' ')) := ⟨_, rfl⟩
    have hf : ('*' :: '*' :: t).filter (fun c => decide (c ≠ ' ')) = '*' :: '*' :: ft := by
      rw [hft, List.filter_cons_of_pos (by decide), List.filter_cons_of_pos (by decide)]
    have hstar : ∀ c ∈ ft, c ≠ '*' := by
      intro c hc
      rw [hft] at hc
      exact htw c (List.mem_filter.1 hc).1
    have hb : byteLen ('*' :: '*' :: ft) = 2 + byteLen ft := by
      rw [byteLen_cons, byteLen_cons]
      have : (utf8 ('*').toNat).length = 1 := by decide
      omega
    have c1 := count_le_byteLen '-' ft
    have c2 := count_le_byteLen '_' ft
    have c3 : ft.count '*' = 0 := List.count_eq_zero.2 (fun hmem => hstar '*' hmem rfl)
    have k1 : ('*' :: '*' :: ft).count '-' = ft.count '-' := by
      rw [List.count_cons_of_ne (by decide), List.count_cons_of_ne (by decide)]
    have k2 : ('*' :: '*' :: ft).count '_' = ft.count '_' := by
      rw [List.count_cons_of_ne (by decide), List.count_cons_of_ne (by decide)]
    have k3 : ('*' :: '*' :: ft).count '*' = ft.count '*' + 2 := by
      rw [List.count_cons_self, List.count_cons_self]
    simp only [hf, hb, k1, k2, k3, c3]
    split
    · rfl
    · rw [if_neg]
      intro h
      rcases h with h | h | h <;> omega
  · unfold renderLine
    simp only [parseHeading, parseCheckbox, parseBullet, parseNumbered, parseBlockquote, ht,
      checkboxLoop, bulletLoop, numberedLoop, hasPrefix]
    simp
    rw [parseInline_unclosed_bold w colors.Text colors hw]

/-- C33: an unclosed bold marker is treated as literal text: for every string
`w` containing no '*', backtick, '[' or newline, `Render ("**" ++ w) width fg`
returns exactly one Row node with exactly one child, a Text node whose text is
exactly "**" followed by `w`, with foreground `fg` and no style bits; one
iteration of the loop over the lines is enough. -/
theorem render_unclosed_bold (w : List Char) (width : Int) (fg : Color)
    (hw : ∀ c ∈ w, c ≠ '*' ∧ c ≠ backtick ∧ c ≠ '[' ∧ c ≠ '\n') :
    Render ('*' :: '*' :: w) width fg =
      [.mk RowNode {} [.mk TextNode { Text := '*' :: '*' :: w, FG := fg, Style := 0 } []]] ∧
    ∀ fuel, 1 ≤ fuel →
      renderLoop (splitLines ('*' :: '*' :: w)) (DefaultColors fg) fuel 0 width [] =
        Render ('*' :: '*' :: w) width fg := by
  have hnl : ∀ c ∈ '*' :: '*' :: w, c ≠ '\n' := by
    intro c hc
    rcases List.mem_cons.1 hc with h | h
    · rw [h]; decide
    · rcases List.mem_cons.1 h with h | h
      · rw [h]; decide
      · exact (hw c h).2.2.2
  have hsplit := splitLines_no_newline _ hnl
  obtain ⟨hfence, hrule, hline⟩ := renderLine_unclosed_bold w (DefaultColors fg)
    (fun c hc => ⟨(hw c hc).1, (hw c hc).2.1, (hw c hc).2.2.1⟩)
  constructor
  · unfold Render RenderWithColors
    rw [hsplit]
    simp only [List.length_singleton, renderLoop, Nat.lt_one_iff, if_true, List.getD_cons_zero,
      hfence, hrule, Bool.false_eq_true, if_false, List.nil_append, hline]
    rfl
  · intro fuel hf
    unfold Render RenderWithColors
    exact renderLoop_fuel _ _ _ _ _ _ _ (by rw [hsplit]; simpa using hf) (by omega)

/-- Witness of C33: the text "**ab". -/
theorem render_unclosed_bold_witness :
    (∀ c ∈ ['a', 'b'], c ≠ '*' ∧ c ≠ backtick ∧ c ≠ '[' ∧ c ≠ '\n') ∧
    Render ['*', '*', 'a', 'b'] 40 7 =
      [.mk RowNode {} [.mk TextNode { Text := ['*', '*', 'a', 'b'], FG := 7, Style := 0 } []]] :=
  ⟨by decide, (render_unclosed_bold ['a', 'b'] 40 7 (by decide)).1⟩

theorem wrap64_id (x : Int) (h : isInt64 x) : wrap64 x = x := by
  obtain ⟨h1, h2⟩ := h
  unfold wrap64
  rw [Int.emod_eq_of_lt (by omega) (by omega)]
  omega

theorem intersect64_eq (a b : Rect) (ha : a.isInt64) (hb : b.isInt64) (hna : a.noOverflow)
    (hnb : b.noOverflow) : intersect64 a b = intersect a b := by
  obtain ⟨⟨ax1, ax2⟩, ⟨ay1, ay2⟩, ⟨aw1, aw2⟩, ⟨ah1, ah2⟩⟩ := ha
  obtain ⟨⟨bx1, bx2⟩, ⟨by1, by2⟩, ⟨bw1, bw2⟩, ⟨bh1, bh2⟩⟩ := hb
  have e1 := wrap64_id _ hna.1
  have e2 := wrap64_id _ hna.2
  have e3 := wrap64_id _ hnb.1
  have e4 := wrap64_id _ hnb.2
  obtain ⟨⟨sa1, sa2⟩, ⟨ta1, ta2⟩⟩ := hna
  obtain ⟨⟨sb1, sb2⟩, ⟨tb1, tb2⟩⟩ := hnb
  unfold intersect64 intersect
  simp only [e1, e2, e3, e4]
  split
  · rfl
  · rename_i hc
    have hx : isInt64 (min (a.X + a.W) (b.X + b.W) - max a.X b.X) := by
      constructor <;> omega
    have hy : isInt64 (min (a.Y + a.H) (b.Y + b.H) - max a.Y b.Y) := by
      constructor <;> omega
    rw [wrap64_id _ hx, wrap64_id _ hy]

/-- C37 as stated fails on the 64-bit `int`: the rectangles of width 1 and 2
that end at the largest `int` plus one both hold the point at the largest
`int`, but the edge sums wrap around and `intersect` returns the empty
rectangle; and for two equal rectangles at the smallest `int` with width -1
the result has width -1. -/
theorem intersect64_overflow :
    intersect64 ⟨9223372036854775807, 0, 1, 1⟩ ⟨9223372036854775806, 0, 2, 1⟩ = ⟨0, 0, 0, 0⟩ ∧
    (⟨9223372036854775807, 0, 1, 1⟩ : Rect).contains 9223372036854775807 0 ∧
    (⟨9223372036854775806, 0, 2, 1⟩ : Rect).contains 9223372036854775807 0 ∧
    ¬ (intersect64 ⟨9223372036854775807, 0, 1, 1⟩ ⟨9223372036854775806, 0, 2, 1⟩).contains
      9223372036854775807 0 ∧
    (intersect64 ⟨-9223372036854775808, 0, -1, 1⟩ ⟨-9223372036854775808, 0, -1, 1⟩).W = -1 := by
  decide

/-- C37, amended: for all rectangles `a` and `b` of 64-bit integers whose edge
sums `X + W` and `Y + H` do not overflow, sizes that are not positive included,
and every point `p`: `p` lies in `intersect a b` if and only if `p` lies in `a`
and in `b`, and the result never has a negative `W` or `H`; there the code
computes the intersection over the unbounded integers. For all rectangles
`intersect` is commutative. -/
theorem intersect64_is_meet (a b : Rect) :
    (a.isInt64 → b.isInt64 → a.noOverflow → b.noOverflow →
      (∀ x y : Int, (intersect64 a b).contains x y ↔ a.contains x y ∧ b.contains x y) ∧
      0 ≤ (intersect64 a b).W ∧ 0 ≤ (intersect64 a b).H ∧
      intersect64 a b = intersect a b) ∧
    intersect64 a b = intersect64 b a := by
  constructor
  · intro ha hb hna hnb
    rw [intersect64_eq a b ha hb hna hnb]
    exact ⟨(intersect_is_meet a b).1, (intersect_is_meet a b).2.1,
      (intersect_is_meet a b).2.2.1, rfl⟩
  · unfold intersect64
    rw [max_comm a.X b.X, max_comm a.Y b.Y,
      min_comm (wrap64 (a.X + a.W)) (wrap64 (b.X + b.W)),
      min_comm (wrap64 (a.Y + a.H)) (wrap64 (b.Y + b.H))]

/-- Witness of the amended C37: two overlapping rectangles, and a rectangle of
negative width, whose intersection with anything is empty. -/
theorem intersect64_is_meet_witness :
    (⟨0, 0, 10, 5⟩ : Rect).isInt64 ∧ (⟨4, 2, 10, 10⟩ : Rect).isInt64 ∧
    (⟨0, 0, 10, 5⟩ : Rect).noOverflow ∧ (⟨4, 2, 10, 10⟩ : Rect).noOverflow ∧
    intersect64 ⟨0, 0, 10, 5⟩ ⟨4, 2, 10, 10⟩ = ⟨4, 2, 6, 3⟩ ∧
    (∀ x y : Int, (intersect64 ⟨0, 0, 10, 5⟩ ⟨4, 2, 10, 10⟩).contains x y ↔
      (⟨0, 0, 10, 5⟩ : Rect).contains x y ∧ (⟨4, 2, 10, 10⟩ : Rect).contains x y) ∧
    0 ≤ (intersect64 ⟨0, 0, -3, 5⟩ ⟨0, 0, 10, 10⟩).W :=
  ⟨by decide, by decide, by decide, by decide, by decide,
   ((intersect64_is_meet ⟨0, 0, 10, 5⟩ ⟨4, 2, 10, 10⟩).1 (by decide) (by decide) (by decide)
     (by decide)).1,
   ((intersect64_is_meet ⟨0, 0, -3, 5⟩ ⟨0, 0, 10, 10⟩).1 (by decide) (by decide) (by decide)
     (by decide)).2.1⟩

theorem wrapWords_fits_or_single (leading : List Char) (maxWidth : Int)
    (P : List Char → Prop) :
    ∀ (ws : List (List Char)) (line : List Char) (lineLen : Int),
      lineLen = runeCount line →
      (runeCount line ≤ maxWidth ∨ ∃ w, P w ∧ line = leading ++ w) →
      (∀ w ∈ ws, P w) →
      ∀ l ∈ wrapWords leading maxWidth line lineLen ws,
        runeCount l ≤ maxWidth ∨ ∃ w, P w ∧ l = leading ++ w := by
  intro ws
  induction ws with
  | nil =>
    intro line lineLen _ hline _ l hl
    simp only [wrapWords, List.mem_singleton] at hl
    rw [hl]; exact hline
  | cons w ws ih =>
    intro line lineLen hlen hline hws l hl
    have hws2 : ∀ w ∈ ws, P w := fun v hv => hws v (List.mem_cons_of_mem _ hv)
    simp only [wrapWords] at hl
    by_cases hfit : lineLen + 1 + runeCount w ≤ maxWidth
    · rw [if_pos hfit] at hl
      have hcount : lineLen + 1 + runeCount w = runeCount (line ++ ' ' :: w) := by
        rw [hlen]
        simp only [runeCount, List.length_append, List.length_cons]
        push_cast
        omega
      exact ih _ _ hcount (Or.inl (by rw [← hcount]; exact hfit)) hws2 l hl
    · rw [if_neg hfit] at hl
      rcases List.mem_cons.1 hl with h | h
      · rw [h]; exact hline
      · have hcount : runeCount leading + runeCount w = runeCount (leading ++ w) := by
          simp only [runeCount, List.length_append]
          push_cast
          rfl
        exact ih _ _ hcount (Or.inr ⟨w, hws w (List.mem_cons_self _ _), rfl⟩) hws2 l h

theorem wrapLine_fits_or_single (maxWidth : Int) (raw : List Char) :
    ∀ l ∈ wrapLine maxWidth raw,
      runeCount l ≤ maxWidth ∨ l = leadingRun raw ∨
        ∃ w ∈ fields raw, l = leadingRun raw ++ w := by
  intro l hl
  have htake : raw.take (raw.length - (trimLeft raw).length) = leadingRun raw :=
    take_length_sub_dropWhile _ raw
  have hlead : ∀ c ∈ leadingRun raw, isSpace c = true := leading_isSpace raw
  have hsplit : leadingRun raw ++ trimLeft raw = raw :=
    List.takeWhile_append_dropWhile _ raw
  have hraw : fields raw = fields (trimLeft raw) := by
    conv_lhs => rw [← hsplit]
    exact fieldsAux_spaces_prefix _ hlead _
  simp only [wrapLine, htake] at hl
  by_cases ht : trimLeft raw = []
  · simp only [ht, if_true, List.mem_singleton] at hl
    exact Or.inr (Or.inl hl)
  · simp only [ht, if_false] at hl
    cases hf : fields (trimLeft raw) with
    | nil =>
      rw [hf] at hl
      simp only [List.mem_singleton] at hl
      exact Or.inr (Or.inl hl)
    | cons w0 ws =>
      rw [hf] at hl
      simp only [] at hl
      have hmem : ∀ w ∈ w0 :: ws, w ∈ fields raw := by
        intro w hw
        rw [hraw, hf]; exact hw
      rcases wrapWords_fits_or_single (leadingRun raw) maxWidth (fun w => w ∈ fields raw) ws _ _
        rfl (Or.inr ⟨w0, hmem w0 (List.mem_cons_self _ _), rfl⟩)
        (fun w hw => hmem w (List.mem_cons_of_mem _ hw)) l hl with h | ⟨w, hw, h⟩
      · exact Or.inl h
      · exact Or.inr (Or.inr ⟨w, hw, h⟩)

/-- C20, amended: `wrapText` splits text into lines without splitting a word:
for every string `s` and every `maxWidth > 0`, every line returned by
`wrapText s maxWidth` has at most `maxWidth` code points, unless it is the
leading run of spaces and tabs of its source line alone or followed by a
single word of that line. -/
theorem wrapText_line_fits_or_single_word (s : List Char) (maxWidth : Int)
    (hpos : 0 < maxWidth) :
    ∀ l ∈ wrapText s maxWidth, runeCount l ≤ maxWidth ∨
      ∃ raw ∈ splitLines s, l = leadingRun raw ∨ ∃ w ∈ fields raw, l = leadingRun raw ++ w := by
  rw [wrapText_eq_flatMap s maxWidth hpos]
  intro l hl
  obtain ⟨raw, hmem, hraw⟩ := List.mem_flatMap.1 hl
  rcases wrapLine_fits_or_single maxWidth raw l hraw with h | h | h
  · exact Or.inl h
  · exact Or.inr ⟨raw, hmem, Or.inl h⟩
  · exact Or.inr ⟨raw, hmem, Or.inr h⟩

/-- Witness of the amended C20: "  hello ab cd" wrapped at width 5 gives the
over-long line "  hello" of the leading run and one word, and the lines
"  ab" and "  cd", which fit. -/
theorem wrapText_line_fits_or_single_word_witness :
    (0 : Int) < 5 ∧
    wrapText [' ', ' ', 'h', 'e', 'l', 'l', 'o', ' ', 'a', 'b', ' ', 'c', 'd'] 5 =
      [[' ', ' ', 'h', 'e', 'l', 'l', 'o'], [' ', ' ', 'a', 'b'], [' ', ' ', 'c', 'd']] ∧
    ∀ l ∈ wrapText [' ', ' ', 'h', 'e', 'l', 'l', 'o', ' ', 'a', 'b', ' ', 'c', 'd'] 5,
      runeCount l ≤ 5 ∨
      ∃ raw ∈ splitLines [' ', ' ', 'h', 'e', 'l', 'l', 'o', ' ', 'a', 'b', ' ', 'c', 'd'],
        l = leadingRun raw ∨ ∃ w ∈ fields raw, l = leadingRun raw ++ w :=
  ⟨by decide, by decide,
   wrapText_line_fits_or_single_word
     [' ', ' ', 'h', 'e', 'l', 'l', 'o', ' ', 'a', 'b', ' ', 'c', 'd'] 5 (by decide)⟩

end Tooey
